import Mathlib

/-!
Verification development for the LocalDeepResearch research-orchestration
engine.  The definitions below are a shallow embedding of the TypeScript
sources (src/services/researchOrchestrator.ts together with the settings
module): document text is modelled as a list of characters, external
network effects (LLM completions, web searches, page fetches) are supplied
through oracle parameters, and the orchestrator's control flow is
reproduced statement by statement.
-/

namespace LDR

/-! ## Character classes and basic text utilities -/

/-- Whitespace class used by the source's regexes (JavaScript's s-escape)
and by String.prototype.trim.  The engine handles ASCII-oriented report
text, so the ASCII whitespace characters are modelled. -/
def isJsWs (c : Char) : Bool :=
  c == ' ' || c == '\t' || c == '\n' || c == '\r' || c == '\x0b' || c == '\x0c'

/-- Lowercasing of a single character (String.prototype.toLowerCase on the
ASCII range handled by the engine). -/
def lowerChar (c : Char) : Char :=
  if 'A' ≤ c && c ≤ 'Z' then Char.ofNat (c.toNat + 32) else c

/-- Left trim: drop leading whitespace. -/
def trimL (l : List Char) : List Char := l.dropWhile isJsWs

/-- Right trim: drop trailing whitespace. -/
def trimR (l : List Char) : List Char := (l.reverse.dropWhile isJsWs).reverse

/-- Both-sided trim, as String.prototype.trim. -/
def trimS (l : List Char) : List Char := trimR (trimL l)

/-- Splits a character list into its maximal runs, each run labelled with
the class (true or false under p) of its characters.  Runs are nonempty and
adjacent runs carry distinct labels; this is the standard reading of a
regex that matches maximal character-class runs. -/
def tokenizeBy (p : Char → Bool) : List Char → List (Bool × List Char)
  | [] => []
  | c :: rest =>
    match tokenizeBy p rest with
    | [] => [(p c, [c])]
    | (b, t) :: ts =>
      if p c == b then (b, c :: t) :: ts else (p c, [c]) :: (b, t) :: ts

/-! ## N-gram extraction (researchOrchestrator.ts, extractNgrams)

The source normalizes the sentence with
text.toLowerCase().replace(non [word ws apostrophe hyphen] chars, empty)
.replace(ws runs, one space).trim(), then splits on single spaces and
filters out empty strings.  Collapsing whitespace runs to single spaces,
trimming, splitting on spaces and dropping empties yields exactly the
maximal non-whitespace runs of the filtered text, which is how the word
list is computed here. -/

/-- Word-constituent characters (regex w-escape) after lowercasing. -/
def isWordChar (c : Char) : Bool :=
  ('a' ≤ c && c ≤ 'z') || ('0' ≤ c && c ≤ '9') || c == '_'

/-- Characters kept by the normalization replace: word characters,
whitespace, apostrophe and hyphen. -/
def isKeptChar (c : Char) : Bool :=
  isWordChar c || isJsWs c || c == '\'' || c == '-'

/-- The normalized word list of a sentence: lowercase, strip the
punctuation the source strips, then take the maximal non-whitespace runs. -/
def ngramWords (text : List Char) : List (List Char) :=
  (((tokenizeBy isJsWs ((text.map lowerChar).filter isKeptChar)).filter
      (fun t => !t.1)).map (fun t => t.2))

/-- Stop-word list from extractNgrams. -/
def stopWords : List (List Char) :=
  ["the".data, "a".data, "an".data, "and".data, "or".data, "but".data,
   "in".data, "on".data, "at".data, "to".data, "for".data, "of".data,
   "with".data, "by".data, "from".data, "is".data, "are".data, "was".data,
   "were".data, "be".data, "been".data, "has".data, "have".data, "had".data,
   "this".data, "that".data, "these".data, "those".data, "it".data,
   "its".data, "as".data, "not".data, "no".data]

/-- extractNgrams from researchOrchestrator.ts: the for loop over window
start indices 0 .. words.length - n keeps a window exactly when at least
two of its words are not stop words, and emits the window joined with
single spaces. -/
def extractNgrams (text : List Char) (n : Nat) : List (List Char) :=
  let words := ngramWords text
  if words.length < n then []
  else
    (List.range (words.length - n + 1)).filterMap (fun i =>
      let gram := (words.drop i).take n
      if 2 ≤ (gram.filter (fun w => !(stopWords.contains w))).length
      then some (List.intercalate [' '] gram) else none)

/-! ## C9 support: declarative sliding windows and the spec's filter -/

/-- Sliding windows of width n over a word list, defined recursively
(independently of the index loop used by extractNgrams). -/
def windowsN (n : Nat) : List (List Char) → List (List (List Char))
  | [] => if n == 0 then [[]] else []
  | w :: ws => if (w :: ws).length < n then [] else ((w :: ws).take n) :: windowsN n ws

/-- The filter stated by the spec for C9: a gram is kept whenever it
contains at least one non-stop word (only stop-word-only grams discarded). -/
def specKeepsGram (gram : List (List Char)) : Bool :=
  gram.any (fun w => !(stopWords.contains w))

/-- N-gram extraction as the spec sentence for C9 words it (second
definition following the spec, for comparison with extractNgrams). -/
def extractNgramsSpec (text : List Char) (n : Nat) : List (List Char) :=
  ((windowsN n (ngramWords text)).filter specKeepsGram).map (List.intercalate [' '])

/-! ## Shared string representation for the orchestrator model

Model-level strings are lists of characters, so that every operation the
source performs on them (trim, lowercase, splitting) is a computable list
function that the kernel can evaluate on concrete inputs. -/

/-- Model-level string. -/
abbrev Str := List Char

/-- Lowercase a model string (String.prototype.toLowerCase). -/
def lowerStr (s : Str) : Str := s.map lowerChar

/-- Split a string on every newline, keeping empty pieces, as
String.prototype.split with a newline separator does. -/
def splitLines : Str → List Str
  | [] => [[]]
  | c :: rest =>
    match splitLines rest with
    | [] => [[]]
    | l :: ls => if c == '\n' then [] :: l :: ls else (c :: l) :: ls

/-! ## Data model (researchOrchestrator.ts types) -/

/-- ResearchSource: one fetched web document.  The fetchedAt timestamp is
irrelevant to every claim and is omitted; relevanceScore is optional until
the scoring pass assigns it. -/
structure ResearchSource where
  url : Str
  title : Str
  snippet : Str
  content : Str
  relevanceScore : Option Nat
deriving DecidableEq, Repr

/-- KnowledgeGap: an AI-identified deficiency in the current synthesis. -/
structure KnowledgeGap where
  id : Str
  description : Str
  importance : Int
  suggestedQueries : List Str
deriving DecidableEq, Repr

/-! ## identifyKnowledgeGaps (lines 1286-1348)

The regex extraction and JSON.parse of the completion response are
abstracted as the parsed payload: some gaps when a bracketed JSON array
parsed, none when no match was found or parsing threw (both fall through
to the empty return).  The code then filters by importance and returns --
there is no slice or cap applied in code. -/

/-- identifyKnowledgeGaps on the parsed completion payload. -/
def identifyKnowledgeGaps (parsed : Option (List KnowledgeGap)) : List KnowledgeGap :=
  match parsed with
  | some gaps => gaps.filter (fun g => 5 ≤ g.importance)
  | none => []

/-! ## scoreSourceRelevance (lines 442-479)

Sources are processed in batches of 10.  For each batch one completion
call is made; the digit-array regex match plus JSON.parse is abstracted as
an Option (List Nat) (the regex only ever matches arrays of non-negative
integers).  A successful parse assigns scores positionally, where a
missing entry reads as undefined and a zero entry is falsy -- both take
the default 5 through the JavaScript or-expression.  A failed parse
assigns 5 to the whole batch via the catch handler. -/

/-- Map with the element index threaded through (the callback index of
Array.prototype.forEach and friends). -/
def mapWithIndex (f : Nat → α → β) : Nat → List α → List β
  | _, [] => []
  | i, x :: xs => f i x :: mapWithIndex f (i + 1) xs

/-- Fixed-size chunking of a list (the batch loop with slice). -/
def chunksOf (k : Nat) (l : List α) : List (List α) :=
  let st := l.foldl (fun (st : List α × List (List α)) a =>
    if st.1.length + 1 == k then ([], (a :: st.1).reverse :: st.2)
    else (a :: st.1, st.2)) ([], [])
  match st with
  | ([], out) => out.reverse
  | (cur, out) => out.reverse ++ [cur.reverse]

/-- Score assignment for one batch from its parsed completion payload. -/
def scoreBatchAssign (parsed : Option (List Nat)) (batch : List ResearchSource) :
    List ResearchSource :=
  match parsed with
  | some scores => mapWithIndex (fun idx s =>
      { s with relevanceScore := some (if scores.getD idx 0 = 0 then 5 else scores.getD idx 0) })
      0 batch
  | none => batch.map (fun s => { s with relevanceScore := some 5 })

/-- scoreSourceRelevance: in-place score mutation modelled as returning
the updated source list, batch by batch. -/
def scoreSourceRelevance (parse : Nat → Option (List Nat))
    (sources : List ResearchSource) : List ResearchSource :=
  (mapWithIndex (fun bi batch => scoreBatchAssign (parse bi) batch) 0 (chunksOf 10 sources)).flatten

/-! ## createSearchPlan (lines 403-436)

The completion response is split into lines, each line is trimmed, empty
lines and numbered list artifacts (a digit run followed by a period or
closing parenthesis) are dropped, the first targetQueries survivors are
kept, and the original query is prepended after removing any survivor
equal to it case-insensitively. -/

/-- Test for the numbering artifact regex (leading digits then a period or
closing parenthesis). -/
def isNumberedLine (l : Str) : Bool :=
  let ds := l.takeWhile (fun c => '0' ≤ c && c ≤ '9')
  let rest := l.dropWhile (fun c => '0' ≤ c && c ≤ '9')
  !ds.isEmpty && (rest.head? == some '.' || rest.head? == some ')')

/-- createSearchPlan on the raw completion response text. -/
def createSearchPlan (query : Str) (targetQueries : Nat) (response : Str) : List Str :=
  let queries := (((splitLines response).map trimS).filter
      (fun q => 0 < q.length && !(isNumberedLine q))).take targetQueries
  query :: queries.filter (fun q => !(lowerStr q == lowerStr query))

/-! ## The research pipeline model (researchOrchestrator.ts, research)

The orchestrator's effectful calls are supplied by an Oracle record:
completion texts are opaque strings, the parse outcomes of JSON-bearing
completions are given as parsed payloads, the n-th search call either
yields a result list or fails (the rejection that the source catches), and
page fetches return their best-effort text (empty on failure, as
SearchService.fetchPageContent guarantees).  The cancellation signal is a
constant Bool: the claims under test concern a signal already set before
the run (an AbortSignal's aborted flag is monotone).  Ghost counters
record how many synthesis passes, gap analyses and gap-search rounds ran;
they alter no control flow. -/

/-- One raw search result from the search client. -/
structure SearchResult where
  url : Str
  title : Str
  content : Str
deriving DecidableEq, Repr

/-- Intensity profile knobs (config/settings.ts, IntensityConfig). -/
structure IntensityConfig where
  maxSources : Nat
  maxSearchQueries : Nat
  parallelSearches : Nat
  sourcesPerSearch : Nat
  synthesisLevels : Nat
  adaptiveIterations : Nat
  gapQueriesPerIteration : Nat
deriving DecidableEq, Repr

/-- Report detail level (config/settings.ts, ReportDetailLevel). -/
inductive DetailLevel
  | standard
  | detailed
  | comprehensive
deriving DecidableEq, Repr

/-- Research configuration (config/settings.ts, ResearchConfig, plus the
report detail level consumed by the report generator). -/
structure ResearchConfig where
  enableAdaptiveResearch : Bool
  maxResearchIterations : Nat
  reportDetailLevel : DetailLevel
  intensity : Str
deriving DecidableEq, Repr

/-- Distinguished failure conditions of a run: the cancellation error
(thrown as the literal message "Research cancelled", which App.tsx
pattern-matches on) versus any other failure. -/
inductive RunError
  | cancelled
  | failure (msg : Str)
deriving DecidableEq, Repr

/-- Oracle for the run's external effects. -/
structure Oracle where
  planResponse : Str
  search : Nat → Except Unit (List SearchResult)
  fetch : Str → Str
  scoreParse : Nat → Nat → Option (List Nat)
  gapsParse : Nat → Option (List KnowledgeGap)
  synthText : Nat → Str
  summaryText : Str
  reportSections : List (Str × Str)

/-- The final report value (ResearchReport with its metadata flattened;
the wall-clock duration is not modelled). -/
structure ResearchReport where
  query : Str
  refinedQuery : Option Str
  summary : Str
  sections : List (Str × Str)
  sources : List ResearchSource
  totalSources : Nat
  totalSearches : Nat
  intensity : Str
deriving DecidableEq, Repr

/-- Ghost statistics of a run: the final gathered source list (the
orchestrator's allSources at report time), stage counters, and the number
of cancellation checkpoints the run evaluated. -/
structure RunStats where
  gathered : List ResearchSource
  synthPasses : Nat
  gapAnalyses : Nat
  gapSearchRounds : Nat
  checkpoints : Nat
deriving DecidableEq, Repr

/-- The cancellation signal.  An AbortSignal is consulted only at the
checkCancellation call sites (the checkpoints); once its aborted flag is
set it stays set, so a signal is fully described by the index of the
first checkpoint that observes it set: none never aborts, some 0 is
already set when the run starts, and some N with 0 < N becomes set
mid-run, between the (N-1)-th and the N-th checkpoint.  Checkpoints are
numbered by a tick counter threaded through the run and advanced exactly
once per checkpoint. -/
def aborted : Option Nat → Nat → Bool
  | none, _ => false
  | some N, t => decide (N ≤ t)

/-- JavaScript's or-default on strings: an empty string is falsy. -/
def orElseStr (a b : Str) : Str := if a.isEmpty then b else a

/-- incorporateClarifyingAnswers (lines 389-397). -/
def incorporateClarifyingAnswers (query : Str) (answers : List (Str × Str)) : Str :=
  if answers.isEmpty then query
  else query ++ "\n\nAdditional context: ".data ++
    List.intercalate ". ".data (answers.map (fun a => a.2))

/-- Source built from one search result (lines 186-192): the snippet is
the result's content (already a string, so the or-empty default is the
identity), the content is the fetched page text with the search snippet
as fallback. -/
def mkSource (fetch : Str → Str) (sr : SearchResult) : ResearchSource :=
  { url := sr.url, title := sr.title, snippet := sr.content,
    content := orElseStr (fetch sr.url) sr.content, relevanceScore := none }

/-- Inner result loop of the batch gatherer (lines 167-193): skip urls
already seen, stop adding at maxSources (the break leaves the remaining
results of this list unprocessed), otherwise record the url as seen and
append the fetched source. -/
def addResults (maxSources : Nat) (fetch : Str → Str) :
    List ResearchSource × List Str → List SearchResult → List ResearchSource × List Str
  | st, [] => st
  | (sources, seen), sr :: rest =>
    if sr.url ∈ seen then addResults maxSources fetch (sources, seen) rest
    else if maxSources ≤ sources.length then (sources, seen)
    else addResults maxSources fetch
      (sources ++ [mkSource fetch sr], sr.url :: seen) rest

/-- Result processing for one batch (lines 164-194): each result list is
cut to sourcesPerSearch and folded through the inner loop. -/
def processBatch (maxSources sourcesPerSearch : Nat) (fetch : Str → Str)
    (st : List ResearchSource × List Str) (batchResults : List (List SearchResult)) :
    List ResearchSource × List Str :=
  batchResults.foldl (fun st res => addResults maxSources fetch st (res.take sourcesPerSearch)) st

/-- The batch loop of research (lines 139-195).  State: gathered sources,
seen urls, the global search-call counter, and totalSearches.  Each batch:
cancellation checkpoint, stop when maxSources is reached, issue one search
call per query (an individual failure degrades to an empty result list via
the catch), then process the results. -/
def gatherBatches (sig : Option Nat) (search : Nat → Except Unit (List SearchResult))
    (maxSources sourcesPerSearch : Nat) (fetch : Str → Str) :
    List (List Str) → List ResearchSource × List Str × Nat × Nat × Nat →
      Except RunError (List ResearchSource × List Str × Nat × Nat × Nat)
  | [], st => .ok st
  | batch :: rest, (sources, seen, ctr, ts, t) =>
    if aborted sig t then .error .cancelled
    else if maxSources ≤ sources.length then .ok (sources, seen, ctr, ts, t + 1)
    else
      let results := (List.range batch.length).map
        (fun i => ((search (ctr + i)).toOption.getD []))
      let st2 := processBatch maxSources sourcesPerSearch fetch (sources, seen) results
      gatherBatches sig search maxSources sourcesPerSearch fetch rest
        (st2.1, st2.2, ctr + batch.length, ts + batch.length, t + 1)

/-- Stable descending insertion by relevance score: the JavaScript stable
sort with comparator (b.relevanceScore or 0) - (a.relevanceScore or 0). -/
def insertDesc (s : ResearchSource) : List ResearchSource → List ResearchSource
  | [] => [s]
  | x :: xs =>
    if x.relevanceScore.getD 0 < s.relevanceScore.getD 0 then s :: x :: xs
    else x :: insertDesc s xs

/-- Stable sort of the source list by descending relevance score. -/
def sortByScoreDesc (l : List ResearchSource) : List ResearchSource :=
  l.foldl (fun acc x => insertDesc x acc) []

/-- searchForGaps inner processing of one search's results (lines
1380-1403): first three results, deduplicated against the seen set, no
maxSources cap. -/
def addGapResults (fetch : Str → Str) :
    List ResearchSource × List Str → List SearchResult → List ResearchSource × List Str
  | st, [] => st
  | (ns, seen), sr :: rest =>
    if sr.url ∈ seen then addGapResults fetch (ns, seen) rest
    else addGapResults fetch (ns ++ [mkSource fetch sr], sr.url :: seen) rest

/-- One gap-filling query (lines 1373-1406): cancellation checkpoint, then
one search call whose failure is swallowed by the catch. -/
def gapQueryStep (sig : Option Nat) (search : Nat → Except Unit (List SearchResult))
    (fetch : Str → Str) (st : List ResearchSource × List Str × Nat × Nat) :
    Except RunError (List ResearchSource × List Str × Nat × Nat) :=
  if aborted sig st.2.2.2 then .error .cancelled
  else
    match search st.2.2.1 with
    | .error _ => .ok (st.1, st.2.1, st.2.2.1 + 1, st.2.2.2 + 1)
    | .ok results =>
      let st2 := addGapResults fetch (st.1, st.2.1) (results.take 3)
      .ok (st2.1, st2.2, st.2.2.1 + 1, st.2.2.2 + 1)

/-- Query list fold for gap filling. -/
def gapQueriesFold (sig : Option Nat) (search : Nat → Except Unit (List SearchResult))
    (fetch : Str → Str) :
    List Str → List ResearchSource × List Str × Nat × Nat →
      Except RunError (List ResearchSource × List Str × Nat × Nat)
  | [], st => .ok st
  | _ :: qs, st =>
    match gapQueryStep sig search fetch st with
    | .error e => .error e
    | .ok st2 => gapQueriesFold sig search fetch qs st2

/-- searchForGaps (lines 1350-1411): for each gap, up to
gapQueriesPerIteration of its suggested queries are searched. -/
def searchForGaps (sig : Option Nat) (search : Nat → Except Unit (List SearchResult))
    (fetch : Str → Str) (queriesPerGap : Nat) :
    List KnowledgeGap → List ResearchSource × List Str × Nat × Nat →
      Except RunError (List ResearchSource × List Str × Nat × Nat)
  | [], st => .ok st
  | gap :: gaps, st =>
    match gapQueriesFold sig search fetch (gap.suggestedQueries.take queriesPerGap) st with
    | .error e => .error e
    | .ok st2 => searchForGaps sig search fetch queriesPerGap gaps st2

/-- State of the adaptive synthesis loop (lines 212-292) together with the
ghost counters. -/
structure LoopState where
  sources : List ResearchSource
  seen : List Str
  searchCtr : Nat
  totalSearches : Nat
  synthesis : Str
  scoreInv : Nat
  gapCtr : Nat
  synthCtr : Nat
  synthPasses : Nat
  gapAnalyses : Nat
  gapSearchRounds : Nat
  tick : Nat

/-- Post-level cancellation checkpoints of hierarchicalSynthesis (lines
502, 514, 526): one after source summarisation, a second after theme
synthesis when at least two levels run, a third after cross-theme
analysis when at least three levels run.  The level texts themselves are
opaque completion output (synthText). -/
def synthChecks (sig : Option Nat) (levels t : Nat) : Except RunError Nat :=
  if aborted sig t then .error .cancelled
  else if levels < 2 then .ok (t + 1)
  else if aborted sig (t + 1) then .error .cancelled
  else if levels < 3 then .ok (t + 2)
  else if aborted sig (t + 2) then .error .cancelled
  else .ok (t + 3)

/-- The adaptive loop (lines 212-292), fueled by the remaining permitted
iterations (fuel = maxIterations + 1 - iteration, so the while condition
iteration LE maxIterations is fuel being positive, and the break condition
iteration GE maxIterations is the fuel having reached one). -/
def adaptiveLoop (o : Oracle) (sig : Option Nat) (cfg : ResearchConfig)
    (icfg : IntensityConfig) : Nat → LoopState → Except RunError LoopState
  | 0, st => .ok st
  | f + 1, st =>
    if aborted sig st.tick then .error .cancelled
    else
      match synthChecks sig icfg.synthesisLevels (st.tick + 1) with
      | .error e => .error e
      | .ok tS =>
        let st1 := { st with
          synthesis := o.synthText st.synthCtr,
          synthCtr := st.synthCtr + 1,
          synthPasses := st.synthPasses + 1,
          tick := tS }
        if !cfg.enableAdaptiveResearch || f = 0 then .ok st1
        else
          let gaps := identifyKnowledgeGaps (o.gapsParse st1.gapCtr)
          let st2 := { st1 with gapCtr := st1.gapCtr + 1, gapAnalyses := st1.gapAnalyses + 1 }
          if gaps.isEmpty then .ok st2
          else
            match searchForGaps sig o.search o.fetch icfg.gapQueriesPerIteration gaps
                (([] : List ResearchSource), st2.seen, st2.searchCtr, st2.tick) with
            | .error e => .error e
            | .ok (newSources, seen2, ctr2, t2) =>
              let st3 := { st2 with
                seen := seen2,
                searchCtr := ctr2,
                tick := t2,
                gapSearchRounds := st2.gapSearchRounds + 1 }
              if newSources.isEmpty then .ok st3
              else
                let scored := scoreSourceRelevance (o.scoreParse st3.scoreInv) newSources
                let st4 := { st3 with
                  sources := sortByScoreDesc (st3.sources ++ scored),
                  scoreInv := st3.scoreInv + 1,
                  totalSearches := st3.totalSearches +
                    (gaps.map (fun g => g.suggestedQueries.length)).sum }
                adaptiveLoop o sig cfg icfg f st4

/-- The report-source selection of generateComprehensiveReport (lines
714-717): drop sources scoring below 2, unless fewer than 10 would
remain. -/
def reportSourcesSelect (sources : List ResearchSource) : List ResearchSource :=
  let filtered := sources.filter (fun s => 2 ≤ s.relevanceScore.getD 0)
  if 10 ≤ filtered.length then filtered else sources

/-- Per-section cancellation checkpoints of the section-by-section report
writer (line 942): one before each section is generated; the section
texts themselves are opaque completion output (reportSections). -/
def reportChecks (sig : Option Nat) : Nat → List (Str × Str) → Except RunError Nat
  | t, [] => .ok t
  | t, _ :: rest =>
    if aborted sig t then .error .cancelled
    else reportChecks sig (t + 1) rest

/-- generateComprehensiveReport (lines 704-724).  Both report modes embed
the selected source list and differ only in how the section text is
produced, which is opaque completion output here.  Standard mode runs a
single pre-completion checkpoint (line 778); the sectioned modes run the
outline checkpoint (line 837) and one checkpoint per report section (line
942).  The conditional executive-summary checkpoint (line 1129) rides on
the opaque summary completion and is not counted separately. -/
def generateComprehensiveReport (o : Oracle) (sig : Option Nat) (t : Nat)
    (cfg : ResearchConfig) (originalQuery refinedQuery : Str)
    (sources : List ResearchSource) : Except RunError (ResearchReport × Nat) :=
  let rep : ResearchReport :=
    { query := originalQuery,
      refinedQuery := if refinedQuery == originalQuery then none else some refinedQuery,
      summary := o.summaryText,
      sections := o.reportSections,
      sources := reportSourcesSelect sources,
      totalSources := 0, totalSearches := 0, intensity := [] }
  match cfg.reportDetailLevel with
  | DetailLevel.standard =>
    if aborted sig t then .error .cancelled else .ok (rep, t + 1)
  | _ =>
    if aborted sig t then .error .cancelled
    else
      match reportChecks sig (t + 1) o.reportSections with
      | .error e => .error e
      | .ok t2 => .ok (rep, t2)

/-- research (lines 110-338): plan, gather in batches, score, sort, run
the adaptive loop, and generate the report with its metadata. -/
def research (o : Oracle) (sig : Option Nat) (cfg : ResearchConfig)
    (icfg : IntensityConfig) (query : Str) (clarifyingAnswers : List (Str × Str)) :
    Except RunError (ResearchReport × RunStats) :=
  let refinedQuery := if clarifyingAnswers.isEmpty then query
    else incorporateClarifyingAnswers query clarifyingAnswers
  let searchPlan := createSearchPlan refinedQuery icfg.maxSearchQueries o.planResponse
  if aborted sig 0 then .error .cancelled
  else
    let totalQueries := min searchPlan.length icfg.maxSearchQueries
    let batches := chunksOf icfg.parallelSearches (searchPlan.take totalQueries)
    match gatherBatches sig o.search icfg.maxSources icfg.sourcesPerSearch o.fetch
        batches ([], [], 0, 0, 1) with
    | .error e => .error e
    | .ok (gathered, seen, searchCtr, totalSearches, t1) =>
      if aborted sig t1 then .error .cancelled
      else
        let scored := scoreSourceRelevance (o.scoreParse 0) gathered
        let sorted := sortByScoreDesc scored
        let maxIterations := if cfg.enableAdaptiveResearch
          then min cfg.maxResearchIterations icfg.adaptiveIterations else 1
        match adaptiveLoop o sig cfg icfg maxIterations
            { sources := sorted, seen := seen, searchCtr := searchCtr,
              totalSearches := totalSearches, synthesis := [],
              scoreInv := 1, gapCtr := 0, synthCtr := 0,
              synthPasses := 0, gapAnalyses := 0, gapSearchRounds := 0,
              tick := t1 + 1 } with
        | .error e => .error e
        | .ok st =>
          if aborted sig st.tick then .error .cancelled
          else
            match generateComprehensiveReport o sig (st.tick + 1) cfg query refinedQuery
                st.sources with
            | .error e => .error e
            | .ok (rep, t3) =>
              .ok ({ rep with
                      totalSources := st.sources.length,
                      totalSearches := st.totalSearches,
                      intensity := cfg.intensity },
                   { gathered := st.sources,
                     synthPasses := st.synthPasses,
                     gapAnalyses := st.gapAnalyses,
                     gapSearchRounds := st.gapSearchRounds,
                     checkpoints := t3 })

/-! ## C2: cancellation unwinds the run with the distinguished condition -/

/-! ## C5: exactly one synthesis pass when adaptive research is off -/

/-! ## C6: a search client that always fails still yields a (zero-source)
report -/

/-- Concrete oracle whose search always rejects, used by witnesses. -/
def oracleNoSearch : Oracle :=
  { planResponse := "extra query line".data,
    search := fun _ => .error (),
    fetch := fun _ => [],
    scoreParse := fun _ _ => none,
    gapsParse := fun _ => some [⟨"g1".data, "d".data, 8, ["q2".data]⟩],
    synthText := fun _ => [],
    summaryText := [],
    reportSections := [] }

/-- Concrete non-adaptive research configuration. -/
def cfgNonAdaptive : ResearchConfig :=
  { enableAdaptiveResearch := false, maxResearchIterations := 9,
    reportDetailLevel := DetailLevel.detailed, intensity := "quick".data }

/-- Concrete adaptive research configuration. -/
def cfgAdaptive : ResearchConfig :=
  { enableAdaptiveResearch := true, maxResearchIterations := 3,
    reportDetailLevel := DetailLevel.standard, intensity := "deep".data }

/-- Concrete intensity profile (the quick profile of settings.ts). -/
def icfgQuick : IntensityConfig :=
  { maxSources := 10, maxSearchQueries := 5, parallelSearches := 2,
    sourcesPerSearch := 3, synthesisLevels := 1, adaptiveIterations := 1,
    gapQueriesPerIteration := 2 }

/-! ## C1 support: url uniqueness invariant of the gathering stages -/

/-- Url projection of a source list. -/
def urlsOf (l : List ResearchSource) : List Str := l.map (fun s => s.url)

/-- Invariant maintained by every gathering stage: the gathered urls are
pairwise distinct and every one of them has been recorded in the seen
set. -/
def UrlInv (sources : List ResearchSource) (seen : List Str) : Prop :=
  (urlsOf sources).Nodup ∧ ∀ s ∈ sources, s.url ∈ seen

/-- Concrete three-result search payload containing a duplicate url. -/
def srListDup : List SearchResult :=
  [⟨"u1".data, "t1".data, "c1".data⟩,
   ⟨"u2".data, "t2".data, "c2".data⟩,
   ⟨"u1".data, "t3".data, "c3".data⟩]

/-- Concrete oracle returning the duplicate-url payload on the first
search. -/
def oracleDup : Oracle :=
  { planResponse := [],
    search := fun n => if n == 0 then .ok srListDup else .error (),
    fetch := fun _ => "page".data,
    scoreParse := fun _ _ => some [7, 3],
    gapsParse := fun _ => none,
    synthText := fun _ => [],
    summaryText := [],
    reportSections := [] }

/-! ## C10: the report's source list versus the gathered source list -/

/-- Concrete intensity profile wide enough to take eleven sources from one
search. -/
def icfgEleven : IntensityConfig :=
  { maxSources := 50, maxSearchQueries := 5, parallelSearches := 2,
    sourcesPerSearch := 11, synthesisLevels := 2, adaptiveIterations := 2,
    gapQueriesPerIteration := 2 }

/-- Concrete oracle returning eleven distinct sources, ten of which score
at least 2 and one of which scores 1. -/
def oracleEleven : Oracle :=
  { planResponse := [],
    search := fun n => if n == 0
      then .ok ((List.range 11).map (fun i =>
        ⟨"u".data ++ [Char.ofNat (48 + i)], "t".data, "c".data⟩))
      else .error (),
    fetch := fun _ => "page".data,
    scoreParse := fun _ bi => if bi == 0 then some [3,3,3,3,3,3,3,3,3,3] else some [1],
    gapsParse := fun _ => none,
    synthText := fun _ => [],
    summaryText := [],
    reportSections := [] }

/-! ## C7: the dedup post-processor (deduplicateReportSections)

Sentence boundaries in the source are the regex split on a whitespace run
with a sentence-final character just before it and an uppercase letter,
bracket or quote just after it.  A regex match is therefore exactly a
maximal whitespace run whose neighbouring characters satisfy the
lookbehind and lookahead, so the split is modelled on the maximal-run
tokenization: a token list is cut at every token satisfying a cut
predicate that sees the character just before the token and the token
after it.  The paragraph split on a run of at least two newlines is the
same construction with a context-free cut predicate. -/

/-- Sentence-final characters of the lookbehind class. -/
def isSentEndChar (c : Char) : Bool := c == '.' || c == '!' || c == '?'

/-- Sentence-start characters of the lookahead class (uppercase ASCII
letter, opening bracket, double quote). -/
def isSentStartChar (c : Char) : Bool := ('A' ≤ c && c ≤ 'Z') || c == '[' || c == '"'

/-- Generic splitter of a token list at cut tokens.  The first argument of
the cut predicate is the character immediately before the token (the last
character of the previous token), the last is the following token.  Cut
tokens are dropped; the JavaScript split semantics (leading, trailing and
lone empty pieces) fall out of the base case. -/
def splitToks (cut : Option Char → (Bool × Str) → Option (Bool × Str) → Bool) :
    Option Char → List (Bool × Str) → List (List (Bool × Str))
  | _, [] => [[]]
  | prev, t :: rest =>
    let r := splitToks cut (t.2.getLast?) rest
    if cut prev t rest.head? then [] :: r
    else
      match r with
      | [] => [[t]]
      | p :: ps => (t :: p) :: ps

/-- Lookbehind test: the character before the run is sentence-final. -/
def prevEndsB : Option Char → Bool
  | some c => isSentEndChar c
  | none => false

/-- Lookahead test: the following token starts with a sentence-start
character. -/
def nextStartsB : Option (Bool × Str) → Bool
  | some t =>
    match t.2.head? with
    | some c => isSentStartChar c
    | none => false
  | none => false

/-- Cut rule of the sentence splitter: a whitespace run whose neighbours
pass the lookbehind and lookahead. -/
def sentCut (prev : Option Char) (t : Bool × Str) (nx : Option (Bool × Str)) : Bool :=
  t.1 && prevEndsB prev && nextStartsB nx

/-- Cut rule of the paragraph splitter: a newline run of length at least
two, no context. -/
def paraCut (_ : Option Char) (t : Bool × Str) (_ : Option (Bool × Str)) : Bool :=
  t.1 && decide (2 ≤ t.2.length)

/-- Characters of a token-list piece. -/
def flattenToks (p : List (Bool × Str)) : Str := (p.map (fun t => t.2)).flatten

/-- Raw sentence pieces of a text (before trimming and the length
filter). -/
def sentParts (text : Str) : List Str :=
  (splitToks sentCut none (tokenizeBy isJsWs text)).map flattenToks

/-- splitIntoSentences (lines 1625-1635): split at the regex boundary,
trim each piece, keep the ones longer than 10 characters. -/
def splitIntoSentences (text : Str) : List Str :=
  ((sentParts text).map trimS).filter (fun s => 10 < s.length)

/-- Paragraph pieces of a section content: the split on runs of at least
two newlines (line 1518). -/
def paraParts (text : Str) : List Str :=
  (splitToks paraCut none (tokenizeBy (fun c => c == '\n') text)).map flattenToks

/-- Report section of the dedup pass. -/
structure Sec where
  title : Str
  content : Str
deriving DecidableEq, Repr

/-- The deferred-summary sentinel value. -/
def placeholderStr : Str := "__EXEC_SUMMARY_PLACEHOLDER__".data

/-- Skip list of the dedup pass (title substrings, lowercased). -/
def skipTitles : List Str := ["methodology".data, "references".data]

/-- String.prototype.startsWith. -/
def startsWithStr (pat l : Str) : Bool := l.take pat.length == pat

/-- String.prototype.includes. -/
def hasSubstr (pat : Str) : Str → Bool
  | [] => pat.isEmpty
  | c :: rest => startsWithStr pat (c :: rest) || hasSubstr pat rest

/-- The generic-closing boilerplate test of lines 1537-1541. -/
def isGenericClosing (p : Str) : Bool :=
  let pl := lowerStr p
  hasSubstr "transparent and ethical practices".data pl ||
  hasSubstr "ethical decision-making, content integrity".data pl ||
  (hasSubstr "broader concerns about".data pl && hasSubstr "gaming industry".data pl)

/-- Sentence loop of the dedup pass (lines 1551-1576).  Returns the kept
sentences, the grown 4-gram set, and a ghost flag recording whether any
sentence was dropped by the dual threshold.  The set is a membership list;
adding all grams of a sentence appends them.  The ratio test
matchCount / ngrams.length at least 0.3 is the exact rational comparison
10 * matchCount at least 3 * ngrams.length: for the list lengths
reachable here the double-precision comparison agrees with the rational
one (the nearest fraction to 3/10 with such denominators is 3/10
itself). -/
def processSentences (first : Bool) (seen : List Str) : List Str → List Str × List Str × Bool
  | [] => ([], seen, false)
  | s :: rest =>
    let ng := extractNgrams s 4
    if first then
      let r := processSentences first (seen ++ ng) rest
      (s :: r.1, r.2.1, r.2.2)
    else
      let m := (ng.filter (fun g => decide (g ∈ seen))).length
      if 3 ≤ m ∧ 3 * ng.length ≤ 10 * m then
        let r := processSentences first seen rest
        (r.1, r.2.1, true)
      else
        let r := processSentences first (seen ++ ng) rest
        (s :: r.1, r.2.1, r.2.2)

/-- Paragraph step of the dedup pass (lines 1521-1581): headers and
horizontal rules pass through untouched, Forward-Looking-Statement blocks
and generic closing paragraphs survive only in the last section, every
other paragraph has its sentences filtered and rejoined with single
spaces (a paragraph whose sentences all disappear is dropped). -/
def processPara (first isLast : Bool) (seen : List Str) (p : Str) :
    Option Str × List Str × Bool :=
  if startsWithStr "#".data (trimS p) || startsWithStr "---".data (trimS p) then
    (some p, seen, false)
  else if startsWithStr "Forward-Looking Statement".data (trimS p) ||
      startsWithStr "**Forward-Looking Statement**".data (trimS p) then
    (if isLast then some p else none, seen, false)
  else if isGenericClosing p then (if isLast then some p else none, seen, false)
  else
    let r := processSentences first seen (splitIntoSentences p)
    (if r.1.isEmpty then none else some (List.intercalate " ".data r.1), r.2.1, r.2.2)

/-- Paragraph list fold of one section. -/
def processParas (first isLast : Bool) (seen : List Str) : List Str → List Str × List Str × Bool
  | [] => ([], seen, false)
  | p :: ps =>
    let r1 := processPara first isLast seen p
    let r2 := processParas first isLast r1.2.1 ps
    (match r1.1 with
     | some q => q :: r2.1
     | none => r2.1, r2.2.1, r1.2.2 || r2.2.2)

/-- One section of the dedup pass (lines 1513-1591): paragraphs are
re-split, filtered, rejoined with blank lines and trimmed; the section
content is replaced only when more than 100 characters survive.  Returns
the chosen content, the gram set, the ghost drop flag, and whether the
content was replaced. -/
def processSection (first isLast : Bool) (seen : List Str) (content : Str) :
    Str × List Str × Bool × Bool :=
  let r := processParas first isLast seen (paraParts content)
  let newContent := trimS (List.intercalate "\n\n".data r.1)
  (if 100 < newContent.length then newContent else content, r.2.1, r.2.2,
   100 < newContent.length)

/-- Sections skipped by the dedup pass: the deferred-summary placeholder
and the skip-listed titles. -/
def isSkippedSection (sec : Sec) : Bool :=
  sec.content == placeholderStr ||
  skipTitles.any (fun k => hasSubstr k (lowerStr sec.title))

/-- Section fold of the dedup pass; n is the total section count (the
last index gets the keep-boilerplate treatment), first tracks the first
content-bearing section (exempt from dropping). -/
def dedupGo (n : Nat) : Nat → List Str → Bool → List Sec → List Sec
  | _, _, _, [] => []
  | i, seen, first, sec :: rest =>
    if isSkippedSection sec then sec :: dedupGo n (i + 1) seen first rest
    else
      let r := processSection first (i == n - 1) seen sec.content
      { title := sec.title, content := r.1 } :: dedupGo n (i + 1) r.2.1 false rest

/-- deduplicateReportSections (lines 1502-1592), modelled as returning the
updated section list. -/
def deduplicateReportSections (sections : List Sec) : List Sec :=
  dedupGo sections.length 0 [] true sections

/-- Replay checker: re-runs the dedup pass over a section list and
reports whether any sentence would be dropped by the dual threshold.  In
strict mode every processed section must be drop-free; otherwise sections
that the pass leaves unmodified (in particular those whose recomputed
content stays at or under the minimum length, which the guard refuses to
replace) are exempt. -/
def cleanGo (strict : Bool) (n : Nat) : Nat → List Str → Bool → List Sec → Bool
  | _, _, _, [] => true
  | i, seen, first, sec :: rest =>
    if isSkippedSection sec then cleanGo strict n (i + 1) seen first rest
    else
      let r := processSection first (i == n - 1) seen sec.content
      (!r.2.2.1 || (!strict && r.1 == sec.content)) && cleanGo strict n (i + 1) r.2.1 false rest

/-- The claim's threshold property: replaying the dedup over its output
finds no sentence above the dual drop threshold anywhere. -/
def sectionsClean (sections : List Sec) : Bool :=
  cleanGo true sections.length 0 [] true sections

/-- The amended threshold property: above-threshold sentences can survive
only in sections that the minimum-content guard left unmodified. -/
def cleanExceptGuarded (sections : List Sec) : Bool :=
  cleanGo false sections.length 0 [] true sections

/-- Indexed form of the amended-idempotence hypothesis, aligned with the
recursion of the section fold. -/
def flsGo (n : Nat) : Nat → List Sec → List Sec → Bool
  | _, [], _ => true
  | _, _, [] => true
  | i, sin :: rin, sout :: rout =>
    (i == n - 1 || sin.content == sout.content ||
     (paraParts sout.content).all (fun p =>
       !(startsWithStr "Forward-Looking Statement".data (trimS p)))) &&
    flsGo n (i + 1) rin rout

/-- Hypothesis of the amended idempotence: in every non-final section that
the first run modified, no surviving paragraph begins with the bare
Forward-Looking-Statement prefix (a second run would strip such a
paragraph). -/
def flsSafeB (inp out : List Sec) : Bool :=
  flsGo inp.length 0 inp out

/-- Concrete baseline sentence (106 characters, 17 fresh words). -/
def baseSent : Str :=
  "Alpha bravo charlie delta echo foxtrot golf hotel india juliett kilo lima mike november oscar papa quebec.".data

/-- Concrete second sentence beginning with the boilerplate prefix. -/
def flsSent : Str :=
  "Forward-Looking Statement romeo sierra tango uniform victor whiskey xray yankee zulu memo nexus oasis prism.".data

/-- Concrete fresh second paragraph (126 characters). -/
def paraTwo : Str :=
  "Completely different material occupies this paragraph using shiny fresh vocabulary nobody repeated anywhere previously indeed.".data

/-- Concrete fresh closing section content. -/
def closeSent : Str :=
  "Closing section text stands alone with wholly original phrases that appear nowhere else in the entire document sample.".data

/-- Counterexample input to idempotence: the middle section's first
paragraph is a duplicated sentence followed by a sentence that begins with
the Forward-Looking-Statement prefix. -/
def cexA : List Sec :=
  [⟨"A".data, baseSent⟩,
   ⟨"B".data, baseSent ++ " ".data ++ flsSent ++ "\n\n".data ++ paraTwo⟩,
   ⟨"C".data, closeSent⟩]

/-- Counterexample input to the threshold property: the second section is
an exact duplicate of the first, so every gram of its only sentence is
already seen, yet the minimum-content guard keeps the section unchanged. -/
def cexB : List Sec :=
  [⟨"A".data, baseSent⟩, ⟨"B".data, baseSent⟩]

/-! ## Generic splitter lemmas

noCutSeq says that scanning a token sequence with the given cut
predicate never fires, where the lookahead of the final token is the
supplied continuation token; threadPrev is the lookbehind character after
scanning a sequence. -/

def noCutSeq (cut : Option Char → (Bool × Str) → Option (Bool × Str) → Bool) :
    Option Char → List (Bool × Str) → Option (Bool × Str) → Bool
  | _, [], _ => true
  | prev, t :: rest, after =>
    !cut prev t (rest.head?.or after) && noCutSeq cut t.2.getLast? rest after

def threadPrev : Option Char → List (Bool × Str) → Option Char
  | prev, [] => prev
  | _, t :: rest => threadPrev t.2.getLast? rest

/-- Lookahead on a character option: sentence-start test. -/
def headStartB : Option Char → Bool
  | some c => isSentStartChar c
  | none => false

/-- A token-list piece that occurs contiguously in a token list. -/
def ContigIn (q ts : List (Bool × Str)) : Prop := ∃ u v, ts = u ++ q ++ v

/-- A piece that begins with a non-whitespace token whose first character
is a sentence-start character. -/
def startsTokSS (q : List (Bool × Str)) : Prop :=
  ∃ t u, q = t :: u ∧ t.1 = false ∧ headStartB t.2.head? = true

/-- A piece that ends with a non-whitespace token whose last character is
a sentence-end character. -/
def endsTokSE (q : List (Bool × Str)) : Prop :=
  ∃ u t, q = u ++ [t] ∧ t.1 = false ∧ prevEndsB t.2.getLast? = true

/-- Drop a leading whitespace token. -/
def dropWsHead : List (Bool × Str) → List (Bool × Str)
  | (true, _) :: rest => rest
  | q => q

/-- Drop a trailing whitespace token. -/
def dropWsLast : List (Bool × Str) → List (Bool × Str)
  | [] => []
  | [(true, _)] => []
  | [t] => [t]
  | t :: rest => t :: dropWsLast rest

/-- Right-trim applied to the last paragraph of a list. -/
def etRest : List Str → List Str
  | [] => []
  | [p] => [trimR p]
  | p :: rest => p :: etRest rest

/-- The paragraph list after the outer trim of the joined section content:
the first paragraph loses leading whitespace, the last loses trailing
whitespace. -/
def edgeTrimParas : List Str → List Str
  | [] => []
  | [p] => [trimS p]
  | p :: rest => trimL p :: etRest rest

/-- Elementwise relation between the second run's paragraph list and the
first run's kept paragraphs: each is the original or an edge-trim of it. -/
def VariantList : List Str → List Str → Prop
  | [], [] => True
  | q :: qs, o :: os =>
    (q = o ∨ q = trimL o ∨ q = trimR o ∨ q = trimS o) ∧ VariantList qs os
  | _, _ => False

/-- Reprocessing kit for the output paragraphs of one section: each output
paragraph either passes through every rerun unchanged with untouched state
(raw branches), or is a trim-fixed rebuilt paragraph whose rerun keeps it
and reproduces the original gram growth.  The three lists are the incoming
gram set, the output paragraphs, and the final gram set. -/
def KitList (first isLast : Bool) : List Str → List Str → List Str → Prop
  | s, [], sF => sF = s
  | s, o :: orest, sF =>
    ∃ s2,
      ((∀ (sn : List Str) (q : Str),
          q = o ∨ q = trimL o ∨ q = trimR o ∨ q = trimS o →
          processPara first isLast sn q = (some q, sn, false)) ∧
        (s2 = s ∨ (isLast = true ∧ ∀ g ∈ s, g ∈ s2)) ∨
       (trimS o = o ∧
        ∀ sn, (∀ g ∈ sn, g ∈ s) →
          (processPara first isLast sn o).1 = some o ∧
          (processPara first isLast sn o).2.2 = false ∧
          (∀ g ∈ (processPara first isLast sn o).2.1, g ∈ s2) ∧
          (sn = s → processPara first isLast sn o = (some o, s2, false)))) ∧
      KitList first isLast s2 orest sF

set_option maxRecDepth 200000

theorem windowsN_eq_range (n : Nat) (ws : List (List Char)) :
    windowsN n ws =
      if ws.length < n then []
      else (List.range (ws.length - n + 1)).map (fun i => (ws.drop i).take n) := by
  induction ws with
  | nil =>
    cases n with
    | zero => simp [windowsN]
    | succ m => simp [windowsN]
  | cons w ws ih =>
    simp only [windowsN, List.length_cons]
    by_cases h : ws.length + 1 < n
    · rw [if_pos h, if_pos h]
    · rw [if_neg h, if_neg h]
      by_cases h2 : ws.length < n
      · have hn : n = ws.length + 1 := by omega
        subst hn
        have h1 : ws.length + 1 - (ws.length + 1) + 1 = 1 := by omega
        rw [ih, if_pos h2, h1]
        have hr : List.range 1 = [0] := rfl
        simp [List.take_of_length_le, hr]
      · have harith : ws.length + 1 - n + 1 = (ws.length - n + 1) + 1 := by omega
        rw [harith, List.range_succ_eq_map]
        simp only [List.map_cons, List.map_map, List.drop_zero]
        rw [ih, if_neg h2]
        simp [Function.comp_def]

theorem filterMap_ite_eq_filter_map {α β γ : Type} (l : List α) (f : α → β)
    (q : β → Prop) [DecidablePred q] (j : β → γ) :
    l.filterMap (fun i => if q (f i) then some (j (f i)) else none) =
      ((l.map f).filter (fun b => q b)).map j := by
  induction l with
  | nil => rfl
  | cons x xs ih =>
    by_cases h : q (f x)
    · simp [List.filterMap_cons, List.filter_cons, h, ih]
    · simp [List.filterMap_cons, List.filter_cons, h, ih]

/-- C9 (corrected): extractNgrams returns exactly the sliding windows of
the normalized word list that contain at least TWO non-stop words, joined
with single spaces.  The spec's rule (keep every gram with at least one
non-stop word) does not match the code, which discards grams having fewer
than two content words. -/
theorem C9_extractNgrams_amended (text : List Char) (n : Nat) :
    extractNgrams text n =
      ((windowsN n (ngramWords text)).filter
          (fun g => 2 ≤ (g.filter (fun w => !(stopWords.contains w))).length)).map
        (List.intercalate [' ']) := by
  unfold extractNgrams
  rw [windowsN_eq_range]
  by_cases h : (ngramWords text).length < n
  · simp [h]
  · simp only [if_neg h]
    exact filterMap_ite_eq_filter_map
      (List.range ((ngramWords text).length - n + 1))
      (fun i => ((ngramWords text).drop i).take n)
      (fun g => 2 ≤ (g.filter (fun w => !(stopWords.contains w))).length)
      (List.intercalate [' '])

/-- C9 counterexample: on the sentence "the cat is in the hat" every
4-gram contains the non-stop word "cat" or "hat", so the spec's rule keeps
all three windows, yet extractNgrams returns none of them (each window has
only one content word). -/
theorem C9_counterexample :
    extractNgrams "the cat is in the hat".data 4 ≠
        extractNgramsSpec "the cat is in the hat".data 4 ∧
      extractNgrams "the cat is in the hat".data 4 = [] ∧
      extractNgramsSpec "the cat is in the hat".data 4 =
        ["the cat is in".data, "cat is in the".data, "is in the hat".data] := by
  refine ⟨?_, ?_, ?_⟩ <;> decide

/-- C3 (corrected): every gap returned by identifyKnowledgeGaps has
importance at least 5 (the filter enforces it), but the 5-gap cap of the
claim is only requested in the LLM prompt and never enforced in code. -/
theorem C3_identifyKnowledgeGaps_amended (parsed : Option (List KnowledgeGap)) :
    ∀ g ∈ identifyKnowledgeGaps parsed, 5 ≤ g.importance := by
  intro g hg
  cases parsed with
  | none => simp [identifyKnowledgeGaps] at hg
  | some gaps =>
    simp only [identifyKnowledgeGaps, List.mem_filter] at hg
    exact_mod_cast of_decide_eq_true hg.2

/-- Witness for C3: a concrete parsed payload containing a single gap of
importance 7 whose surviving members all check out. -/
theorem C3_identifyKnowledgeGaps_amended_witness :
    (⟨"gap1".data, "d".data, 7, []⟩ : KnowledgeGap) ∈
      identifyKnowledgeGaps (some [⟨"gap1".data, "d".data, 7, []⟩]) ∧
    5 ≤ (⟨"gap1".data, "d".data, 7, []⟩ : KnowledgeGap).importance :=
  ⟨by decide,
   C3_identifyKnowledgeGaps_amended (some [⟨"gap1".data, "d".data, 7, []⟩])
     ⟨"gap1".data, "d".data, 7, []⟩ (by decide)⟩

/-- C3 counterexample: a parsed completion payload with six gaps, all of
importance 9, makes identifyKnowledgeGaps return six gaps, refuting the
claimed cap of 5. -/
theorem C3_counterexample :
    ¬((identifyKnowledgeGaps (some
        [⟨"g1".data, "d".data, 9, []⟩, ⟨"g2".data, "d".data, 9, []⟩,
         ⟨"g3".data, "d".data, 9, []⟩, ⟨"g4".data, "d".data, 9, []⟩,
         ⟨"g5".data, "d".data, 9, []⟩, ⟨"g6".data, "d".data, 9, []⟩])).length ≤ 5) := by
  decide

theorem mapWithIndex_mem {f : Nat → α → β} :
    ∀ {i : Nat} {l : List α} {s : β}, s ∈ mapWithIndex f i l →
      ∃ j x, x ∈ l ∧ s = f j x := by
  intro i l
  induction l generalizing i with
  | nil => intro s hs; simp [mapWithIndex] at hs
  | cons x xs ih =>
    intro s hs
    rcases hs with _ | ⟨_, hs⟩
    · exact ⟨i, x, List.mem_cons_self x xs, rfl⟩
    · obtain ⟨j, y, hy, he⟩ := ih hs
      exact ⟨j, y, List.mem_cons_of_mem _ hy, he⟩

/-- C4 (corrected): after scoring, every source carries some positive
integer score (a positive parsed entry, or the default 5 for zero or
missing entries), and a batch whose completion payload failed to parse has
every member set to the default 5.  Scores are NOT clamped above, so the
interval [1,10] of the claim does not hold. -/
theorem C4_scoreSourceRelevance_amended (parse : Nat → Option (List Nat))
    (sources : List ResearchSource) :
    (∀ s ∈ scoreSourceRelevance parse sources,
        ∃ k, s.relevanceScore = some k ∧ 1 ≤ k) ∧
      (∀ batch : List ResearchSource, ∀ s ∈ scoreBatchAssign none batch,
        s.relevanceScore = some 5) := by
  constructor
  · intro s hs
    simp only [scoreSourceRelevance, List.mem_flatten] at hs
    obtain ⟨l, hl, hsl⟩ := hs
    obtain ⟨bi, batch, _, hbatch⟩ := mapWithIndex_mem hl
    subst hbatch
    cases hp : parse bi with
    | none =>
      simp only [scoreBatchAssign, hp, List.mem_map] at hsl
      obtain ⟨t, _, ht⟩ := hsl
      exact ⟨5, by rw [← ht], by norm_num⟩
    | some scores =>
      simp only [scoreBatchAssign, hp] at hsl
      obtain ⟨idx, t, _, ht⟩ := mapWithIndex_mem hsl
      by_cases hz : scores.getD idx 0 = 0
      · refine ⟨5, ?_, by norm_num⟩
        rw [ht]
        simp only [if_pos hz]
      · refine ⟨scores.getD idx 0, ?_, by omega⟩
        rw [ht]
        simp only [if_neg hz]
  · intro batch s hs
    simp only [scoreBatchAssign, List.mem_map] at hs
    obtain ⟨t, _, ht⟩ := hs
    rw [← ht]

/-- Witness for C4: scoring one concrete source with payload [7]. -/
theorem C4_scoreSourceRelevance_amended_witness :
    (∀ s ∈ scoreSourceRelevance (fun _ => some [7])
        [⟨"u".data, "t".data, "s".data, "c".data, none⟩],
        ∃ k, s.relevanceScore = some k ∧ 1 ≤ k) ∧
      (∀ batch : List ResearchSource, ∀ s ∈ scoreBatchAssign none batch,
        s.relevanceScore = some 5) :=
  C4_scoreSourceRelevance_amended (fun _ => some [7])
    [⟨"u".data, "t".data, "s".data, "c".data, none⟩]

/-- C4 counterexample: a parsed payload [15] stores relevanceScore 15,
outside the [1,10] interval asserted by the claim. -/
theorem C4_counterexample :
    ((scoreSourceRelevance (fun _ => some [15])
        [⟨"u".data, "t".data, "s".data, "c".data, none⟩]).map
      (fun s => s.relevanceScore)) = [some 15] ∧ ¬((15 : Nat) ≤ 10) := by
  constructor
  · decide
  · decide

/-- C8 (corrected): the plan always starts with the original query,
contains AT MOST targetQueries + 1 entries (not exactly that many, as the
claim asserts), and no later entry equals the query case-insensitively. -/
theorem C8_createSearchPlan_amended (query : Str) (targetQueries : Nat) (response : Str) :
    (createSearchPlan query targetQueries response).head? = some query ∧
      (createSearchPlan query targetQueries response).length ≤ targetQueries + 1 ∧
      ∀ q ∈ (createSearchPlan query targetQueries response).tail,
        lowerStr q ≠ lowerStr query := by
  refine ⟨rfl, ?_, ?_⟩
  · simp only [createSearchPlan, List.length_cons]
    have h1 := List.length_filter_le
      (fun q => !(lowerStr q == lowerStr query))
      ((((splitLines response).map trimS).filter
        (fun q => 0 < q.length && !(isNumberedLine q))).take targetQueries)
    have h2 := List.length_take_le targetQueries
      (((splitLines response).map trimS).filter
        (fun q => 0 < q.length && !(isNumberedLine q)))
    omega
  · intro q hq
    simp only [createSearchPlan, List.tail_cons, List.mem_filter] at hq
    intro hc
    have := hq.2
    rw [hc] at this
    simp at this

/-- Witness for C8 at a concrete query and response: the plan for query
"solar power" with a two-line response satisfies all three properties. -/
theorem C8_createSearchPlan_amended_witness :
    (createSearchPlan "solar power".data 5 "wind energy\nSOLAR POWER".data).head? =
        some "solar power".data ∧
      (createSearchPlan "solar power".data 5 "wind energy\nSOLAR POWER".data).length ≤ 5 + 1 ∧
      ∀ q ∈ (createSearchPlan "solar power".data 5 "wind energy\nSOLAR POWER".data).tail,
        lowerStr q ≠ lowerStr "solar power".data :=
  C8_createSearchPlan_amended "solar power".data 5 "wind energy\nSOLAR POWER".data

/-- C8 counterexample: an empty completion response yields a plan of
length 1, not targetQueries + 1 as the claim requires. -/
theorem C8_counterexample :
    createSearchPlan "q".data 5 "".data = ["q".data] ∧
      (createSearchPlan "q".data 5 "".data).length ≠ 5 + 1 := by
  constructor
  · decide
  · decide

theorem aborted_none (t : Nat) : aborted none t = false := rfl

theorem aborted_some_iff (N t : Nat) : aborted (some N) t = true ↔ N ≤ t := by
  simp [aborted]

theorem aborted_some_not (N t : Nat) (h : ¬(N ≤ t)) : ¬(aborted (some N) t = true) := by
  simp [aborted]
  omega

theorem synthChecks_none (levels t : Nat) :
    synthChecks none levels t =
      .ok (if levels < 2 then t + 1 else if levels < 3 then t + 2 else t + 3) := by
  unfold synthChecks
  simp only [aborted_none, Bool.false_eq_true, if_false]
  by_cases h2 : levels < 2
  · rw [if_pos h2, if_pos h2]
  · rw [if_neg h2, if_neg h2]
    by_cases h3 : levels < 3
    · rw [if_pos h3, if_pos h3]
    · rw [if_neg h3, if_neg h3]

theorem adaptiveLoop_one_pass (o : Oracle) (cfg : ResearchConfig)
    (icfg : IntensityConfig) (st : LoopState)
    (hA : cfg.enableAdaptiveResearch = false) :
    ∃ tS, adaptiveLoop o none cfg icfg 1 st =
      .ok { st with
        synthesis := o.synthText st.synthCtr,
        synthCtr := st.synthCtr + 1,
        synthPasses := st.synthPasses + 1,
        tick := tS } := by
  refine ⟨if icfg.synthesisLevels < 2 then st.tick + 1 + 1
    else if icfg.synthesisLevels < 3 then st.tick + 1 + 2 else st.tick + 1 + 3, ?_⟩
  simp only [adaptiveLoop, aborted_none, Bool.false_eq_true, if_false]
  rw [synthChecks_none]
  simp only [hA, Bool.not_false, Bool.true_or, if_true]

theorem reportChecks_none :
    ∀ (secs : List (Str × Str)) (t : Nat),
      reportChecks none t secs = .ok (t + secs.length) := by
  intro secs
  induction secs with
  | nil => intro t; rfl
  | cons s rest ih =>
    intro t
    simp only [reportChecks, aborted_none, Bool.false_eq_true, if_false]
    rw [ih (t + 1)]
    congr 1
    simp only [List.length_cons]
    omega

theorem report_none (o : Oracle) (cfg : ResearchConfig) (t : Nat) (q rq : Str)
    (sources : List ResearchSource) :
    ∃ t', generateComprehensiveReport o none t cfg q rq sources =
      .ok ({ query := q,
             refinedQuery := if rq == q then none else some rq,
             summary := o.summaryText,
             sections := o.reportSections,
             sources := reportSourcesSelect sources,
             totalSources := 0, totalSearches := 0, intensity := [] }, t') := by
  unfold generateComprehensiveReport
  cases hdl : cfg.reportDetailLevel with
  | standard =>
    refine ⟨t + 1, ?_⟩
    simp only [aborted_none, Bool.false_eq_true, if_false]
  | detailed =>
    refine ⟨t + 1 + o.reportSections.length, ?_⟩
    simp only [aborted_none, Bool.false_eq_true, if_false]
    rw [reportChecks_none]
  | comprehensive =>
    refine ⟨t + 1 + o.reportSections.length, ?_⟩
    simp only [aborted_none, Bool.false_eq_true, if_false]
    rw [reportChecks_none]

theorem report_ok_shape (o : Oracle) (sig : Option Nat) (t : Nat)
    (cfg : ResearchConfig) (q rq : Str) (sources : List ResearchSource)
    (rep : ResearchReport) (t2 : Nat)
    (h : generateComprehensiveReport o sig t cfg q rq sources = .ok (rep, t2)) :
    rep = { query := q, refinedQuery := if rq == q then none else some rq,
            summary := o.summaryText, sections := o.reportSections,
            sources := reportSourcesSelect sources,
            totalSources := 0, totalSearches := 0, intensity := [] } := by
  unfold generateComprehensiveReport at h
  cases hdl : cfg.reportDetailLevel with
  | standard =>
    rw [hdl] at h
    dsimp only at h
    cases hab : aborted sig t with
    | true => rw [hab] at h; simp at h
    | false =>
      rw [hab] at h
      simp only [Bool.false_eq_true, if_false, Except.ok.injEq, Prod.mk.injEq] at h
      exact h.1.symm
  | detailed =>
    rw [hdl] at h
    dsimp only at h
    cases hab : aborted sig t with
    | true => rw [hab] at h; simp at h
    | false =>
      rw [hab] at h
      simp only [Bool.false_eq_true, if_false] at h
      cases hrc : reportChecks sig (t + 1) o.reportSections with
      | error e => rw [hrc] at h; simp at h
      | ok t3 =>
        rw [hrc] at h
        simp only [Except.ok.injEq, Prod.mk.injEq] at h
        exact h.1.symm
  | comprehensive =>
    rw [hdl] at h
    dsimp only at h
    cases hab : aborted sig t with
    | true => rw [hab] at h; simp at h
    | false =>
      rw [hab] at h
      simp only [Bool.false_eq_true, if_false] at h
      cases hrc : reportChecks sig (t + 1) o.reportSections with
      | error e => rw [hrc] at h; simp at h
      | ok t3 =>
        rw [hrc] at h
        simp only [Except.ok.injEq, Prod.mk.injEq] at h
        exact h.1.symm

/-- C5 (confirmed): when enableAdaptiveResearch is false the run performs
exactly one synthesis pass -- whatever maxResearchIterations says -- and
never invokes gap analysis or the gap-filling search. -/
theorem C5_single_synthesis_pass (o : Oracle) (cfg : ResearchConfig)
    (icfg : IntensityConfig) (query : Str) (ans : List (Str × Str))
    (r : ResearchReport) (stats : RunStats)
    (hA : cfg.enableAdaptiveResearch = false)
    (h : research o none cfg icfg query ans = .ok (r, stats)) :
    stats.synthPasses = 1 ∧ stats.gapAnalyses = 0 ∧ stats.gapSearchRounds = 0 := by
  unfold research at h
  simp only [aborted_none, Bool.false_eq_true, if_false, hA] at h
  cases hg : gatherBatches none o.search icfg.maxSources icfg.sourcesPerSearch o.fetch
      (chunksOf icfg.parallelSearches
        ((createSearchPlan (if ans.isEmpty then query
            else incorporateClarifyingAnswers query ans)
          icfg.maxSearchQueries o.planResponse).take
          (min (createSearchPlan (if ans.isEmpty then query
              else incorporateClarifyingAnswers query ans)
            icfg.maxSearchQueries o.planResponse).length icfg.maxSearchQueries)))
      ([], [], 0, 0, 1) with
  | error e => rw [hg] at h; simp at h
  | ok g =>
    rw [hg] at h
    obtain ⟨gathered, seen, searchCtr, totalSearches, t1⟩ := g
    dsimp only at h
    obtain ⟨tS, hone⟩ := adaptiveLoop_one_pass o cfg icfg
      { sources := sortByScoreDesc (scoreSourceRelevance (o.scoreParse 0) gathered),
        seen := seen, searchCtr := searchCtr, totalSearches := totalSearches,
        synthesis := [], scoreInv := 1, gapCtr := 0, synthCtr := 0,
        synthPasses := 0, gapAnalyses := 0, gapSearchRounds := 0, tick := t1 + 1 } hA
    rw [hone] at h
    dsimp only at h
    obtain ⟨t3, hrep⟩ := report_none o cfg (tS + 1) query
      (if ans.isEmpty then query else incorporateClarifyingAnswers query ans)
      (sortByScoreDesc (scoreSourceRelevance (o.scoreParse 0) gathered))
    rw [hrep] at h
    rw [Except.ok.injEq, Prod.mk.injEq] at h
    rw [← h.2]
    exact ⟨rfl, rfl, rfl⟩

theorem addResults_nil (maxS : Nat) (fetch : Str → Str)
    (st : List ResearchSource × List Str) :
    addResults maxS fetch st [] = st := by
  cases st; rfl

theorem processBatch_all_nil (maxS sps : Nat) (fetch : Str → Str)
    (st : List ResearchSource × List Str) (rs : List (List SearchResult))
    (h : ∀ r ∈ rs, r = []) : processBatch maxS sps fetch st rs = st := by
  induction rs generalizing st with
  | nil => rfl
  | cons r rest ih =>
    have hr : r = [] := h r (List.mem_cons_self r rest)
    subst hr
    simp only [processBatch, List.foldl_cons, List.take_nil]
    rw [addResults_nil]
    exact ih st (fun x hx => h x (List.mem_cons_of_mem _ hx))

theorem gatherBatches_allfail (search : Nat → Except Unit (List SearchResult))
    (maxS sps : Nat) (fetch : Str → Str)
    (hs : ∀ n, search n = .error ()) :
    ∀ (batches : List (List Str)) (sources : List ResearchSource)
      (seen : List Str) (ctr ts t : Nat),
      ∃ ctr2 ts2 t2, gatherBatches none search maxS sps fetch batches
        (sources, seen, ctr, ts, t) = .ok (sources, seen, ctr2, ts2, t2) := by
  intro batches
  induction batches with
  | nil => intro sources seen ctr ts t; exact ⟨ctr, ts, t, rfl⟩
  | cons b rest ih =>
    intro sources seen ctr ts t
    by_cases hmax : maxS ≤ sources.length
    · exact ⟨ctr, ts, t + 1, by simp [gatherBatches, hmax, aborted_none]⟩
    · obtain ⟨ctr2, ts2, t2, hrec⟩ := ih sources seen (ctr + b.length)
        (ts + b.length) (t + 1)
      refine ⟨ctr2, ts2, t2, ?_⟩
      simp only [gatherBatches, aborted_none, Bool.false_eq_true, if_false, if_neg hmax]
      rw [processBatch_all_nil]
      · exact hrec
      · intro r hr
        simp only [List.mem_map] at hr
        obtain ⟨i, _, hi⟩ := hr
        rw [← hi, hs (ctr + i)]
        rfl

theorem gapQueriesFold_allfail (search : Nat → Except Unit (List SearchResult))
    (fetch : Str → Str) (hs : ∀ n, search n = .error ()) :
    ∀ (qs : List Str) (ns : List ResearchSource) (seen : List Str) (ctr t : Nat),
      ∃ ctr2 t2, gapQueriesFold none search fetch qs (ns, seen, ctr, t) =
        .ok (ns, seen, ctr2, t2) := by
  intro qs
  induction qs with
  | nil => intro ns seen ctr t; exact ⟨ctr, t, rfl⟩
  | cons q rest ih =>
    intro ns seen ctr t
    obtain ⟨ctr2, t2, hrec⟩ := ih ns seen (ctr + 1) (t + 1)
    refine ⟨ctr2, t2, ?_⟩
    simp only [gapQueriesFold, gapQueryStep, aborted_none, Bool.false_eq_true,
      if_false, hs ctr]
    exact hrec

theorem searchForGaps_allfail (search : Nat → Except Unit (List SearchResult))
    (fetch : Str → Str) (qpg : Nat) (hs : ∀ n, search n = .error ()) :
    ∀ (gaps : List KnowledgeGap) (ns : List ResearchSource) (seen : List Str)
      (ctr t : Nat),
      ∃ ctr2 t2, searchForGaps none search fetch qpg gaps (ns, seen, ctr, t) =
        .ok (ns, seen, ctr2, t2) := by
  intro gaps
  induction gaps with
  | nil => intro ns seen ctr t; exact ⟨ctr, t, rfl⟩
  | cons g rest ih =>
    intro ns seen ctr t
    obtain ⟨ctrA, tA, hq⟩ := gapQueriesFold_allfail search fetch hs
      (g.suggestedQueries.take qpg) ns seen ctr t
    obtain ⟨ctr2, t2, hrec⟩ := ih ns seen ctrA tA
    refine ⟨ctr2, t2, ?_⟩
    simp only [searchForGaps, hq]
    exact hrec

theorem adaptiveLoop_allfail (o : Oracle) (cfg : ResearchConfig)
    (icfg : IntensityConfig) (hs : ∀ n, o.search n = .error ()) :
    ∀ (fuel : Nat) (st : LoopState),
      ∃ st2, adaptiveLoop o none cfg icfg fuel st = .ok st2 ∧
        st2.sources = st.sources := by
  intro fuel
  induction fuel with
  | zero => intro st; exact ⟨st, rfl, rfl⟩
  | succ f _ =>
    intro st
    simp only [adaptiveLoop, aborted_none, Bool.false_eq_true, if_false]
    rw [synthChecks_none]
    dsimp only
    by_cases hstop : (!cfg.enableAdaptiveResearch || f = 0)
    · rw [if_pos hstop]
      exact ⟨_, rfl, rfl⟩
    · rw [if_neg hstop]
      by_cases hg : (identifyKnowledgeGaps (o.gapsParse st.gapCtr)).isEmpty
      · rw [if_pos hg]
        exact ⟨_, rfl, rfl⟩
      · rw [if_neg hg]
        obtain ⟨ctr2, t2, hsg⟩ := searchForGaps_allfail o.search o.fetch
          icfg.gapQueriesPerIteration hs
          (identifyKnowledgeGaps (o.gapsParse st.gapCtr)) [] st.seen st.searchCtr
          (if icfg.synthesisLevels < 2 then st.tick + 1 + 1
           else if icfg.synthesisLevels < 3 then st.tick + 1 + 2 else st.tick + 1 + 3)
        rw [hsg]
        exact ⟨_, rfl, rfl⟩

/-- C6 (confirmed): if every individual search call rejects, the run still
completes and returns a report with zero gathered sources -- each failure
degrades to an empty result set and the pipeline never aborts. -/
theorem C6_allfail_completes_empty (o : Oracle) (cfg : ResearchConfig)
    (icfg : IntensityConfig) (query : Str) (ans : List (Str × Str))
    (hs : ∀ n, o.search n = .error ()) :
    ∃ r stats, research o none cfg icfg query ans = .ok (r, stats) ∧
      r.sources = [] ∧ r.totalSources = 0 ∧ stats.gathered = [] := by
  unfold research
  simp only [aborted_none, Bool.false_eq_true, if_false]
  obtain ⟨ctr2, ts2, t2, hgb⟩ := gatherBatches_allfail o.search icfg.maxSources
    icfg.sourcesPerSearch o.fetch hs _ [] [] 0 0 1
  rw [hgb]
  dsimp only
  obtain ⟨st2, hloop, hsrc⟩ := adaptiveLoop_allfail o cfg icfg hs
    (if cfg.enableAdaptiveResearch
      then min cfg.maxResearchIterations icfg.adaptiveIterations else 1)
    { sources := sortByScoreDesc (scoreSourceRelevance (o.scoreParse 0) []),
      seen := [], searchCtr := ctr2, totalSearches := ts2, synthesis := [],
      scoreInv := 1, gapCtr := 0, synthCtr := 0,
      synthPasses := 0, gapAnalyses := 0, gapSearchRounds := 0, tick := t2 + 1 }
  rw [hloop]
  dsimp only
  obtain ⟨t3, hrep⟩ := report_none o cfg (st2.tick + 1) query
    (if ans.isEmpty then query else incorporateClarifyingAnswers query ans)
    st2.sources
  rw [hrep]
  have hempty : st2.sources = [] := by rw [hsrc]; rfl
  refine ⟨_, _, rfl, ?_, ?_, ?_⟩
  · simp [hempty, reportSourcesSelect]
  · simp [hempty]
  · simp [hempty]

/-- Witness for C5 and its hypotheses at a concrete run: a small oracle
with a non-adaptive config reaches a report in exactly one synthesis
pass. -/
theorem C5_single_synthesis_pass_witness :
    ∃ r stats,
      research oracleNoSearch none cfgNonAdaptive icfgQuick "q".data [] = .ok (r, stats) ∧
      stats.synthPasses = 1 ∧ stats.gapAnalyses = 0 ∧ stats.gapSearchRounds = 0 :=
  ⟨_, _, rfl,
   C5_single_synthesis_pass oracleNoSearch cfgNonAdaptive icfgQuick "q".data [] _ _ rfl rfl⟩

/-- Witness for C6 and its hypothesis at a concrete run: an oracle whose
search always rejects still produces a zero-source report. -/
theorem C6_allfail_completes_empty_witness :
    ∃ r stats,
      research oracleNoSearch none cfgAdaptive icfgQuick "q".data [] = .ok (r, stats) ∧
      r.sources = [] ∧ r.totalSources = 0 ∧ stats.gathered = [] :=
  C6_allfail_completes_empty oracleNoSearch cfgAdaptive icfgQuick "q".data [] (fun _ => rfl)

theorem urlsOf_append (a b : List ResearchSource) :
    urlsOf (a ++ b) = urlsOf a ++ urlsOf b := List.map_append _ a b

theorem UrlInv_push {sources : List ResearchSource} {seen : List Str}
    {s : ResearchSource} (h : UrlInv sources seen) (hnew : s.url ∉ seen) :
    UrlInv (sources ++ [s]) (s.url :: seen) := by
  constructor
  · rw [urlsOf_append]
    refine List.nodup_append.mpr ⟨h.1, List.nodup_singleton _, ?_⟩
    intro u hu hu2
    have hu2' : u = s.url := by simpa [urlsOf] using hu2
    obtain ⟨t, ht, htu⟩ := by simpa [urlsOf] using hu
    exact hnew (hu2' ▸ htu ▸ h.2 t ht)
  · intro t ht
    rcases List.mem_append.mp ht with h1 | h2
    · exact List.mem_cons_of_mem _ (h.2 t h1)
    · have : t = s := by simpa using h2
      subst this
      exact List.mem_cons_self _ _

theorem UrlInv_of_urls_eq {l l2 : List ResearchSource} {seen : List Str}
    (h : UrlInv l seen) (he : urlsOf l2 = urlsOf l) : UrlInv l2 seen := by
  constructor
  · rw [he]; exact h.1
  · intro s hs
    have : s.url ∈ urlsOf l2 := List.mem_map_of_mem _ hs
    rw [he] at this
    obtain ⟨t, ht, htu⟩ := List.mem_map.mp this
    exact htu ▸ h.2 t ht

theorem UrlInv_perm {l l2 : List ResearchSource} {seen : List Str}
    (h : UrlInv l seen) (hp : l2.Perm l) : UrlInv l2 seen := by
  constructor
  · exact h.1.perm (hp.map _).symm
  · intro s hs
    exact h.2 s (hp.mem_iff.mp hs)

theorem chunksOf_foldl_inv {α : Type} (k : Nat) :
    ∀ (l cur : List α) (out : List (List α)),
      ((l.foldl (fun (st : List α × List (List α)) a =>
          if st.1.length + 1 == k then ([], (a :: st.1).reverse :: st.2)
          else (a :: st.1, st.2)) (cur, out)).2.reverse.flatten ++
        (l.foldl (fun (st : List α × List (List α)) a =>
          if st.1.length + 1 == k then ([], (a :: st.1).reverse :: st.2)
          else (a :: st.1, st.2)) (cur, out)).1.reverse) =
      out.reverse.flatten ++ cur.reverse ++ l := by
  intro l
  induction l with
  | nil => intro cur out; simp
  | cons a rest ih =>
    intro cur out
    simp only [List.foldl_cons]
    by_cases hk : cur.length + 1 == k
    · rw [if_pos hk, ih]
      simp
    · rw [if_neg hk, ih]
      simp

theorem chunksOf_flatten {α : Type} (k : Nat) (l : List α) :
    (chunksOf k l).flatten = l := by
  unfold chunksOf
  have h := chunksOf_foldl_inv k l [] []
  simp only [List.reverse_nil, List.flatten_nil, List.nil_append] at h
  rcases hst : (l.foldl (fun (st : List α × List (List α)) a =>
      if st.1.length + 1 == k then ([], (a :: st.1).reverse :: st.2)
      else (a :: st.1, st.2)) ([], [])) with ⟨cur, out⟩
  rw [hst] at h
  cases cur with
  | nil => simpa using h
  | cons c cs => simpa using h

theorem urlsOf_mapWithIndex (f : Nat → ResearchSource → ResearchSource)
    (hf : ∀ i s, (f i s).url = s.url) :
    ∀ (i : Nat) (l : List ResearchSource), urlsOf (mapWithIndex f i l) = urlsOf l := by
  intro i l
  induction l generalizing i with
  | nil => rfl
  | cons x xs ih => simp [mapWithIndex, urlsOf, hf] at ih ⊢; exact ih (i + 1)

theorem urlsOf_scoreBatchAssign (p : Option (List Nat)) (b : List ResearchSource) :
    urlsOf (scoreBatchAssign p b) = urlsOf b := by
  cases p with
  | none => simp [scoreBatchAssign, urlsOf, List.map_map]
  | some scores =>
    simp only [scoreBatchAssign]
    exact urlsOf_mapWithIndex
      (fun idx s => { s with
        relevanceScore := some (if scores.getD idx 0 = 0 then 5 else scores.getD idx 0) })
      (fun i s => rfl) 0 b

theorem urlsOf_flatten (L : List (List ResearchSource)) :
    urlsOf L.flatten = (L.map urlsOf).flatten := by
  unfold urlsOf
  rw [List.map_flatten]

theorem urlsOf_scoreSourceRelevance (p : Nat → Option (List Nat))
    (l : List ResearchSource) : urlsOf (scoreSourceRelevance p l) = urlsOf l := by
  have hmap : ∀ (chunks : List (List ResearchSource)) (i : Nat),
      (mapWithIndex (fun bi batch => scoreBatchAssign (p bi) batch) i chunks).map urlsOf =
        chunks.map urlsOf := by
    intro chunks
    induction chunks with
    | nil => intro i; rfl
    | cons c cs ih => intro i; simp [mapWithIndex, urlsOf_scoreBatchAssign, ih]
  calc urlsOf (scoreSourceRelevance p l)
      = ((mapWithIndex (fun bi batch => scoreBatchAssign (p bi) batch) 0
          (chunksOf 10 l)).map urlsOf).flatten := urlsOf_flatten _
    _ = ((chunksOf 10 l).map urlsOf).flatten := by rw [hmap]
    _ = urlsOf ((chunksOf 10 l).flatten) := (urlsOf_flatten _).symm
    _ = urlsOf l := by rw [chunksOf_flatten]

theorem insertDesc_perm (s : ResearchSource) (l : List ResearchSource) :
    (insertDesc s l).Perm (s :: l) := by
  induction l with
  | nil => exact List.Perm.refl _
  | cons x xs ih =>
    simp only [insertDesc]
    by_cases hc : x.relevanceScore.getD 0 < s.relevanceScore.getD 0
    · rw [if_pos hc]
    · rw [if_neg hc]
      exact (ih.cons x).trans (List.Perm.swap s x xs)

theorem sortByScoreDesc_perm (l : List ResearchSource) :
    (sortByScoreDesc l).Perm l := by
  have h : ∀ (l acc : List ResearchSource),
      (l.foldl (fun acc x => insertDesc x acc) acc).Perm (acc ++ l) := by
    intro l
    induction l with
    | nil => intro acc; simp
    | cons x xs ih =>
      intro acc
      simp only [List.foldl_cons]
      refine (ih (insertDesc x acc)).trans ?_
      refine (List.Perm.append_right xs (insertDesc_perm x acc)).trans ?_
      exact List.perm_middle.symm
  simpa using h l []

theorem addResults_inv (maxS : Nat) (fetch : Str → Str) :
    ∀ (rs : List SearchResult) (sources : List ResearchSource) (seen : List Str),
      UrlInv sources seen →
      UrlInv (addResults maxS fetch (sources, seen) rs).1
        (addResults maxS fetch (sources, seen) rs).2 := by
  intro rs
  induction rs with
  | nil => intro sources seen h; exact h
  | cons sr rest ih =>
    intro sources seen h
    simp only [addResults]
    by_cases h1 : sr.url ∈ seen
    · rw [if_pos h1]
      exact ih sources seen h
    · rw [if_neg h1]
      by_cases h2 : maxS ≤ sources.length
      · rw [if_pos h2]
        exact h
      · rw [if_neg h2]
        have h1x : (mkSource fetch sr).url ∉ seen := h1
        exact ih _ _ (UrlInv_push h h1x)

theorem processBatch_inv (maxS sps : Nat) (fetch : Str → Str) :
    ∀ (rss : List (List SearchResult)) (st : List ResearchSource × List Str),
      UrlInv st.1 st.2 →
      UrlInv (processBatch maxS sps fetch st rss).1 (processBatch maxS sps fetch st rss).2 := by
  intro rss
  induction rss with
  | nil => intro st h; exact h
  | cons rs rest ih =>
    intro st h
    simp only [processBatch, List.foldl_cons]
    exact ih _ (by
      rcases st with ⟨sources, seen⟩
      exact addResults_inv maxS fetch (rs.take sps) sources seen h)

theorem gatherBatches_inv (sig : Option Nat)
    (search : Nat → Except Unit (List SearchResult))
    (maxS sps : Nat) (fetch : Str → Str) :
    ∀ (batches : List (List Str)) (sources : List ResearchSource) (seen : List Str)
      (ctr ts t : Nat) (out : List ResearchSource × List Str × Nat × Nat × Nat),
      gatherBatches sig search maxS sps fetch batches (sources, seen, ctr, ts, t) =
        .ok out →
      UrlInv sources seen → UrlInv out.1 out.2.1 := by
  intro batches
  induction batches with
  | nil =>
    intro sources seen ctr ts t out hok h
    simp only [gatherBatches, Except.ok.injEq] at hok
    rw [← hok]
    exact h
  | cons b rest ih =>
    intro sources seen ctr ts t out hok h
    simp only [gatherBatches] at hok
    cases hab : aborted sig t with
    | true => rw [hab] at hok; simp at hok
    | false =>
      rw [hab] at hok
      simp only [Bool.false_eq_true, if_false] at hok
      by_cases h2 : maxS ≤ sources.length
      · rw [if_pos h2, Except.ok.injEq] at hok
        rw [← hok]
        exact h
      · rw [if_neg h2] at hok
        have hpb := processBatch_inv maxS sps fetch
          ((List.range b.length).map (fun i => ((search (ctr + i)).toOption.getD [])))
          (sources, seen) h
        exact ih _ _ _ _ _ out hok hpb

theorem addGapResults_inv (fetch : Str → Str) (base : List ResearchSource) :
    ∀ (rs : List SearchResult) (ns : List ResearchSource) (seen : List Str),
      UrlInv (base ++ ns) seen →
      UrlInv (base ++ (addGapResults fetch (ns, seen) rs).1)
        (addGapResults fetch (ns, seen) rs).2 := by
  intro rs
  induction rs with
  | nil => intro ns seen h; exact h
  | cons sr rest ih =>
    intro ns seen h
    simp only [addGapResults]
    by_cases h1 : sr.url ∈ seen
    · rw [if_pos h1]
      exact ih ns seen h
    · rw [if_neg h1]
      have h1x : (mkSource fetch sr).url ∉ seen := h1
      have hpush := UrlInv_push h h1x
      rw [List.append_assoc] at hpush
      exact ih _ _ hpush

theorem gapQueryStep_inv (sig : Option Nat)
    (search : Nat → Except Unit (List SearchResult))
    (fetch : Str → Str) (base : List ResearchSource)
    (ns : List ResearchSource) (seen : List Str) (ctr t : Nat)
    (out : List ResearchSource × List Str × Nat × Nat)
    (hok : gapQueryStep sig search fetch (ns, seen, ctr, t) = .ok out)
    (h : UrlInv (base ++ ns) seen) : UrlInv (base ++ out.1) out.2.1 := by
  simp only [gapQueryStep] at hok
  cases hab : aborted sig t with
  | true => rw [hab] at hok; simp at hok
  | false =>
    rw [hab] at hok
    simp only [Bool.false_eq_true, if_false] at hok
    cases hsr : search ctr with
    | error e =>
      rw [hsr] at hok
      simp only [Except.ok.injEq] at hok
      rw [← hok]
      exact h
    | ok results =>
      rw [hsr] at hok
      simp only [Except.ok.injEq] at hok
      rw [← hok]
      exact addGapResults_inv fetch base (results.take 3) ns seen h

theorem gapQueriesFold_inv (sig : Option Nat)
    (search : Nat → Except Unit (List SearchResult))
    (fetch : Str → Str) (base : List ResearchSource) :
    ∀ (qs : List Str) (ns : List ResearchSource) (seen : List Str) (ctr t : Nat)
      (out : List ResearchSource × List Str × Nat × Nat),
      gapQueriesFold sig search fetch qs (ns, seen, ctr, t) = .ok out →
      UrlInv (base ++ ns) seen → UrlInv (base ++ out.1) out.2.1 := by
  intro qs
  induction qs with
  | nil =>
    intro ns seen ctr t out hok h
    simp only [gapQueriesFold, Except.ok.injEq] at hok
    rw [← hok]
    exact h
  | cons q rest ih =>
    intro ns seen ctr t out hok h
    simp only [gapQueriesFold] at hok
    cases hstep : gapQueryStep sig search fetch (ns, seen, ctr, t) with
    | error e => rw [hstep] at hok; simp at hok
    | ok st2 =>
      rw [hstep] at hok
      obtain ⟨ns2, seen2, ctr2, t2⟩ := st2
      exact ih ns2 seen2 ctr2 t2 out hok
        (gapQueryStep_inv sig search fetch base ns seen ctr t _ hstep h)

theorem searchForGaps_inv (sig : Option Nat)
    (search : Nat → Except Unit (List SearchResult))
    (fetch : Str → Str) (qpg : Nat) (base : List ResearchSource) :
    ∀ (gaps : List KnowledgeGap) (ns : List ResearchSource) (seen : List Str)
      (ctr t : Nat) (out : List ResearchSource × List Str × Nat × Nat),
      searchForGaps sig search fetch qpg gaps (ns, seen, ctr, t) = .ok out →
      UrlInv (base ++ ns) seen → UrlInv (base ++ out.1) out.2.1 := by
  intro gaps
  induction gaps with
  | nil =>
    intro ns seen ctr t out hok h
    simp only [searchForGaps, Except.ok.injEq] at hok
    rw [← hok]
    exact h
  | cons g rest ih =>
    intro ns seen ctr t out hok h
    simp only [searchForGaps] at hok
    cases hq : gapQueriesFold sig search fetch (g.suggestedQueries.take qpg)
        (ns, seen, ctr, t) with
    | error e => rw [hq] at hok; simp at hok
    | ok st2 =>
      rw [hq] at hok
      obtain ⟨ns2, seen2, ctr2, t2⟩ := st2
      exact ih ns2 seen2 ctr2 t2 out hok
        (gapQueriesFold_inv sig search fetch base _ ns seen ctr t _ hq h)

theorem adaptiveLoop_inv (o : Oracle) (sig : Option Nat) (cfg : ResearchConfig)
    (icfg : IntensityConfig) :
    ∀ (fuel : Nat) (st st2 : LoopState),
      adaptiveLoop o sig cfg icfg fuel st = .ok st2 →
      UrlInv st.sources st.seen → UrlInv st2.sources st2.seen := by
  intro fuel
  induction fuel with
  | zero =>
    intro st st2 hok h
    simp only [adaptiveLoop, Except.ok.injEq] at hok
    rw [← hok]
    exact h
  | succ f ih =>
    intro st st2 hok h
    simp only [adaptiveLoop] at hok
    cases hab : aborted sig st.tick with
    | true => rw [hab] at hok; simp at hok
    | false =>
      rw [hab] at hok
      simp only [Bool.false_eq_true, if_false] at hok
      cases hsc : synthChecks sig icfg.synthesisLevels (st.tick + 1) with
      | error e => rw [hsc] at hok; simp at hok
      | ok tS =>
        rw [hsc] at hok
        dsimp only at hok
        by_cases hstop : (!cfg.enableAdaptiveResearch || f = 0)
        · rw [if_pos hstop, Except.ok.injEq] at hok
          rw [← hok]
          exact h
        · rw [if_neg hstop] at hok
          by_cases hg : (identifyKnowledgeGaps (o.gapsParse st.gapCtr)).isEmpty
          · rw [if_pos hg, Except.ok.injEq] at hok
            rw [← hok]
            exact h
          · rw [if_neg hg] at hok
            cases hsg : searchForGaps sig o.search o.fetch icfg.gapQueriesPerIteration
                (identifyKnowledgeGaps (o.gapsParse st.gapCtr))
                ([], st.seen, st.searchCtr, tS) with
            | error e => rw [hsg] at hok; simp at hok
            | ok res =>
              rw [hsg] at hok
              obtain ⟨newSources, seen2, ctr2, t2⟩ := res
              dsimp only at hok
              have hbase : UrlInv (st.sources ++ []) st.seen := by
                rw [List.append_nil]; exact h
              have hinv2 : UrlInv (st.sources ++ newSources) seen2 :=
                searchForGaps_inv sig o.search o.fetch icfg.gapQueriesPerIteration
                  st.sources _ [] st.seen st.searchCtr tS _ hsg hbase
              by_cases hne : newSources.isEmpty
              · rw [if_pos hne, Except.ok.injEq] at hok
                rw [← hok]
                have hnil : newSources = [] := List.isEmpty_iff.mp hne
                rw [hnil, List.append_nil] at hinv2
                exact hinv2
              · rw [if_neg hne] at hok
                refine ih _ st2 hok ?_
                refine UrlInv_perm (UrlInv_of_urls_eq hinv2 ?_) (sortByScoreDesc_perm _)
                rw [urlsOf_append, urlsOf_append, urlsOf_scoreSourceRelevance]

theorem reportSourcesSelect_nodup {l : List ResearchSource}
    (h : (urlsOf l).Nodup) : (urlsOf (reportSourcesSelect l)).Nodup := by
  unfold reportSourcesSelect
  by_cases hc : 10 ≤ (l.filter (fun s => 2 ≤ s.relevanceScore.getD 0)).length
  · rw [if_pos hc]
    exact h.sublist ((List.filter_sublist l).map _)
  · rw [if_neg hc]
    exact h

/-- C1 (confirmed): every run that returns a report has no two sources
with the same url in report.sources: every url is added to the run's seen
set before its source is appended, both in initial batch gathering and in
gap filling, so the url list of the report is duplicate free and its
length equals its number of distinct entries. -/
theorem C1_report_source_urls_unique (o : Oracle) (sig : Option Nat)
    (cfg : ResearchConfig) (icfg : IntensityConfig) (query : Str)
    (ans : List (Str × Str)) (r : ResearchReport) (stats : RunStats)
    (h : research o sig cfg icfg query ans = .ok (r, stats)) :
    (r.sources.map (fun s => s.url)).Nodup ∧
      (r.sources.map (fun s => s.url)).dedup.length =
        (r.sources.map (fun s => s.url)).length := by
  unfold research at h
  cases hab0 : aborted sig 0 with
  | true => rw [hab0] at h; simp at h
  | false =>
    rw [hab0] at h
    simp only [Bool.false_eq_true, if_false] at h
    cases hg : gatherBatches sig o.search icfg.maxSources icfg.sourcesPerSearch o.fetch
        (chunksOf icfg.parallelSearches
          ((createSearchPlan (if ans.isEmpty then query
              else incorporateClarifyingAnswers query ans)
            icfg.maxSearchQueries o.planResponse).take
            (min (createSearchPlan (if ans.isEmpty then query
                else incorporateClarifyingAnswers query ans)
              icfg.maxSearchQueries o.planResponse).length icfg.maxSearchQueries)))
        ([], [], 0, 0, 1) with
    | error e => rw [hg] at h; simp at h
    | ok g =>
      rw [hg] at h
      obtain ⟨gathered, seen, searchCtr, totalSearches, t1⟩ := g
      dsimp only at h
      cases hab1 : aborted sig t1 with
      | true => rw [hab1] at h; simp at h
      | false =>
        rw [hab1] at h
        simp only [Bool.false_eq_true, if_false] at h
        have hInv0 : UrlInv [] [] := ⟨List.nodup_nil, by intro s hs; simp at hs⟩
        have hInv1 := gatherBatches_inv sig o.search icfg.maxSources
          icfg.sourcesPerSearch o.fetch _ [] [] 0 0 1 _ hg hInv0
        have hInv2 : UrlInv
            (sortByScoreDesc (scoreSourceRelevance (o.scoreParse 0) gathered)) seen :=
          UrlInv_perm (UrlInv_of_urls_eq hInv1 (urlsOf_scoreSourceRelevance _ _))
            (sortByScoreDesc_perm _)
        cases hloop : adaptiveLoop o sig cfg icfg
            (if cfg.enableAdaptiveResearch
              then min cfg.maxResearchIterations icfg.adaptiveIterations else 1)
            { sources := sortByScoreDesc (scoreSourceRelevance (o.scoreParse 0) gathered),
              seen := seen, searchCtr := searchCtr, totalSearches := totalSearches,
              synthesis := [], scoreInv := 1, gapCtr := 0, synthCtr := 0,
              synthPasses := 0, gapAnalyses := 0, gapSearchRounds := 0,
              tick := t1 + 1 } with
        | error e => rw [hloop] at h; simp at h
        | ok st =>
          rw [hloop] at h
          dsimp only at h
          have hInv3 := adaptiveLoop_inv o sig cfg icfg _ _ st hloop hInv2
          cases hab2 : aborted sig st.tick with
          | true => rw [hab2] at h; simp at h
          | false =>
            rw [hab2] at h
            simp only [Bool.false_eq_true, if_false] at h
            cases hrep : generateComprehensiveReport o sig (st.tick + 1) cfg query
                (if ans.isEmpty then query else incorporateClarifyingAnswers query ans)
                st.sources with
            | error e => rw [hrep] at h; simp at h
            | ok p =>
              rw [hrep] at h
              obtain ⟨rep, t3⟩ := p
              dsimp only at h
              rw [Except.ok.injEq, Prod.mk.injEq] at h
              have hshape := report_ok_shape o sig (st.tick + 1) cfg query
                (if ans.isEmpty then query else incorporateClarifyingAnswers query ans)
                st.sources rep t3 hrep
              have hsrc : r.sources = reportSourcesSelect st.sources := by
                rw [← h.1, hshape]
              have hnodup : (r.sources.map (fun s => s.url)).Nodup := by
                rw [hsrc]
                exact reportSourcesSelect_nodup hInv3.1
              exact ⟨hnodup, by rw [List.dedup_eq_self.mpr hnodup]⟩

/-- Witness for C1 at a concrete run whose search results repeat a url. -/
theorem C1_report_source_urls_unique_witness :
    ∃ r stats,
      research oracleDup none cfgNonAdaptive icfgQuick "q".data [] = .ok (r, stats) ∧
      (r.sources.map (fun s => s.url)).Nodup ∧
      (r.sources.map (fun s => s.url)).dedup.length =
        (r.sources.map (fun s => s.url)).length :=
  ⟨_, _, rfl,
   C1_report_source_urls_unique oracleDup none cfgNonAdaptive icfgQuick "q".data [] _ _ rfl⟩

/-- C10 (confirmed): the source list embedded in the report is the
gathered list filtered to relevanceScore at least 2 whenever at least ten
sources pass, and the unfiltered gathered list otherwise; the metadata
totalSources counts all gathered sources, so report.sources can be a
strict subset (the concrete run gathers 11 sources but embeds 10). -/
theorem C10_report_source_selection :
    (∀ (o : Oracle) (sig : Option Nat) (t : Nat) (cfg : ResearchConfig) (q rq : Str)
        (sources : List ResearchSource) (rep : ResearchReport) (t2 : Nat),
        generateComprehensiveReport o sig t cfg q rq sources = .ok (rep, t2) →
        rep.sources = reportSourcesSelect sources) ∧
      (∀ (o : Oracle) (sig : Option Nat) (cfg : ResearchConfig) (icfg : IntensityConfig)
        (query : Str) (ans : List (Str × Str)) (r : ResearchReport) (stats : RunStats),
        research o sig cfg icfg query ans = .ok (r, stats) →
        r.sources = reportSourcesSelect stats.gathered ∧
          r.totalSources = stats.gathered.length) ∧
      ((research oracleEleven none cfgNonAdaptive icfgEleven "q".data []).map
        (fun p => (p.1.sources.length, p.1.totalSources, p.2.gathered.length)) =
        .ok (10, 11, 11)) := by
  refine ⟨?_, ?_, rfl⟩
  · intro o sig t cfg q rq sources rep t2 h
    rw [report_ok_shape o sig t cfg q rq sources rep t2 h]
  · intro o sig cfg icfg query ans r stats h
    unfold research at h
    cases hab0 : aborted sig 0 with
    | true => rw [hab0] at h; simp at h
    | false =>
      rw [hab0] at h
      simp only [Bool.false_eq_true, if_false] at h
      cases hg : gatherBatches sig o.search icfg.maxSources icfg.sourcesPerSearch o.fetch
          (chunksOf icfg.parallelSearches
            ((createSearchPlan (if ans.isEmpty then query
                else incorporateClarifyingAnswers query ans)
              icfg.maxSearchQueries o.planResponse).take
              (min (createSearchPlan (if ans.isEmpty then query
                  else incorporateClarifyingAnswers query ans)
                icfg.maxSearchQueries o.planResponse).length icfg.maxSearchQueries)))
          ([], [], 0, 0, 1) with
      | error e => rw [hg] at h; simp at h
      | ok g =>
        rw [hg] at h
        obtain ⟨gathered, seen, searchCtr, totalSearches, t1⟩ := g
        dsimp only at h
        cases hab1 : aborted sig t1 with
        | true => rw [hab1] at h; simp at h
        | false =>
          rw [hab1] at h
          simp only [Bool.false_eq_true, if_false] at h
          cases hloop : adaptiveLoop o sig cfg icfg
              (if cfg.enableAdaptiveResearch
                then min cfg.maxResearchIterations icfg.adaptiveIterations else 1)
              { sources := sortByScoreDesc (scoreSourceRelevance (o.scoreParse 0) gathered),
                seen := seen, searchCtr := searchCtr, totalSearches := totalSearches,
                synthesis := [], scoreInv := 1, gapCtr := 0, synthCtr := 0,
                synthPasses := 0, gapAnalyses := 0, gapSearchRounds := 0,
                tick := t1 + 1 } with
          | error e => rw [hloop] at h; simp at h
          | ok st =>
            rw [hloop] at h
            dsimp only at h
            cases hab2 : aborted sig st.tick with
            | true => rw [hab2] at h; simp at h
            | false =>
              rw [hab2] at h
              simp only [Bool.false_eq_true, if_false] at h
              cases hrep : generateComprehensiveReport o sig (st.tick + 1) cfg query
                  (if ans.isEmpty then query else incorporateClarifyingAnswers query ans)
                  st.sources with
              | error e => rw [hrep] at h; simp at h
              | ok p =>
                rw [hrep] at h
                obtain ⟨rep, t3⟩ := p
                dsimp only at h
                rw [Except.ok.injEq, Prod.mk.injEq] at h
                have hshape := report_ok_shape o sig (st.tick + 1) cfg query
                  (if ans.isEmpty then query else incorporateClarifyingAnswers query ans)
                  st.sources rep t3 hrep
                constructor
                · rw [← h.1, ← h.2, hshape]
                · rw [← h.1, ← h.2]

/-- Witness for C10 at a concrete report generation call. -/
theorem C10_report_source_selection_witness :
    ∃ rep t2,
      generateComprehensiveReport oracleDup none 0 cfgNonAdaptive "q".data "q".data [] =
        .ok (rep, t2) ∧
      rep.sources = reportSourcesSelect [] :=
  ⟨_, _, rfl,
   C10_report_source_selection.1 oracleDup none 0 cfgNonAdaptive "q".data "q".data [] _ _ rfl⟩

/-- C7 counterexample: (i) the dedup pass is not idempotent as claimed --
on cexA the first run deletes the duplicated leading sentence of the
middle section, leaving a paragraph that now begins with the
Forward-Looking-Statement boilerplate prefix, which a second run strips;
(ii) the surviving sole sentence of cexB's second section exceeds the
dual drop threshold against the accumulated gram set, because the
100-character minimum-content guard left that section unmodified. -/
theorem C7_counterexample :
    deduplicateReportSections (deduplicateReportSections cexA) ≠
        deduplicateReportSections cexA ∧
      sectionsClean (deduplicateReportSections cexB) = false := by
  constructor
  · decide
  · decide

theorem tokenizeBy_flatten (p : Char → Bool) :
    ∀ l : List Char, ((tokenizeBy p l).map (fun t => t.2)).flatten = l := by
  intro l
  induction l with
  | nil => rfl
  | cons c rest ih =>
    simp only [tokenizeBy]
    cases htk : tokenizeBy p rest with
    | nil =>
      rw [htk] at ih
      simp at ih
      simp [ih]
    | cons t ts =>
      rw [htk] at ih
      obtain ⟨b, w⟩ := t
      dsimp only
      by_cases hc : p c == b
      · rw [if_pos hc]
        simpa using ih
      · rw [if_neg hc]
        simpa using ih

theorem tokenizeBy_ne_nil (p : Char → Bool) (c : Char) (l : List Char) :
    tokenizeBy p (c :: l) ≠ [] := by
  simp only [tokenizeBy]
  cases tokenizeBy p l with
  | nil => simp
  | cons t ts =>
    obtain ⟨b, w⟩ := t
    dsimp only
    by_cases hc : p c == b
    · rw [if_pos hc]; simp
    · rw [if_neg hc]; simp

theorem tokenizeBy_head (p : Char → Bool) (c : Char) (l : List Char) :
    ∃ u ts, tokenizeBy p (c :: l) = (p c, c :: u) :: ts := by
  simp only [tokenizeBy]
  cases tokenizeBy p l with
  | nil => exact ⟨[], [], rfl⟩
  | cons t ts =>
    obtain ⟨b, w⟩ := t
    dsimp only
    by_cases hc : p c == b
    · rw [if_pos hc]
      have hb : b = p c := (beq_iff_eq.mp hc).symm
      subst hb
      exact ⟨w, ts, rfl⟩
    · rw [if_neg hc]
      exact ⟨[], (b, w) :: ts, rfl⟩

theorem tokenizeBy_tok_ne_nil (p : Char → Bool) :
    ∀ (l : List Char), ∀ t ∈ tokenizeBy p l, t.2 ≠ [] := by
  intro l
  induction l with
  | nil => intro t ht; simp [tokenizeBy] at ht
  | cons c rest ih =>
    intro t ht
    simp only [tokenizeBy] at ht
    cases htk : tokenizeBy p rest with
    | nil => rw [htk] at ht; simp at ht; simp [ht]
    | cons hd ts =>
      rw [htk] at ht
      obtain ⟨b, w⟩ := hd
      dsimp only at ht
      by_cases hc : p c == b
      · rw [if_pos hc] at ht
        rcases List.mem_cons.mp ht with h1 | h2
        · rw [h1]; simp
        · exact ih t (htk ▸ List.mem_cons_of_mem _ h2)
      · rw [if_neg hc] at ht
        rcases List.mem_cons.mp ht with h1 | h2
        · rw [h1]; simp
        · exact ih t (htk ▸ h2)

theorem tokenizeBy_homog (p : Char → Bool) :
    ∀ (l : List Char), ∀ t ∈ tokenizeBy p l, ∀ c ∈ t.2, p c = t.1 := by
  intro l
  induction l with
  | nil => intro t ht; simp [tokenizeBy] at ht
  | cons c rest ih =>
    intro t ht d hd
    simp only [tokenizeBy] at ht
    cases htk : tokenizeBy p rest with
    | nil =>
      rw [htk] at ht
      simp at ht
      rw [ht] at hd ⊢
      simp at hd
      rw [hd]
    | cons hd0 ts =>
      rw [htk] at ht
      obtain ⟨b, w⟩ := hd0
      dsimp only at ht
      by_cases hc : p c == b
      · rw [if_pos hc] at ht
        rcases List.mem_cons.mp ht with h1 | h2
        · rw [h1] at hd ⊢
          simp only at hd ⊢
          rcases List.mem_cons.mp hd with h3 | h4
          · rw [h3]; exact beq_iff_eq.mp hc
          · have := ih (b, w) (htk ▸ List.mem_cons_self _ _) d h4
            simpa using this
        · exact ih t (htk ▸ List.mem_cons_of_mem _ h2) d hd
      · rw [if_neg hc] at ht
        rcases List.mem_cons.mp ht with h1 | h2
        · rw [h1] at hd ⊢
          simp only at hd ⊢
          have : d = c := by simpa using hd
          rw [this]
        · exact ih t (htk ▸ h2) d hd

theorem tokenizeBy_chain (p : Char → Bool) :
    ∀ (l : List Char), (tokenizeBy p l).Chain' (fun a b => a.1 ≠ b.1) := by
  intro l
  induction l with
  | nil => simp [tokenizeBy]
  | cons c rest ih =>
    simp only [tokenizeBy]
    cases htk : tokenizeBy p rest with
    | nil => simp
    | cons hd ts =>
      rw [htk] at ih
      obtain ⟨b, w⟩ := hd
      dsimp only
      by_cases hc : p c == b
      · rw [if_pos hc]
        exact List.chain'_cons'.mpr ⟨(List.chain'_cons'.mp ih).1, (List.chain'_cons'.mp ih).2⟩
      · rw [if_neg hc]
        refine List.chain'_cons'.mpr ⟨?_, ih⟩
        intro x hx
        have hx2 : (b, w) = x := by simpa using hx
        intro h
        have hpc : p c = b := by rw [← hx2] at h; exact h
        exact hc (by simp [hpc])

theorem tokenizeBy_homog_run (p : Char → Bool) (b : Bool) :
    ∀ (l : List Char), l ≠ [] → (∀ c ∈ l, p c = b) → tokenizeBy p l = [(b, l)] := by
  intro l
  induction l with
  | nil => intro h; exact absurd rfl h
  | cons c rest ih =>
    intro _ hall
    have hc : p c = b := hall c (List.mem_cons_self _ _)
    cases rest with
    | nil => simp [tokenizeBy, hc]
    | cons d ds =>
      have hr := ih (by simp) (fun x hx => hall x (List.mem_cons_of_mem _ hx))
      have hstep : tokenizeBy p (c :: d :: ds) =
          match tokenizeBy p (d :: ds) with
          | [] => [(p c, [c])]
          | (bb, t) :: ts =>
            if p c == bb then (bb, c :: t) :: ts else (p c, [c]) :: (bb, t) :: ts := rfl
      rw [hstep, hr]
      dsimp only
      rw [if_pos (by simp [hc])]

theorem tokenizeBy_append (p : Char → Bool) :
    ∀ (l1 l2 : List Char) (d1 d2 : Char), l1.getLast? = some d1 → l2.head? = some d2 →
      p d1 ≠ p d2 → tokenizeBy p (l1 ++ l2) = tokenizeBy p l1 ++ tokenizeBy p l2 := by
  intro l1
  induction l1 with
  | nil =>
    intro l2 d1 d2 h1 h2 hne
    simp at h1
  | cons a rest ih =>
    intro l2 d1 d2 h1 h2 hne
    cases rest with
    | nil =>
      cases l2 with
      | nil => simp at h2
      | cons e es =>
        have hpa : p a = p d1 := by
          have ha : a = d1 := by simpa using h1
          rw [ha]
        have hpe : p e = p d2 := by
          have hee : e = d2 := by simpa using h2
          rw [hee]
        have hstep : tokenizeBy p (a :: e :: es) =
            match tokenizeBy p (e :: es) with
            | [] => [(p a, [a])]
            | (bb, t) :: ts =>
              if p a == bb then (bb, a :: t) :: ts
              else (p a, [a]) :: (bb, t) :: ts := rfl
        rw [List.singleton_append, hstep]
        obtain ⟨u, ts, htk⟩ := tokenizeBy_head p e es
        rw [htk]
        dsimp only
        rw [if_neg (by simp [hpa, hpe]; exact hne)]
        simp [tokenizeBy, htk]
    | cons r rs =>
      have hlast : (r :: rs).getLast? = some d1 := by
        rw [List.getLast?_cons_cons] at h1
        exact h1
      have hrec := ih l2 d1 d2 hlast h2 hne
      obtain ⟨u2, ts2, htk2⟩ := tokenizeBy_head p r rs
      have hstep : ∀ X : List Char, tokenizeBy p (a :: X) =
          match tokenizeBy p X with
          | [] => [(p a, [a])]
          | (bb, t) :: ts =>
            if p a == bb then (bb, a :: t) :: ts
            else (p a, [a]) :: (bb, t) :: ts := fun X => rfl
      rw [List.cons_append, hstep, hstep, hrec, htk2]
      dsimp only [List.cons_append]
      by_cases hc : p a == p r
      · rw [if_pos hc, if_pos hc]
        simp
      · rw [if_neg hc, if_neg hc]
        simp

theorem head_or_append {α : Type} (a b : List α) :
    (a ++ b).head? = a.head?.or b.head? := by
  cases a <;> simp

theorem splitToks_ne_nil
    (cut : Option Char → (Bool × Str) → Option (Bool × Str) → Bool) :
    ∀ (ts : List (Bool × Str)) (prev : Option Char), splitToks cut prev ts ≠ [] := by
  intro ts
  induction ts with
  | nil => intro prev; simp [splitToks]
  | cons t rest ih =>
    intro prev
    simp only [splitToks]
    by_cases hc : cut prev t rest.head?
    · rw [if_pos hc]; simp
    · rw [if_neg hc]
      cases hr : splitToks cut t.2.getLast? rest with
      | nil => simp
      | cons p ps => simp

theorem splitToks_pass
    (cut : Option Char → (Bool × Str) → Option (Bool × Str) → Bool) :
    ∀ (zs : List (Bool × Str)) (prev : Option Char) (rest : List (Bool × Str)),
      noCutSeq cut prev zs rest.head? = true →
      splitToks cut prev (zs ++ rest) =
        match splitToks cut (threadPrev prev zs) rest with
        | [] => [zs]
        | p :: ps => (zs ++ p) :: ps := by
  intro zs
  induction zs with
  | nil =>
    intro prev rest _
    cases h : splitToks cut prev rest with
    | nil => exact absurd h (splitToks_ne_nil cut rest prev)
    | cons p ps => simp [threadPrev, h]
  | cons t zs' ih =>
    intro prev rest hnc
    simp only [noCutSeq, Bool.and_eq_true, Bool.not_eq_true'] at hnc
    obtain ⟨hcut, hrest⟩ := hnc
    have hhead : (zs' ++ rest).head? = zs'.head?.or rest.head? := head_or_append zs' rest
    simp only [List.cons_append, splitToks, List.append_eq]
    rw [hhead, hcut]
    simp only [Bool.false_eq_true, if_false]
    have ihh := ih t.2.getLast? rest hrest
    rw [ihh]
    have hthread : threadPrev prev (t :: zs') = threadPrev t.2.getLast? zs' := rfl
    rw [hthread]
    cases hs : splitToks cut (threadPrev t.2.getLast? zs') rest with
    | nil => simp
    | cons p ps => simp

theorem splitToks_decomp
    (cut : Option Char → (Bool × Str) → Option (Bool × Str) → Bool) :
    ∀ (ts : List (Bool × Str)) (prev : Option Char) (p0 r0 : List (Bool × Str))
      (rrest : List (List (Bool × Str))),
      splitToks cut prev ts = p0 :: r0 :: rrest →
      ∃ (ct : Bool × Str) (trail : List (Bool × Str)),
        ts = p0 ++ ct :: trail ∧
        cut (threadPrev prev p0) ct trail.head? = true ∧
        splitToks cut ct.2.getLast? trail = r0 :: rrest ∧
        noCutSeq cut prev p0 (some ct) = true := by
  intro ts
  induction ts with
  | nil =>
    intro prev p0 r0 rrest h
    simp [splitToks] at h
  | cons t ts' ih =>
    intro prev p0 r0 rrest h
    simp only [splitToks] at h
    by_cases hc : cut prev t ts'.head?
    · rw [if_pos hc] at h
      injection h with h1 h2
      subst h1
      refine ⟨t, ts', rfl, hc, h2, rfl⟩
    · rw [if_neg hc] at h
      cases hr : splitToks cut t.2.getLast? ts' with
      | nil => exact absurd hr (splitToks_ne_nil cut ts' t.2.getLast?)
      | cons q qs =>
        rw [hr] at h
        injection h with h1 h2
        subst h1
        subst h2
        obtain ⟨ct, trail, hts, hcut, hsp, hnc⟩ := ih t.2.getLast? q r0 rrest hr
        refine ⟨ct, trail, ?_, ?_, hsp, ?_⟩
        · rw [hts]; rfl
        · have hth : threadPrev prev (t :: q) = threadPrev t.2.getLast? q := rfl
          rw [hth]; exact hcut
        · simp only [noCutSeq, Bool.and_eq_true, Bool.not_eq_true']
          refine ⟨?_, hnc⟩
          have hh : ts'.head? = q.head?.or (some ct) := by
            rw [hts, head_or_append]
            rfl
          rw [← hh]
          simpa using hc

theorem sentStart_not_ws (c : Char) (h : isSentStartChar c = true) : isJsWs c = false := by
  cases hw : isJsWs c
  · rfl
  · exfalso
    have hc : c = ' ' ∨ c = '\t' ∨ c = '\n' ∨ c = '\r' ∨ c = '\x0b' ∨ c = '\x0c' := by
      simpa [isJsWs, or_assoc, beq_iff_eq] using hw
    rcases hc with h1 | h1 | h1 | h1 | h1 | h1 <;> subst h1 <;> exact absurd h (by decide)

theorem sentEnd_not_ws (c : Char) (h : isSentEndChar c = true) : isJsWs c = false := by
  cases hw : isJsWs c
  · rfl
  · exfalso
    have hc : c = ' ' ∨ c = '\t' ∨ c = '\n' ∨ c = '\r' ∨ c = '\x0b' ∨ c = '\x0c' := by
      simpa [isJsWs, or_assoc, beq_iff_eq] using hw
    rcases hc with h1 | h1 | h1 | h1 | h1 | h1 <;> subst h1 <;> exact absurd h (by decide)

theorem trimL_head_not_ws (l : List Char) :
    ∀ c ∈ (trimL l).head?, isJsWs c = false := by
  induction l with
  | nil => intro c hc; simp [trimL] at hc
  | cons a rest ih =>
    intro c hc
    unfold trimL at hc
    rw [List.dropWhile_cons] at hc
    by_cases ha : isJsWs a
    · rw [if_pos ha] at hc
      exact ih c hc
    · rw [if_neg ha] at hc
      have hac : a = c := by simpa using hc
      rw [← hac]
      simpa using ha

theorem trimL_eq_self (l : List Char) (h : ∀ c ∈ l.head?, isJsWs c = false) :
    trimL l = l := by
  cases l with
  | nil => rfl
  | cons a rest =>
    unfold trimL
    rw [List.dropWhile_cons, if_neg]
    rw [h a (by simp)]
    simp

theorem trimL_idem (l : List Char) : trimL (trimL l) = trimL l :=
  trimL_eq_self _ (trimL_head_not_ws l)

theorem trimR_last_not_ws (l : List Char) :
    ∀ c ∈ (trimR l).getLast?, isJsWs c = false := by
  intro c hc
  unfold trimR at hc
  rw [List.getLast?_reverse] at hc
  exact trimL_head_not_ws l.reverse c hc

theorem trimR_eq_self (l : List Char) (h : ∀ c ∈ l.getLast?, isJsWs c = false) :
    trimR l = l := by
  unfold trimR
  have h2 : trimL l.reverse = l.reverse := by
    apply trimL_eq_self
    intro c hc
    rw [List.head?_reverse] at hc
    exact h c hc
  unfold trimL at h2
  rw [h2, List.reverse_reverse]

theorem trimR_idem (l : List Char) : trimR (trimR l) = trimR l :=
  trimR_eq_self _ (trimR_last_not_ws l)

theorem trimR_cons (a : Char) (rest : List Char) :
    trimR (a :: rest) =
      if trimR rest = [] then (if isJsWs a then [] else [a]) else a :: trimR rest := by
  unfold trimR
  rw [show (a :: rest).reverse = rest.reverse ++ [a] from by simp]
  rw [List.dropWhile_append]
  by_cases h : (rest.reverse.dropWhile isJsWs).isEmpty
  · rw [if_pos h]
    have h2 : (rest.reverse.dropWhile isJsWs).reverse = [] := by
      rw [List.isEmpty_iff] at h
      rw [h]
      rfl
    rw [if_pos h2]
    by_cases ha : isJsWs a
    · simp [List.dropWhile_cons, ha]
    · simp [List.dropWhile_cons, ha]
  · rw [if_neg h]
    have h2 : ¬((rest.reverse.dropWhile isJsWs).reverse = []) := by
      simp only [List.isEmpty_iff] at h
      simpa using h
    rw [if_neg h2]
    simp

theorem trimR_head (l : List Char) (c : Char) (h : (trimR l).head? = some c) :
    l.head? = some c := by
  induction l with
  | nil => simp [trimR] at h
  | cons a rest ih =>
    rw [trimR_cons] at h
    by_cases h0 : trimR rest = []
    · rw [if_pos h0] at h
      by_cases ha : isJsWs a
      · rw [if_pos ha] at h
        simp at h
      · rw [if_neg ha] at h
        simpa using h
    · rw [if_neg h0] at h
      simpa using h

theorem trimL_getLast (l : List Char) (c : Char) (h : (trimL l).getLast? = some c) :
    l.getLast? = some c := by
  induction l with
  | nil => simp [trimL] at h
  | cons a rest ih =>
    unfold trimL at h
    rw [List.dropWhile_cons] at h
    by_cases ha : isJsWs a
    · rw [if_pos ha] at h
      have hr := ih h
      cases hrest : rest with
      | nil =>
        rw [hrest] at hr
        simp at hr
      | cons r rs =>
        rw [hrest] at hr
        rw [List.getLast?_cons_cons]
        exact hr
    · rw [if_neg ha] at h
      exact h

theorem trimS_head_not_ws (l : List Char) :
    ∀ c ∈ (trimS l).head?, isJsWs c = false := by
  intro c hc
  unfold trimS at hc
  simp only [Option.mem_def] at hc
  exact trimL_head_not_ws l c (by rw [trimR_head (trimL l) c hc]; rfl)

theorem trimS_last_not_ws (l : List Char) :
    ∀ c ∈ (trimS l).getLast?, isJsWs c = false := by
  intro c hc
  unfold trimS at hc
  exact trimR_last_not_ws (trimL l) c hc

theorem trimS_idem (l : List Char) : trimS (trimS l) = trimS l := by
  unfold trimS
  have h1 : trimL (trimR (trimL l)) = trimR (trimL l) := by
    apply trimL_eq_self
    intro c hc
    simp only [Option.mem_def] at hc
    exact trimL_head_not_ws l c (by rw [trimR_head (trimL l) c hc]; rfl)
  rw [h1, trimR_idem]

theorem trimL_append_trimL (x y : List Char) :
    trimL (trimL x ++ y) = trimL (x ++ y) := by
  unfold trimL
  rw [List.dropWhile_append, List.dropWhile_append]
  have h : (x.dropWhile isJsWs).dropWhile isJsWs = x.dropWhile isJsWs := trimL_idem x
  rw [h]

theorem trimR_append_trimR (x y : List Char) :
    trimR (x ++ trimR y) = trimR (x ++ y) := by
  unfold trimR
  rw [List.reverse_append, List.reverse_append, List.reverse_reverse]
  rw [List.dropWhile_append, List.dropWhile_append]
  have h : (y.reverse.dropWhile isJsWs).dropWhile isJsWs = y.reverse.dropWhile isJsWs :=
    trimL_idem y.reverse
  rw [h]

theorem trimR_append_last (x : List Char) (c : Char) (hc : isJsWs c = false) :
    trimR (x ++ [c]) = x ++ [c] := by
  apply trimR_eq_self
  intro d hd
  have : d = c := by
    rw [List.getLast?_concat] at hd
    simpa using hd.symm
  rw [this]
  exact hc

theorem ws_not_sentEnd (c : Char) (h : isJsWs c = true) : isSentEndChar c = false := by
  cases he : isSentEndChar c
  · rfl
  · rw [sentEnd_not_ws c he] at h
    exact absurd h (by simp)

theorem ws_not_sentStart (c : Char) (h : isJsWs c = true) : isSentStartChar c = false := by
  cases he : isSentStartChar c
  · rfl
  · rw [sentStart_not_ws c he] at h
    exact absurd h (by simp)

theorem splitToks_head_cons
    (cut : Option Char → (Bool × Str) → Option (Bool × Str) → Bool)
    (prev : Option Char) (tn : Bool × Str) (ts : List (Bool × Str))
    (h : cut prev tn ts.head? = false) :
    ∃ u ps, splitToks cut prev (tn :: ts) = (tn :: u) :: ps := by
  simp only [splitToks]
  rw [h]
  simp only [Bool.false_eq_true, if_false]
  cases hr : splitToks cut tn.2.getLast? ts with
  | nil => exact absurd hr (splitToks_ne_nil cut ts tn.2.getLast?)
  | cons p ps => exact ⟨p, ps, rfl⟩

theorem noCutSeq_sentCut_prev_irrel (p1 p2 : Option Char) (t : Bool × Str)
    (rest : List (Bool × Str)) (a : Option (Bool × Str)) (h : t.1 = false) :
    noCutSeq sentCut p1 (t :: rest) a = noCutSeq sentCut p2 (t :: rest) a := by
  simp only [noCutSeq]
  have h1 : sentCut p1 t (rest.head?.or a) = false := by
    simp [sentCut, h]
  have h2 : sentCut p2 t (rest.head?.or a) = false := by
    simp [sentCut, h]
  rw [h1, h2]

theorem getLast?_some (l : List Char) (h : l ≠ []) : ∃ c, l.getLast? = some c := by
  induction l with
  | nil => exact absurd rfl h
  | cons a rest ih =>
    cases hrest : rest with
    | nil => exact ⟨a, rfl⟩
    | cons b bs =>
      obtain ⟨c, hc⟩ := ih (by rw [hrest]; simp)
      refine ⟨c, ?_⟩
      rw [hrest] at hc
      rw [List.getLast?_cons_cons]
      exact hc

theorem mem_of_getLast?Ch (l : List Char) (c : Char) (h : l.getLast? = some c) : c ∈ l := by
  induction l with
  | nil => simp at h
  | cons a rest ih =>
    cases hrest : rest with
    | nil =>
      subst hrest
      have hac : a = c := by simpa using h
      simp [hac]
    | cons b bs =>
      subst hrest
      rw [List.getLast?_cons_cons] at h
      exact List.mem_cons_of_mem _ (ih h)

theorem sentSplit_struct :
    ∀ (ts : List (Bool × Str)) (prev : Option Char),
      (∀ t ∈ ts, t.2 ≠ []) →
      (∀ t ∈ ts, ∀ c ∈ t.2, isJsWs c = t.1) →
      ts.Chain' (fun a b => a.1 ≠ b.1) →
      ∃ p0 rest, splitToks sentCut prev ts = p0 :: rest ∧
        (∃ v, ts = p0 ++ v) ∧
        (∀ q ∈ rest, ContigIn q ts) ∧
        noCutSeq sentCut prev p0 none = true ∧
        (∀ q ∈ rest, noCutSeq sentCut none q none = true) ∧
        (∀ q ∈ rest, startsTokSS q) ∧
        (rest ≠ [] → endsTokSE p0 ∨ (p0 = [] ∧ prevEndsB prev = true)) ∧
        (∀ q ∈ rest.dropLast, endsTokSE q) := by
  intro ts
  induction ts with
  | nil =>
    intro prev _ _ _
    refine ⟨[], [], rfl, ⟨[], rfl⟩, ?_, rfl, ?_, ?_, ?_, ?_⟩
    · intro q hq; simp at hq
    · intro q hq; simp at hq
    · intro q hq; simp at hq
    · intro h; exact absurd rfl h
    · intro q hq; simp at hq
  | cons t ts' ih =>
    intro prev htok hhom hch
    have htok' : ∀ x ∈ ts', x.2 ≠ [] := fun x hx => htok x (List.mem_cons_of_mem _ hx)
    have hhom' : ∀ x ∈ ts', ∀ c ∈ x.2, isJsWs c = x.1 :=
      fun x hx => hhom x (List.mem_cons_of_mem _ hx)
    have hch' : ts'.Chain' (fun a b => a.1 ≠ b.1) := (List.chain'_cons'.mp hch).2
    have htne : t.2 ≠ [] := htok t (List.mem_cons_self _ _)
    obtain ⟨cl, hcl⟩ := getLast?_some t.2 htne
    have hclmem : cl ∈ t.2 := mem_of_getLast?Ch t.2 cl hcl
    have hclws : isJsWs cl = t.1 := hhom t (List.mem_cons_self _ _) cl hclmem
    obtain ⟨p0r, restr, hsp, hpre, hcontig, hnc0, hncr, hss, hends, hdl⟩ :=
      ih t.2.getLast? htok' hhom' hch'
    by_cases hc : sentCut prev t ts'.head? = true
    · -- the whitespace run is a sentence boundary
      have hcj := hc
      simp only [sentCut, Bool.and_eq_true] at hcj
      obtain ⟨⟨ht1, hpe⟩, hns⟩ := hcj
      cases hts' : ts' with
      | nil =>
        rw [hts'] at hns
        simp [nextStartsB] at hns
      | cons tn ts'' =>
        subst hts'
        have htn1 : tn.1 = false := by
          have hne := (List.chain'_cons'.mp hch).1 tn (by simp)
          cases h1 : tn.1
          · rfl
          · rw [ht1, h1] at hne
            exact absurd rfl hne
        have hns2 : nextStartsB (some tn) = true := by
          simpa using hns
        obtain ⟨c0, hc0, hc0ss⟩ : ∃ c0, tn.2.head? = some c0 ∧ isSentStartChar c0 = true := by
          simp only [nextStartsB] at hns2
          cases hh : tn.2.head? with
          | none => rw [hh] at hns2; simp at hns2
          | some c0 => rw [hh] at hns2; exact ⟨c0, rfl, hns2⟩
        have hcuttn : sentCut t.2.getLast? tn ts''.head? = false := by
          simp [sentCut, htn1]
        obtain ⟨u0, ps0, hshape⟩ := splitToks_head_cons sentCut t.2.getLast? tn ts'' hcuttn
        have hp0r : p0r = tn :: u0 :=
          (List.cons_eq_cons.mp (hsp.symm.trans hshape)).1
        have hpe' : prevEndsB t.2.getLast? = false := by
          rw [hcl]
          simp only [prevEndsB]
          exact ws_not_sentEnd cl (by rw [hclws, ht1])
        have hsplit : splitToks sentCut prev (t :: tn :: ts'') = [] :: p0r :: restr := by
          have hstep : splitToks sentCut prev (t :: tn :: ts'') =
              if sentCut prev t (tn :: ts'').head? = true
              then [] :: splitToks sentCut t.2.getLast? (tn :: ts'')
              else match splitToks sentCut t.2.getLast? (tn :: ts'') with
                | [] => [[t]]
                | p :: ps => (t :: p) :: ps := rfl
          rw [hstep, if_pos hc, hsp]
        refine ⟨[], p0r :: restr, hsplit, ⟨t :: tn :: ts'', rfl⟩, ?_, rfl, ?_, ?_, ?_, ?_⟩
        · -- contiguity
          intro q hq
          rcases List.mem_cons.mp hq with h1 | h2
          · rw [h1]
            obtain ⟨v, hv⟩ := hpre
            exact ⟨[t], v, by rw [hv]; rfl⟩
          · obtain ⟨u, v, huv⟩ := hcontig q h2
            exact ⟨t :: u, v, by rw [huv]; rfl⟩
        · -- standalone no-cut for every later piece
          intro q hq
          rcases List.mem_cons.mp hq with h1 | h2
          · rw [h1]
            have heq : noCutSeq sentCut none p0r none =
                noCutSeq sentCut t.2.getLast? p0r none := by
              rw [hp0r]
              exact noCutSeq_sentCut_prev_irrel none t.2.getLast? tn u0 none htn1
            rw [heq]
            exact hnc0
          · exact hncr q h2
        · -- every later piece starts at a sentence start
          intro q hq
          rcases List.mem_cons.mp hq with h1 | h2
          · rw [h1]
            exact ⟨tn, u0, hp0r, htn1, by rw [hc0]; exact hc0ss⟩
          · exact hss q h2
        · intro _
          exact Or.inr ⟨rfl, hpe⟩
        · -- middle pieces end at a sentence end
          intro q hq
          cases hrr : restr with
          | nil =>
            rw [hrr] at hq
            simp at hq
          | cons r1 rs =>
            rw [hrr] at hq
            rw [List.dropLast_cons_of_ne_nil (by simp)] at hq
            rcases List.mem_cons.mp hq with h1 | h2
            · rw [h1]
              rcases hends (by rw [hrr]; simp) with he | ⟨hnil, hpe2⟩
              · exact he
              · rw [hpe'] at hpe2
                exact absurd hpe2 (by simp)
            · exact hdl q (by rw [hrr]; exact h2)
    · -- no cut at this token
      have hcf : sentCut prev t ts'.head? = false := by
        cases h : sentCut prev t ts'.head?
        · rfl
        · exact absurd h hc
      have hsplit : splitToks sentCut prev (t :: ts') = (t :: p0r) :: restr := by
        have hstep : splitToks sentCut prev (t :: ts') =
            if sentCut prev t ts'.head? = true
            then [] :: splitToks sentCut t.2.getLast? ts'
            else match splitToks sentCut t.2.getLast? ts' with
              | [] => [[t]]
              | p :: ps => (t :: p) :: ps := rfl
        rw [hstep, if_neg (by rw [hcf]; simp), hsp]
      refine ⟨t :: p0r, restr, hsplit, ?_, ?_, ?_, hncr, hss, ?_, hdl⟩
      · obtain ⟨v, hv⟩ := hpre
        exact ⟨v, by rw [hv]; rfl⟩
      · intro q hq
        obtain ⟨u, v, huv⟩ := hcontig q hq
        exact ⟨t :: u, v, by rw [huv]; rfl⟩
      · -- no-cut sequence for the head piece
        simp only [noCutSeq, Bool.and_eq_true, Bool.not_eq_true']
        constructor
        · cases hp0 : p0r with
          | nil =>
            show sentCut prev t none = false
            simp [sentCut, nextStartsB]
          | cons q qs =>
            obtain ⟨v, hv⟩ := hpre
            have hh : ts'.head? = some q := by
              rw [hv, hp0]
              rfl
            have hor : (q :: qs).head?.or none = some q := rfl
            rw [hor, ← hh]
            exact hcf
        · exact hnc0
      · -- head piece ends at a sentence end when a cut follows
        intro hne
        rcases hends hne with he | ⟨hnil, hpe2⟩
        · obtain ⟨u, tl, hu, h1, h2⟩ := he
          exact Or.inl ⟨t :: u, tl, by rw [hu]; rfl, h1, h2⟩
        · subst hnil
          rw [hcl] at hpe2
          simp only [prevEndsB] at hpe2
          have ht1f : t.1 = false := by
            rw [← hclws]
            exact sentEnd_not_ws cl hpe2
          exact Or.inl ⟨[], t, rfl, ht1f, by rw [hcl]; simp [prevEndsB, hpe2]⟩

theorem flattenToks_cons (t : Bool × Str) (q : List (Bool × Str)) :
    flattenToks (t :: q) = t.2 ++ flattenToks q := by
  simp [flattenToks]

theorem head?_some (l : List Char) (h : l ≠ []) : ∃ c, l.head? = some c := by
  cases l with
  | nil => exact absurd rfl h
  | cons a rest => exact ⟨a, rfl⟩

theorem retok (p : Char → Bool) :
    ∀ (q : List (Bool × Str)),
      (∀ t ∈ q, t.2 ≠ []) → (∀ t ∈ q, ∀ c ∈ t.2, p c = t.1) →
      q.Chain' (fun a b => a.1 ≠ b.1) →
      tokenizeBy p (flattenToks q) = q := by
  intro q
  induction q with
  | nil => intro _ _ _; rfl
  | cons t q' ih =>
    intro hne hhom hch
    have hwne : t.2 ≠ [] := hne t (List.mem_cons_self _ _)
    cases q' with
    | nil =>
      have hfl : flattenToks [t] = t.2 := by simp [flattenToks]
      rw [hfl]
      have := tokenizeBy_homog_run p t.1 t.2 hwne
        (fun c hc => hhom t (List.mem_cons_self _ _) c hc)
      rw [this]
    | cons t2 q'' =>
      have hfl : flattenToks (t :: t2 :: q'') = t.2 ++ flattenToks (t2 :: q'') :=
        flattenToks_cons t (t2 :: q'')
      rw [hfl]
      obtain ⟨d1, hd1⟩ := getLast?_some t.2 hwne
      have ht2ne : t2.2 ≠ [] := hne t2 (List.mem_cons_of_mem _ (List.mem_cons_self _ _))
      obtain ⟨d2, hd2⟩ := head?_some t2.2 ht2ne
      have hd2' : (flattenToks (t2 :: q'')).head? = some d2 := by
        rw [flattenToks_cons, head_or_append, hd2]
        rfl
      have hne12 : p d1 ≠ p d2 := by
        rw [hhom t (List.mem_cons_self _ _) d1 (mem_of_getLast?Ch t.2 d1 hd1)]
        rw [hhom t2 (List.mem_cons_of_mem _ (List.mem_cons_self _ _)) d2
          (List.mem_of_mem_head? (by rw [hd2]; rfl))]
        exact (List.chain'_cons'.mp hch).1 t2 (by simp)
      rw [tokenizeBy_append p t.2 (flattenToks (t2 :: q'')) d1 d2 hd1 hd2' hne12]
      rw [tokenizeBy_homog_run p t.1 t.2 hwne
        (fun c hc => hhom t (List.mem_cons_self _ _) c hc)]
      rw [ih (fun x hx => hne x (List.mem_cons_of_mem _ hx))
        (fun x hx => hhom x (List.mem_cons_of_mem _ hx)) (List.chain'_cons'.mp hch).2]
      rfl

theorem noCutSeq_drop_last_ws (w : Str) :
    ∀ (q : List (Bool × Str)) (pv : Option Char),
      noCutSeq sentCut pv (q ++ [(true, w)]) none = true →
      noCutSeq sentCut pv q none = true := by
  intro q
  induction q with
  | nil => intro pv _; rfl
  | cons t q' ih =>
    intro pv h
    simp only [List.cons_append, noCutSeq, Bool.and_eq_true, Bool.not_eq_true'] at h ⊢
    obtain ⟨h1, h2⟩ := h
    refine ⟨?_, ih t.2.getLast? h2⟩
    cases hq : q' with
    | nil =>
      show sentCut pv t none = false
      simp [sentCut, nextStartsB]
    | cons x xs =>
      rw [hq] at h1
      show sentCut pv t (some x) = false
      exact h1

theorem noCutSeq_drop_head_ws (w : Str) (rest : List (Bool × Str))
    (h : noCutSeq sentCut none ((true, w) :: rest) none = true)
    (hhead : ∀ t ∈ rest.head?, t.1 = false) :
    noCutSeq sentCut none rest none = true := by
  simp only [noCutSeq, Bool.and_eq_true] at h
  obtain ⟨_, h2⟩ := h
  cases rest with
  | nil => rfl
  | cons t rs =>
    rw [noCutSeq_sentCut_prev_irrel none ((true, w) : Bool × Str).2.getLast? t rs none
      (hhead t rfl)]
    exact h2

theorem mem_dropWsHead (q : List (Bool × Str)) (x : Bool × Str)
    (h : x ∈ dropWsHead q) : x ∈ q := by
  cases q with
  | nil => simpa [dropWsHead] using h
  | cons t rest =>
    obtain ⟨b, w⟩ := t
    cases b with
    | true => exact List.mem_cons_of_mem _ (by simpa [dropWsHead] using h)
    | false => simpa [dropWsHead] using h

theorem dropWsLast_two (t t2 : Bool × Str) (q : List (Bool × Str)) :
    dropWsLast (t :: t2 :: q) = t :: dropWsLast (t2 :: q) := by
  obtain ⟨b, w⟩ := t
  obtain ⟨b2, w2⟩ := t2
  cases b <;> cases b2 <;> rfl

theorem mem_dropWsLast :
    ∀ (q : List (Bool × Str)) (x : Bool × Str), x ∈ dropWsLast q → x ∈ q := by
  intro q
  induction q with
  | nil => intro x h; simpa [dropWsLast] using h
  | cons t rest ih =>
    intro x h
    cases hrest : rest with
    | nil =>
      subst hrest
      obtain ⟨b, w⟩ := t
      cases b with
      | true => simp [dropWsLast] at h
      | false =>
        have hx : (false, w) = x ∨ x = (false, w) := by
          rw [show dropWsLast [(false, w)] = [(false, w)] from rfl] at h
          exact Or.inr (by simpa using h)
        rcases hx with hx | hx
        · simp [← hx]
        · simp [hx]
    | cons t2 q'' =>
      subst hrest
      rw [dropWsLast_two] at h
      rcases List.mem_cons.mp h with h1 | h2
      · simp [h1]
      · exact List.mem_cons_of_mem _ (ih x h2)

theorem head_dropWsLast (t2 : Bool × Str) (q : List (Bool × Str)) :
    ∀ y ∈ (dropWsLast (t2 :: q)).head?, y = t2 := by
  intro y hy
  cases hq : q with
  | nil =>
    subst hq
    obtain ⟨b, w⟩ := t2
    cases b with
    | true => simp [dropWsLast] at hy
    | false =>
      have hyy : (false, w) = y := by
        rw [show dropWsLast [(false, w)] = [(false, w)] from rfl] at hy
        simpa using hy
      rw [← hyy]
  | cons x xs =>
    subst hq
    rw [dropWsLast_two] at hy
    have h2 : t2 = y := by simpa using hy
    exact h2.symm

theorem chain_dropWsLast :
    ∀ (q : List (Bool × Str)), q.Chain' (fun a b => a.1 ≠ b.1) →
      (dropWsLast q).Chain' (fun a b => a.1 ≠ b.1) := by
  intro q
  induction q with
  | nil => intro _; simp [dropWsLast]
  | cons t rest ih =>
    intro hch
    cases hrest : rest with
    | nil =>
      subst hrest
      obtain ⟨b, w⟩ := t
      cases b with
      | true => simp [dropWsLast]
      | false => simpa [dropWsLast] using hch
    | cons t2 q'' =>
      subst hrest
      rw [dropWsLast_two]
      refine List.chain'_cons'.mpr ⟨?_, ih (List.chain'_cons'.mp hch).2⟩
      intro y hy
      rw [head_dropWsLast t2 q'' y hy]
      exact (List.chain'_cons'.mp hch).1 t2 (by simp)

theorem trimR_append (A B : Str) :
    trimR (A ++ B) = if trimR B = [] then trimR A else A ++ trimR B := by
  unfold trimR
  rw [List.reverse_append, List.dropWhile_append]
  by_cases h : (B.reverse.dropWhile isJsWs).isEmpty
  · rw [if_pos h]
    rw [List.isEmpty_iff] at h
    rw [if_pos (by rw [h]; rfl)]
  · rw [if_neg h]
    rw [List.isEmpty_iff] at h
    rw [if_neg (by simpa using h)]
    rw [List.reverse_append, List.reverse_reverse]

theorem trimL_flattenToks (q : List (Bool × Str))
    (hne : ∀ t ∈ q, t.2 ≠ []) (hhom : ∀ t ∈ q, ∀ c ∈ t.2, isJsWs c = t.1)
    (hch : q.Chain' (fun a b => a.1 ≠ b.1)) :
    trimL (flattenToks q) = flattenToks (dropWsHead q) := by
  cases q with
  | nil => rfl
  | cons t q' =>
    obtain ⟨b, w⟩ := t
    have hwne : w ≠ [] := hne (b, w) (List.mem_cons_self _ _)
    cases b with
    | false =>
      have hd : dropWsHead ((false, w) :: q') = (false, w) :: q' := rfl
      rw [hd]
      apply trimL_eq_self
      intro c hc
      rw [flattenToks_cons, head_or_append] at hc
      obtain ⟨c0, hc0⟩ := head?_some w hwne
      rw [hc0] at hc
      have hcc : c0 = c := by simpa using hc
      rw [← hcc]
      exact hhom (false, w) (List.mem_cons_self _ _) c0
        (List.mem_of_mem_head? (by rw [hc0]; rfl))
    | true =>
      have hd : dropWsHead ((true, w) :: q') = q' := rfl
      rw [hd, flattenToks_cons]
      show trimL (w ++ flattenToks q') = flattenToks q'
      unfold trimL
      rw [List.dropWhile_append]
      have hwdrop : w.dropWhile isJsWs = [] := by
        rw [List.dropWhile_eq_nil_iff]
        intro a ha
        exact hhom (true, w) (List.mem_cons_self _ _) a ha
      rw [hwdrop]
      simp only [List.isEmpty_nil, if_true]
      cases q' with
      | nil => rfl
      | cons t2 q'' =>
        have h2 : trimL (flattenToks (t2 :: q'')) = flattenToks (t2 :: q'') := by
          apply trimL_eq_self
          intro c hc
          rw [flattenToks_cons, head_or_append] at hc
          have ht2ne : t2.2 ≠ [] := hne t2 (List.mem_cons_of_mem _ (List.mem_cons_self _ _))
          obtain ⟨c0, hc0⟩ := head?_some t2.2 ht2ne
          rw [hc0] at hc
          have hcc : c0 = c := by simpa using hc
          have ht21 : t2.1 = false := by
            have hne2 := (List.chain'_cons'.mp hch).1 t2 (by simp)
            cases h1 : t2.1
            · rfl
            · rw [h1] at hne2
              exact absurd rfl hne2
          rw [← hcc]
          rw [hhom t2 (List.mem_cons_of_mem _ (List.mem_cons_self _ _)) c0
            (List.mem_of_mem_head? (by rw [hc0]; rfl)), ht21]
        unfold trimL at h2
        exact h2

theorem trimR_flattenToks :
    ∀ (q : List (Bool × Str)),
      (∀ t ∈ q, t.2 ≠ []) → (∀ t ∈ q, ∀ c ∈ t.2, isJsWs c = t.1) →
      q.Chain' (fun a b => a.1 ≠ b.1) →
      trimR (flattenToks q) = flattenToks (dropWsLast q) := by
  intro q
  induction q with
  | nil => intro _ _ _; rfl
  | cons t q' ih =>
    intro hne hhom hch
    have hwne : t.2 ≠ [] := hne t (List.mem_cons_self _ _)
    cases q' with
    | nil =>
      obtain ⟨b, w⟩ := t
      have hfl : flattenToks [(b, w)] = w := by simp [flattenToks]
      cases b with
      | true =>
        rw [hfl]
        show trimR w = flattenToks (dropWsLast [(true, w)])
        rw [show dropWsLast [(true, w)] = [] from rfl]
        unfold trimR
        have hz : w.reverse.dropWhile isJsWs = [] := by
          rw [List.dropWhile_eq_nil_iff]
          intro a ha
          exact hhom (true, w) (List.mem_cons_self _ _) a (List.mem_reverse.mp ha)
        rw [hz]
        rfl
      | false =>
        rw [hfl]
        show trimR w = flattenToks (dropWsLast [(false, w)])
        rw [show dropWsLast [(false, w)] = [(false, w)] from rfl, hfl]
        apply trimR_eq_self
        intro c hc
        rw [hhom (false, w) (List.mem_cons_self _ _) c
          (mem_of_getLast?Ch w c hc)]
    | cons t2 q'' =>
      have hne' : ∀ x ∈ t2 :: q'', x.2 ≠ [] := fun x hx => hne x (List.mem_cons_of_mem _ hx)
      have hhom' : ∀ x ∈ t2 :: q'', ∀ c ∈ x.2, isJsWs c = x.1 :=
        fun x hx => hhom x (List.mem_cons_of_mem _ hx)
      have hch' := (List.chain'_cons'.mp hch).2
      have ih2 := ih hne' hhom' hch'
      rw [flattenToks_cons, trimR_append]
      by_cases hz : trimR (flattenToks (t2 :: q'')) = []
      · rw [if_pos hz]
        rw [ih2] at hz
        have hdz : dropWsLast (t2 :: q'') = [] := by
          cases hd : dropWsLast (t2 :: q'') with
          | nil => rfl
          | cons x xs =>
            rw [hd, flattenToks_cons] at hz
            have hxne : x.2 ≠ [] :=
              hne' x (mem_dropWsLast (t2 :: q'') x (by rw [hd]; simp))
            cases hx2 : x.2 with
            | nil => exact absurd hx2 hxne
            | cons c cs =>
              rw [hx2] at hz
              simp at hz
        -- dropWsLast (t2 :: q'') = [] forces q'' = [] and t2 whitespace
        have hq'' : q'' = [] := by
          cases hq : q'' with
          | nil => rfl
          | cons x xs =>
            rw [hq, dropWsLast_two] at hdz
            simp at hdz
        subst hq''
        have ht21 : t2.1 = true := by
          obtain ⟨b2, w2⟩ := t2
          cases hb2 : b2
          · rw [hb2] at hdz
            rw [show dropWsLast [(false, w2)] = [(false, w2)] from rfl] at hdz
            simp at hdz
          · rfl
        have ht1 : t.1 = false := by
          have hne2 := (List.chain'_cons'.mp hch).1 t2 (by simp)
          cases h1 : t.1
          · rfl
          · rw [h1, ht21] at hne2
            exact absurd rfl hne2
        have hdl : dropWsLast (t :: [t2]) = [t] := by
          rw [dropWsLast_two, hdz]
        rw [hdl]
        have hfl : flattenToks [t] = t.2 := by simp [flattenToks]
        rw [hfl]
        apply trimR_eq_self
        intro c hc
        rw [hhom t (List.mem_cons_self _ _) c (mem_of_getLast?Ch t.2 c hc), ht1]
      · rw [if_neg hz, ih2, dropWsLast_two]
        have hnil : dropWsLast (t2 :: q'') ≠ [] := by
          intro hcon
          rw [ih2, hcon] at hz
          exact hz rfl
        rw [flattenToks_cons]

theorem trimL_eq_or_lt (s : Str) : trimL s = s ∨ (trimL s).length < s.length := by
  cases s with
  | nil => exact Or.inl rfl
  | cons a rest =>
    unfold trimL
    rw [List.dropWhile_cons]
    by_cases ha : isJsWs a
    · rw [if_pos ha]
      right
      have : (rest.dropWhile isJsWs).length ≤ rest.length := by
        induction rest with
        | nil => simp
        | cons b bs ihh =>
          rw [List.dropWhile_cons]
          by_cases hb : isJsWs b
          · rw [if_pos hb]
            exact Nat.le_trans ihh (by simp)
          · rw [if_neg hb]
      simp only [List.length_cons]
      omega
    · rw [if_neg ha]
      exact Or.inl rfl

theorem trimR_eq_or_lt (s : Str) : trimR s = s ∨ (trimR s).length < s.length := by
  rcases trimL_eq_or_lt s.reverse with h | h
  · left
    unfold trimR
    unfold trimL at h
    rw [h, List.reverse_reverse]
  · right
    unfold trimR
    unfold trimL at h
    simpa using h

theorem of_trimS_eq_self (s : Str) (h : trimS s = s) : trimL s = s ∧ trimR s = s := by
  unfold trimS at h
  rcases trimL_eq_or_lt s with h1 | h1
  · refine ⟨h1, ?_⟩
    rw [h1] at h
    exact h
  · exfalso
    rcases trimR_eq_or_lt (trimL s) with h2 | h2
    · rw [h2] at h
      rw [h] at h1
      omega
    · have : (trimR (trimL s)).length < s.length := Nat.lt_trans h2 h1
      rw [h] at this
      omega

theorem head_not_ws_of_trimL_self (s : Str) (h : trimL s = s) :
    ∀ c ∈ s.head?, isJsWs c = false := by
  intro c hc
  rw [← h] at hc
  exact trimL_head_not_ws s c hc

theorem last_not_ws_of_trimR_self (s : Str) (h : trimR s = s) :
    ∀ c ∈ s.getLast?, isJsWs c = false := by
  intro c hc
  rw [← h] at hc
  exact trimR_last_not_ws s c hc

theorem noCutSeq_after_any :
    ∀ (q : List (Bool × Str)) (pv : Option Char) (x : Bool × Str),
      noCutSeq sentCut pv q none = true →
      (∀ u tl, q = u ++ [tl] → tl.1 = false) →
      noCutSeq sentCut pv q (some x) = true := by
  intro q
  induction q with
  | nil => intro pv x _ _; rfl
  | cons t q' ih =>
    intro pv x h hlast
    simp only [noCutSeq, Bool.and_eq_true, Bool.not_eq_true'] at h ⊢
    obtain ⟨h1, h2⟩ := h
    cases hq : q' with
    | nil =>
      subst hq
      have ht1 : t.1 = false := hlast [] t rfl
      refine ⟨by simp [sentCut, ht1], rfl⟩
    | cons y ys =>
      subst hq
      refine ⟨h1, ?_⟩
      exact ih t.2.getLast? x h2 (fun u tl hu => hlast (t :: u) tl (by rw [hu]; rfl))

theorem threadPrev_eq :
    ∀ (q : List (Bool × Str)) (prev : Option Char),
      q ≠ [] → (∀ t ∈ q, t.2 ≠ []) →
      threadPrev prev q = (flattenToks q).getLast? := by
  intro q
  induction q with
  | nil => intro prev h _; exact absurd rfl h
  | cons t q' ih =>
    intro prev _ hne
    cases hq : q' with
    | nil =>
      subst hq
      show threadPrev t.2.getLast? [] = (flattenToks [t]).getLast?
      have : flattenToks [t] = t.2 := by simp [flattenToks]
      rw [this]
      rfl
    | cons y ys =>
      subst hq
      show threadPrev t.2.getLast? (y :: ys) = (flattenToks (t :: y :: ys)).getLast?
      rw [ih t.2.getLast? (by simp) (fun x hx => hne x (List.mem_cons_of_mem _ hx))]
      have hfne : flattenToks (y :: ys) ≠ [] := by
        rw [flattenToks_cons]
        have hyne := hne y (by simp)
        cases hy : y.2 with
        | nil => exact absurd hy hyne
        | cons c cs => simp [hy]
      have happ : flattenToks (t :: y :: ys) = t.2 ++ flattenToks (y :: ys) :=
        flattenToks_cons t (y :: ys)
      rw [happ, List.getLast?_append_of_ne_nil t.2 hfne]

theorem intercalate_one {α : Type} (sep : List α) (a : List α) :
    List.intercalate sep [a] = a := by
  simp [List.intercalate, List.intersperse]

theorem intercalate_cons₂ {α : Type} (sep : List α) (a b : List α) (l : List (List α)) :
    List.intercalate sep (a :: b :: l) = a ++ sep ++ List.intercalate sep (b :: l) := by
  simp only [List.intercalate, List.intersperse, List.flatten_cons]
  simp [List.append_assoc]

theorem flattenToks_append (a b : List (Bool × Str)) :
    flattenToks (a ++ b) = flattenToks a ++ flattenToks b := by
  simp [flattenToks]

theorem sent_tok_facts (s : Str) (hne : s ≠ []) (htr : trimS s = s) :
    ∃ c u ts e, s.head? = some c ∧ isJsWs c = false ∧
      tokenizeBy isJsWs s = (false, c :: u) :: ts ∧
      s.getLast? = some e ∧ isJsWs e = false ∧
      (∀ u2 tl, tokenizeBy isJsWs s = u2 ++ [tl] → tl.1 = false) := by
  obtain ⟨htl, htrr⟩ := of_trimS_eq_self s htr
  obtain ⟨e, he⟩ := getLast?_some s hne
  have hews : isJsWs e = false := last_not_ws_of_trimR_self s htrr e (by rw [he]; rfl)
  obtain ⟨c, rest, hs⟩ : ∃ c rest, s = c :: rest := by
    cases s with
    | nil => exact absurd rfl hne
    | cons c r => exact ⟨c, r, rfl⟩
  have hcws : isJsWs c = false :=
    head_not_ws_of_trimL_self s htl c (by rw [hs]; rfl)
  obtain ⟨u, ts, htk⟩ := tokenizeBy_head isJsWs c rest
  rw [← hs] at htk
  refine ⟨c, u, ts, e, by rw [hs]; rfl, hcws, ?_, he, hews, ?_⟩
  · rw [htk, hcws]
  · intro u2 tl htoks2
    have hfl : flattenToks (u2 ++ [tl]) = s := by
      rw [← htoks2]
      exact tokenizeBy_flatten isJsWs s
    have htlne : tl.2 ≠ [] :=
      tokenizeBy_tok_ne_nil isJsWs s tl (by rw [htoks2]; simp)
    have hlast2 : tl.2.getLast? = some e := by
      rw [flattenToks_append] at hfl
      have h1 : (flattenToks u2 ++ flattenToks [tl]).getLast? = some e := by
        rw [hfl]; exact he
      have h2 : flattenToks [tl] = tl.2 := by simp [flattenToks]
      rw [h2] at h1
      rw [List.getLast?_append_of_ne_nil _ htlne] at h1
      exact h1
    have hclass : isJsWs e = tl.1 :=
      tokenizeBy_homog isJsWs s tl (by rw [htoks2]; simp) e
        (mem_of_getLast?Ch tl.2 e hlast2)
    rw [← hclass, hews]

theorem splitToks_join :
    ∀ (ss : List Str) (prev : Option Char),
      ss ≠ [] →
      (∀ s ∈ ss, s ≠ [] ∧ trimS s = s ∧
        noCutSeq sentCut none (tokenizeBy isJsWs s) none = true) →
      ss.Pairwise (fun s1 s2 => prevEndsB s1.getLast? = true ∧ headStartB s2.head? = true) →
      splitToks sentCut prev (tokenizeBy isJsWs (List.intercalate " ".data ss)) =
        ss.map (tokenizeBy isJsWs) := by
  intro ss
  induction ss with
  | nil => intro prev h _ _; exact absurd rfl h
  | cons s ss' ih =>
    intro prev _ hfacts hpair
    obtain ⟨hsne, hstrim, hsnc⟩ := hfacts s (List.mem_cons_self _ _)
    obtain ⟨c, u, ts, e, hhead, hcws, htoks, hlast, hews, hlastTok⟩ :=
      sent_tok_facts s hsne hstrim
    cases ss0 : ss' with
    | nil =>
      subst ss0
      rw [intercalate_one]
      have hnc3 : noCutSeq sentCut prev (tokenizeBy isJsWs s) none = true := by
        rw [htoks]
        rw [noCutSeq_sentCut_prev_irrel prev none (false, c :: u) ts none rfl]
        rw [← htoks]
        exact hsnc
      have hp := splitToks_pass sentCut (tokenizeBy isJsWs s) prev [] hnc3
      rw [List.append_nil] at hp
      rw [hp]
      rw [show splitToks sentCut (threadPrev prev (tokenizeBy isJsWs s)) [] = [[]] from rfl]
      simp
    | cons s2 ss'' =>
      subst ss0
      obtain ⟨hs2ne, hs2trim, _⟩ := hfacts s2 (by simp)
      obtain ⟨c2, hc2⟩ := head?_some s2 hs2ne
      have hc2ws : isJsWs c2 = false :=
        head_not_ws_of_trimL_self s2 (of_trimS_eq_self s2 hs2trim).1 c2 (by rw [hc2]; rfl)
      have hsep : " ".data = [' '] := rfl
      have hR : List.intercalate " ".data (s :: s2 :: ss'') =
          s ++ ([' '] ++ List.intercalate " ".data (s2 :: ss'')) := by
        rw [intercalate_cons₂, hsep, List.append_assoc]
      have hRhead : (List.intercalate " ".data (s2 :: ss'')).head? = some c2 := by
        cases ss'' with
        | nil => rw [intercalate_one]; exact hc2
        | cons s3 sss =>
          rw [intercalate_cons₂, List.append_assoc, head_or_append, hc2]
          rfl
      obtain ⟨restR, hRc⟩ : ∃ restR,
          List.intercalate " ".data (s2 :: ss'') = c2 :: restR := by
        cases hRx : List.intercalate " ".data (s2 :: ss'') with
        | nil => rw [hRx] at hRhead; simp at hRhead
        | cons d rest =>
          rw [hRx] at hRhead
          have hd : d = c2 := by simpa using hRhead
          exact ⟨rest, by rw [hd]⟩
      obtain ⟨uR, tsR, hRtoks⟩ := tokenizeBy_head isJsWs c2 restR
      rw [← hRc] at hRtoks
      have htoksSp : tokenizeBy isJsWs ([' '] ++ List.intercalate " ".data (s2 :: ss'')) =
          (true, [' ']) :: tokenizeBy isJsWs (List.intercalate " ".data (s2 :: ss'')) := by
        rw [tokenizeBy_append isJsWs [' '] _ ' ' c2 rfl hRhead (by rw [hc2ws]; decide)]
        rfl
      have htoksX : tokenizeBy isJsWs (s ++ ([' '] ++ List.intercalate " ".data (s2 :: ss''))) =
          tokenizeBy isJsWs s ++
            ((true, [' ']) :: tokenizeBy isJsWs (List.intercalate " ".data (s2 :: ss''))) := by
        rw [tokenizeBy_append isJsWs s
          ([' '] ++ List.intercalate " ".data (s2 :: ss'')) e ' ' hlast rfl
          (by rw [hews]; decide)]
        rw [htoksSp]
      have hnc2 : noCutSeq sentCut prev (tokenizeBy isJsWs s)
          (some ((true, [' ']) : Bool × Str)) = true := by
        have h1 : noCutSeq sentCut none (tokenizeBy isJsWs s)
            (some ((true, [' ']) : Bool × Str)) = true :=
          noCutSeq_after_any _ none _ hsnc hlastTok
        rw [htoks] at h1 ⊢
        rw [noCutSeq_sentCut_prev_irrel prev none (false, c :: u) ts _ rfl]
        exact h1
      rw [hR, htoksX]
      rw [splitToks_pass sentCut (tokenizeBy isJsWs s) prev
        ((true, [' ']) :: tokenizeBy isJsWs (List.intercalate " ".data (s2 :: ss''))) hnc2]
      have hpv : prevEndsB (threadPrev prev (tokenizeBy isJsWs s)) = true := by
        rw [threadPrev_eq _ prev (by rw [htoks]; simp) (tokenizeBy_tok_ne_nil isJsWs s)]
        have hfl : flattenToks (tokenizeBy isJsWs s) = s := tokenizeBy_flatten isJsWs s
        rw [hfl]
        exact ((List.pairwise_cons.mp hpair).1 s2 (by simp)).1
      have hnsR : nextStartsB ((tokenizeBy isJsWs
          (List.intercalate " ".data (s2 :: ss''))).head?) = true := by
        rw [hRtoks]
        show headStartB (c2 :: uR).head? = true
        show headStartB (some c2) = true
        have hss : headStartB s2.head? = true :=
          ((List.pairwise_cons.mp hpair).1 s2 (by simp)).2
        rw [hc2] at hss
        exact hss
      have hcut : sentCut (threadPrev prev (tokenizeBy isJsWs s))
          ((true, [' ']) : Bool × Str)
          ((tokenizeBy isJsWs (List.intercalate " ".data (s2 :: ss''))).head?) = true := by
        simp [sentCut, hpv, hnsR]
      have hinner : splitToks sentCut (threadPrev prev (tokenizeBy isJsWs s))
          ((true, [' ']) :: tokenizeBy isJsWs (List.intercalate " ".data (s2 :: ss''))) =
          [] :: splitToks sentCut (some ' ')
            (tokenizeBy isJsWs (List.intercalate " ".data (s2 :: ss''))) := by
        have hstep : splitToks sentCut (threadPrev prev (tokenizeBy isJsWs s))
            ((true, [' ']) :: tokenizeBy isJsWs (List.intercalate " ".data (s2 :: ss''))) =
            if sentCut (threadPrev prev (tokenizeBy isJsWs s)) ((true, [' ']) : Bool × Str)
                ((tokenizeBy isJsWs (List.intercalate " ".data (s2 :: ss''))).head?) = true
            then [] :: splitToks sentCut (some ' ')
              (tokenizeBy isJsWs (List.intercalate " ".data (s2 :: ss'')))
            else match splitToks sentCut (some ' ')
                (tokenizeBy isJsWs (List.intercalate " ".data (s2 :: ss''))) with
              | [] => [[((true, [' ']) : Bool × Str)]]
              | p :: ps => (((true, [' ']) : Bool × Str) :: p) :: ps := rfl
        rw [hstep, if_pos hcut]
      rw [hinner]
      rw [ih (some ' ') (by simp)
        (fun x hx => hfacts x (List.mem_cons_of_mem _ hx))
        (List.pairwise_cons.mp hpair).2]
      simp

theorem sentParts_join (ss : List Str)
    (hne : ss ≠ [])
    (hfacts : ∀ s ∈ ss, s ≠ [] ∧ trimS s = s ∧
      noCutSeq sentCut none (tokenizeBy isJsWs s) none = true)
    (hpair : ss.Pairwise (fun s1 s2 =>
      prevEndsB s1.getLast? = true ∧ headStartB s2.head? = true)) :
    sentParts (List.intercalate " ".data ss) = ss := by
  unfold sentParts
  rw [splitToks_join ss none hne hfacts hpair, List.map_map]
  have hmap : ∀ s ∈ ss, (flattenToks ∘ tokenizeBy isJsWs) s = id s :=
    fun s _ => tokenizeBy_flatten isJsWs s
  rw [List.map_congr_left hmap, List.map_id]

theorem splitIntoSentences_join (ss : List Str)
    (hne : ss ≠ [])
    (hfacts : ∀ s ∈ ss, trimS s = s ∧ 10 < s.length ∧
      noCutSeq sentCut none (tokenizeBy isJsWs s) none = true)
    (hpair : ss.Pairwise (fun s1 s2 =>
      prevEndsB s1.getLast? = true ∧ headStartB s2.head? = true)) :
    splitIntoSentences (List.intercalate " ".data ss) = ss := by
  unfold splitIntoSentences
  have hfacts' : ∀ s ∈ ss, s ≠ [] ∧ trimS s = s ∧
      noCutSeq sentCut none (tokenizeBy isJsWs s) none = true := by
    intro s hs
    obtain ⟨h1, h2, h3⟩ := hfacts s hs
    refine ⟨?_, h1, h3⟩
    intro hcon
    rw [hcon] at h2
    simp at h2
  rw [sentParts_join ss hne hfacts' hpair]
  have hmap : ∀ s ∈ ss, trimS s = id s := fun s hs => (hfacts s hs).1
  rw [List.map_congr_left hmap, List.map_id]
  apply List.filter_eq_self.mpr
  intro s hs
  simpa using (hfacts s hs).2.1

theorem chain'_infix {α : Type} (R : α → α → Prop) (ts u q v : List α)
    (hch : ts.Chain' R) (h : ts = u ++ q ++ v) : q.Chain' R := by
  subst h
  rw [List.append_assoc] at hch
  have h1 : (q ++ v).Chain' R := ((List.chain'_append.mp hch).2).1
  exact (List.chain'_append.mp h1).1

theorem chain_dropWsHead (q : List (Bool × Str))
    (hch : q.Chain' (fun a b => a.1 ≠ b.1)) :
    (dropWsHead q).Chain' (fun a b => a.1 ≠ b.1) := by
  cases q with
  | nil => simpa [dropWsHead] using hch
  | cons t rest =>
    obtain ⟨b, w⟩ := t
    cases b with
    | true =>
      rw [show dropWsHead ((true, w) :: rest) = rest from rfl]
      exact (List.chain'_cons'.mp hch).2
    | false =>
      rw [show dropWsHead ((false, w) :: rest) = (false, w) :: rest from rfl]
      exact hch

theorem dropWsLast_cases :
    ∀ (q : List (Bool × Str)), dropWsLast q = q ∨
      ∃ u w, q = u ++ [((true, w) : Bool × Str)] ∧ dropWsLast q = u := by
  intro q
  induction q with
  | nil => exact Or.inl rfl
  | cons t rest ih =>
    cases hrest : rest with
    | nil =>
      subst hrest
      obtain ⟨b, w⟩ := t
      cases b with
      | true =>
        right
        exact ⟨[], w, rfl, by rw [show dropWsLast [((true, w) : Bool × Str)] = [] from rfl]⟩
      | false =>
        left
        rw [show dropWsLast [((false, w) : Bool × Str)] = [(false, w)] from rfl]
    | cons t2 q'' =>
      subst hrest
      rw [dropWsLast_two]
      rcases ih with h | ⟨u, w, hq, hd⟩
      · left
        rw [h]
      · right
        exact ⟨t :: u, w, by rw [hq]; rfl, by rw [hd]⟩

theorem noCut_dropWsLast (q : List (Bool × Str)) (pv : Option Char)
    (h : noCutSeq sentCut pv q none = true) :
    noCutSeq sentCut pv (dropWsLast q) none = true := by
  rcases dropWsLast_cases q with hq | ⟨u, w, hq, hd⟩
  · rw [hq]; exact h
  · rw [hd]
    rw [hq] at h
    exact noCutSeq_drop_last_ws w u pv h

theorem noCut_dropWs (q : List (Bool × Str))
    (hch : q.Chain' (fun a b => a.1 ≠ b.1))
    (h : noCutSeq sentCut none q none = true) :
    noCutSeq sentCut none (dropWsLast (dropWsHead q)) none = true := by
  apply noCut_dropWsLast
  cases q with
  | nil => exact h
  | cons t rest =>
    obtain ⟨b, w⟩ := t
    cases b with
    | true =>
      rw [show dropWsHead ((true, w) :: rest) = rest from rfl]
      apply noCutSeq_drop_head_ws w rest h
      intro x hx
      cases hrest : rest with
      | nil => rw [hrest] at hx; simp at hx
      | cons y ys =>
        rw [hrest] at hx
        have hxy : y = x := by simpa using hx
        have hne2 := (List.chain'_cons'.mp (by rw [hrest] at hch; exact hch)).1 y (by simp)
        rw [← hxy]
        cases hy : y.1
        · rfl
        · rw [hy] at hne2
          exact absurd rfl hne2
    | false =>
      rw [show dropWsHead ((false, w) :: rest) = (false, w) :: rest from rfl]
      exact h

theorem toks_trimS_flatten (q : List (Bool × Str))
    (hne : ∀ t ∈ q, t.2 ≠ []) (hhom : ∀ t ∈ q, ∀ c ∈ t.2, isJsWs c = t.1)
    (hch : q.Chain' (fun a b => a.1 ≠ b.1)) :
    tokenizeBy isJsWs (trimS (flattenToks q)) = dropWsLast (dropWsHead q) := by
  unfold trimS
  rw [trimL_flattenToks q hne hhom hch]
  have hne1 : ∀ t ∈ dropWsHead q, t.2 ≠ [] := fun t ht => hne t (mem_dropWsHead q t ht)
  have hhom1 : ∀ t ∈ dropWsHead q, ∀ c ∈ t.2, isJsWs c = t.1 :=
    fun t ht => hhom t (mem_dropWsHead q t ht)
  have hch1 := chain_dropWsHead q hch
  rw [trimR_flattenToks (dropWsHead q) hne1 hhom1 hch1]
  exact retok isJsWs (dropWsLast (dropWsHead q))
    (fun t ht => hne1 t (mem_dropWsLast _ t ht))
    (fun t ht => hhom1 t (mem_dropWsLast _ t ht))
    (chain_dropWsLast _ hch1)

theorem trimS_head_pres (x : Str) (c : Char) (hc : x.head? = some c)
    (hws : isJsWs c = false) : (trimS x).head? = some c := by
  cases x with
  | nil => simp at hc
  | cons a rest =>
    have hac : a = c := by simpa using hc
    subst hac
    unfold trimS trimL
    rw [List.dropWhile_cons, if_neg (by rw [hws]; simp)]
    rw [trimR_cons]
    by_cases h0 : trimR rest = []
    · rw [if_pos h0, if_neg (by rw [hws]; simp)]
      rfl
    · rw [if_neg h0]
      rfl

theorem trimL_suffix (x : Str) : ∃ a, x = a ++ trimL x := by
  refine ⟨x.takeWhile isJsWs, ?_⟩
  unfold trimL
  rw [List.takeWhile_append_dropWhile]

theorem trimR_prefix (x : Str) : ∃ b, x = trimR x ++ b := by
  obtain ⟨a, ha⟩ := trimL_suffix x.reverse
  refine ⟨a.reverse, ?_⟩
  unfold trimR
  unfold trimL at ha
  calc x = x.reverse.reverse := by rw [List.reverse_reverse]
    _ = (a ++ x.reverse.dropWhile isJsWs).reverse := by rw [← ha]
    _ = (x.reverse.dropWhile isJsWs).reverse ++ a.reverse := by rw [List.reverse_append]

theorem trimS_infix (x : Str) : ∃ a b, x = a ++ trimS x ++ b := by
  obtain ⟨a, ha⟩ := trimL_suffix x
  obtain ⟨b, hb⟩ := trimR_prefix (trimL x)
  refine ⟨a, b, ?_⟩
  rw [List.append_assoc]
  nth_rewrite 1 [ha]
  rw [hb]
  rfl

theorem trimS_getLast_pres (x : Str) (c : Char) (hc : x.getLast? = some c)
    (hws : isJsWs c = false) : (trimS x).getLast? = some c := by
  have h1 : (trimL x).getLast? = some c := by
    obtain ⟨a, ha⟩ := trimL_suffix x
    cases htl : trimL x with
    | nil =>
      exfalso
      rw [htl, List.append_nil] at ha
      have hmem : c ∈ x := mem_of_getLast?Ch x c hc
      rw [ha] at hmem
      have : isJsWs c = true := by
        have hx := htl
        unfold trimL at hx
        rw [List.dropWhile_eq_nil_iff] at hx
        rw [ha] at hx
        exact hx c hmem
      rw [this] at hws
      exact absurd hws (by simp)
    | cons d ds =>
      rw [← htl]
      rw [ha, List.getLast?_append_of_ne_nil _ (by rw [htl]; simp)] at hc
      exact hc
  unfold trimS
  rw [trimR_eq_self]
  · exact h1
  · intro d hd
    have hdc : d = c := by
      rw [h1] at hd
      exact (by simpa using hd : c = d).symm
    rw [hdc]
    exact hws

theorem pairwise_of_ends_starts {α : Type} (E S : α → Prop) :
    ∀ (ps : List α), (∀ q ∈ ps.dropLast, E q) → (∀ q ∈ ps.tail, S q) →
      ps.Pairwise (fun a b => E a ∧ S b) := by
  intro ps
  induction ps with
  | nil => intro _ _; simp
  | cons p rest ih =>
    intro hE hS
    rw [List.pairwise_cons]
    constructor
    · intro q hq
      cases hrest : rest with
      | nil => rw [hrest] at hq; simp at hq
      | cons r rs =>
        refine ⟨?_, hS q hq⟩
        apply hE
        rw [hrest, List.dropLast_cons_of_ne_nil (by simp)]
        simp
    · apply ih
      · intro q hq
        cases hrest : rest with
        | nil => rw [hrest] at hq; simp at hq
        | cons r rs =>
          apply hE
          rw [hrest] at hq ⊢
          rw [List.dropLast_cons_of_ne_nil (by simp)]
          exact List.mem_cons_of_mem _ hq
      · intro q hq
        apply hS
        show q ∈ rest
        exact List.mem_of_mem_tail hq

theorem splitIntoSentences_out (p : Str) :
    (∀ s ∈ splitIntoSentences p, trimS s = s ∧ 10 < s.length ∧
      noCutSeq sentCut none (tokenizeBy isJsWs s) none = true ∧
      ∃ a b, p = a ++ s ++ b) ∧
    (splitIntoSentences p).Pairwise (fun s1 s2 =>
      prevEndsB s1.getLast? = true ∧ headStartB s2.head? = true) := by
  have htok := tokenizeBy_tok_ne_nil isJsWs p
  have hhom := tokenizeBy_homog isJsWs p
  have hch := tokenizeBy_chain isJsWs p
  obtain ⟨p0, rest, heq, ⟨v, hpre⟩, hcontig, hnc0, hncr, hss, hends, hdl⟩ :=
    sentSplit_struct (tokenizeBy isJsWs p) none htok hhom hch
  have hparts : sentParts p = (p0 :: rest).map flattenToks := by
    unfold sentParts
    rw [heq]
  have hsents : splitIntoSentences p =
      ((p0 :: rest).map (fun q => trimS (flattenToks q))).filter
        (fun s => decide (10 < s.length)) := by
    unfold splitIntoSentences
    rw [hparts, List.map_map]
    rfl
  have hqfacts : ∀ q ∈ p0 :: rest, ContigIn q (tokenizeBy isJsWs p) := by
    intro q hq
    rcases List.mem_cons.mp hq with h1 | h2
    · rw [h1]
      exact ⟨[], v, by rw [hpre]; rfl⟩
    · exact hcontig q h2
  have hmemts : ∀ q ∈ p0 :: rest, ∀ t ∈ q, t ∈ tokenizeBy isJsWs p := by
    intro q hq t ht
    obtain ⟨u, v2, huv⟩ := hqfacts q hq
    rw [huv]
    simp [ht]
  have hqnc : ∀ q ∈ p0 :: rest, noCutSeq sentCut none q none = true := by
    intro q hq
    rcases List.mem_cons.mp hq with h1 | h2
    · rw [h1]; exact hnc0
    · exact hncr q h2
  have hchq : ∀ q ∈ p0 :: rest, q.Chain' (fun a b => a.1 ≠ b.1) := by
    intro q hq
    obtain ⟨u, v2, huv⟩ := hqfacts q hq
    exact chain'_infix _ (tokenizeBy isJsWs p) u q v2 hch huv
  have hqder : ∀ q ∈ p0 :: rest,
      noCutSeq sentCut none (tokenizeBy isJsWs (trimS (flattenToks q))) none = true ∧
      ∃ a b, p = a ++ trimS (flattenToks q) ++ b := by
    intro q hq
    have hneq : ∀ t ∈ q, t.2 ≠ [] := fun t ht => htok t (hmemts q hq t ht)
    have hhomq : ∀ t ∈ q, ∀ c ∈ t.2, isJsWs c = t.1 :=
      fun t ht => hhom t (hmemts q hq t ht)
    constructor
    · rw [toks_trimS_flatten q hneq hhomq (hchq q hq)]
      exact noCut_dropWs q (hchq q hq) (hqnc q hq)
    · obtain ⟨u, v2, huv⟩ := hqfacts q hq
      obtain ⟨a2, b2, hab⟩ := trimS_infix (flattenToks q)
      refine ⟨flattenToks u ++ a2, b2 ++ flattenToks v2, ?_⟩
      have hp2 : p = flattenToks (tokenizeBy isJsWs p) := (tokenizeBy_flatten isJsWs p).symm
      generalize hgen : trimS (flattenToks q) = w at hab ⊢
      rw [hp2, huv, flattenToks_append, flattenToks_append, hab]
      simp [List.append_assoc]
  constructor
  · intro s hs
    rw [hsents] at hs
    have hmem := List.mem_filter.mp hs
    obtain ⟨q, hq, hsq⟩ := List.mem_map.mp hmem.1
    have hlen : 10 < s.length := by simpa using hmem.2
    rw [← hsq]
    refine ⟨trimS_idem _, by rw [hsq]; exact hlen, (hqder q hq).1, (hqder q hq).2⟩
  · rw [hsents]
    apply List.Pairwise.filter
    rw [List.pairwise_map]
    have hE : ∀ q ∈ (p0 :: rest).dropLast,
        prevEndsB (trimS (flattenToks q)).getLast? = true := by
      intro q hq
      have hqmem : q ∈ p0 :: rest := by
        cases hrest : rest with
        | nil => rw [hrest] at hq; simp at hq
        | cons r1 rs =>
          subst hrest
          rw [List.dropLast_cons_of_ne_nil (by simp)] at hq
          rcases List.mem_cons.mp hq with h1 | h2
          · rw [h1]; exact List.mem_cons_self _ _
          · exact List.mem_cons_of_mem _ ((List.dropLast_sublist (r1 :: rs)).subset h2)
      have hqe : endsTokSE q := by
        cases hrest : rest with
        | nil => rw [hrest] at hq; simp at hq
        | cons r1 rs =>
          subst hrest
          rw [List.dropLast_cons_of_ne_nil (by simp)] at hq
          rcases List.mem_cons.mp hq with h1 | h2
          · rw [h1]
            rcases hends (by simp) with he | ⟨_, hpe⟩
            · exact he
            · exact absurd hpe (by simp [prevEndsB])
          · exact hdl q h2
      obtain ⟨u', tl, hqu, htl1, hpeTl⟩ := hqe
      obtain ⟨ce, hce⟩ : ∃ ce, tl.2.getLast? = some ce := by
        cases hg : tl.2.getLast? with
        | none => rw [hg] at hpeTl; simp [prevEndsB] at hpeTl
        | some ce => exact ⟨ce, rfl⟩
      rw [hce] at hpeTl
      have hse : isSentEndChar ce = true := hpeTl
      have hflq : (flattenToks q).getLast? = some ce := by
        rw [hqu, flattenToks_append]
        have h2 : flattenToks [tl] = tl.2 := by simp [flattenToks]
        rw [h2]
        have htlne : tl.2 ≠ [] := htok tl (hmemts q hqmem tl (by rw [hqu]; simp))
        rw [List.getLast?_append_of_ne_nil _ htlne]
        exact hce
      rw [trimS_getLast_pres (flattenToks q) ce hflq (sentEnd_not_ws ce hse)]
      exact hse
    have hS : ∀ q ∈ (p0 :: rest).tail,
        headStartB (trimS (flattenToks q)).head? = true := by
      intro q hq
      have hqmem : q ∈ p0 :: rest := List.mem_cons_of_mem _ hq
      obtain ⟨t, u', hqu, ht1, hhb⟩ := hss q hq
      obtain ⟨c0, hc0⟩ : ∃ c0, t.2.head? = some c0 := by
        cases hg : t.2.head? with
        | none => rw [hg] at hhb; simp [headStartB] at hhb
        | some c0 => exact ⟨c0, rfl⟩
      rw [hc0] at hhb
      have hssc : isSentStartChar c0 = true := hhb
      have hflq : (flattenToks q).head? = some c0 := by
        rw [hqu, flattenToks_cons, head_or_append, hc0]
        rfl
      rw [trimS_head_pres (flattenToks q) c0 hflq (sentStart_not_ws c0 hssc)]
      exact hssc
    exact pairwise_of_ends_starts
      (fun q => prevEndsB (trimS (flattenToks q)).getLast? = true)
      (fun q => headStartB (trimS (flattenToks q)).head? = true)
      (p0 :: rest) hE hS

theorem filter_length_mono {α : Type} (P Q : α → Bool)
    (h : ∀ a, P a = true → Q a = true) :
    ∀ (l : List α), (l.filter P).length ≤ (l.filter Q).length := by
  intro l
  induction l with
  | nil => simp
  | cons a rest ih =>
    rw [List.filter_cons, List.filter_cons]
    by_cases hp : P a = true
    · rw [if_pos hp, if_pos (h a hp)]
      simpa using ih
    · rw [if_neg hp]
      by_cases hq : Q a = true
      · rw [if_pos hq]
        exact Nat.le_trans ih (by simp)
      · rw [if_neg hq]
        exact ih

theorem processSentences_first_true :
    ∀ (ss seen : List Str),
      (processSentences true seen ss).1 = ss ∧
      (processSentences true seen ss).2.2 = false := by
  intro ss
  induction ss with
  | nil => intro seen; exact ⟨rfl, rfl⟩
  | cons s rest ih =>
    intro seen
    simp only [processSentences, if_true]
    exact ⟨by rw [(ih (seen ++ extractNgrams s 4)).1], (ih (seen ++ extractNgrams s 4)).2⟩

theorem processSentences_rekeep_mono :
    ∀ (ss seen seen2 : List Str),
      (∀ g, g ∈ seen2 → g ∈ seen) →
      (processSentences false seen2 (processSentences false seen ss).1).1 =
        (processSentences false seen ss).1 ∧
      (processSentences false seen2 (processSentences false seen ss).1).2.2 = false := by
  intro ss
  induction ss with
  | nil => intro seen seen2 _; exact ⟨rfl, rfl⟩
  | cons s rest ih =>
    intro seen seen2 hsub
    simp only [processSentences, Bool.false_eq_true, if_false]
    by_cases hdrop : 3 ≤ (List.filter (fun g => decide (g ∈ seen)) (extractNgrams s 4)).length ∧
        3 * (extractNgrams s 4).length ≤
          10 * (List.filter (fun g => decide (g ∈ seen)) (extractNgrams s 4)).length
    · rw [if_pos hdrop]
      exact ih seen seen2 hsub
    · rw [if_neg hdrop]
      have hm2le : (List.filter (fun g => decide (g ∈ seen2)) (extractNgrams s 4)).length ≤
          (List.filter (fun g => decide (g ∈ seen)) (extractNgrams s 4)).length := by
        apply filter_length_mono
        intro a ha
        simp only [decide_eq_true_eq] at ha ⊢
        exact hsub a ha
      have hdrop2 : ¬(3 ≤ (List.filter (fun g => decide (g ∈ seen2)) (extractNgrams s 4)).length ∧
          3 * (extractNgrams s 4).length ≤
            10 * (List.filter (fun g => decide (g ∈ seen2)) (extractNgrams s 4)).length) := by
        intro ⟨h1, h2⟩
        exact hdrop ⟨Nat.le_trans h1 hm2le, Nat.le_trans h2 (by omega)⟩
      -- the rerun processes s first, keeps it, then the kept tail
      simp only [processSentences, Bool.false_eq_true, if_false]
      rw [if_neg hdrop2]
      have hih := ih (seen ++ extractNgrams s 4) (seen2 ++ extractNgrams s 4)
        (by
          intro g hg
          rcases List.mem_append.mp hg with h1 | h1
          · exact List.mem_append.mpr (Or.inl (hsub g h1))
          · exact List.mem_append.mpr (Or.inr h1))
      exact ⟨by rw [hih.1], hih.2⟩

theorem processSentences_rekeep :
    ∀ (ss seen : List Str) (first : Bool),
      processSentences first seen (processSentences first seen ss).1 =
        ((processSentences first seen ss).1,
         (processSentences first seen ss).2.1, false) := by
  intro ss
  induction ss with
  | nil => intro seen first; cases first <;> rfl
  | cons s rest ih =>
    intro seen first
    cases first with
    | true =>
      have hA := processSentences_first_true (s :: rest) seen
      rw [hA.1]
      exact Prod.ext hA.1 (Prod.ext rfl hA.2)
    | false =>
      simp only [processSentences, Bool.false_eq_true, if_false]
      by_cases hdrop : 3 ≤ (List.filter (fun g => decide (g ∈ seen)) (extractNgrams s 4)).length ∧
          3 * (extractNgrams s 4).length ≤
            10 * (List.filter (fun g => decide (g ∈ seen)) (extractNgrams s 4)).length
      · rw [if_pos hdrop]
        exact ih seen false
      · rw [if_neg hdrop]
        simp only [processSentences, Bool.false_eq_true, if_false]
        rw [if_neg hdrop]
        have hih := ih (seen ++ extractNgrams s 4) false
        rw [hih]

theorem startsWithStr_iff (pat l : Str) :
    startsWithStr pat l = true ↔ l.take pat.length = pat := by
  unfold startsWithStr
  exact beq_iff_eq

theorem startsWithStr_length (pat l : Str) (h : startsWithStr pat l = true) :
    pat.length ≤ l.length := by
  rw [startsWithStr_iff] at h
  have := congrArg List.length h
  rw [List.length_take] at this
  omega

theorem startsWithStr_ext (pat A B : Str) (h : startsWithStr pat A = true) :
    startsWithStr pat (A ++ B) = true := by
  have hlen := startsWithStr_length pat A h
  rw [startsWithStr_iff] at h ⊢
  rw [List.take_append_eq_append_take]
  rw [show pat.length - A.length = 0 from by omega]
  rw [List.take_zero, List.append_nil]
  exact h

theorem startsWithStr_append_cases (pat A B : Str)
    (h : startsWithStr pat (A ++ B) = true) :
    (pat.length ≤ A.length ∧ startsWithStr pat A = true) ∨
    (A.length < pat.length ∧ A = pat.take A.length) := by
  rw [startsWithStr_iff] at h
  by_cases hlen : pat.length ≤ A.length
  · left
    refine ⟨hlen, ?_⟩
    rw [startsWithStr_iff]
    rw [List.take_append_eq_append_take, show pat.length - A.length = 0 from by omega,
      List.take_zero, List.append_nil] at h
    exact h
  · right
    refine ⟨by omega, ?_⟩
    have := congrArg (fun l => List.take A.length l) h
    simp only at this
    rw [List.take_take, show min A.length pat.length = A.length from by omega] at this
    rw [List.take_append_eq_append_take, List.take_of_length_le (by omega)] at this
    rw [← this]
    have h2 : A.length - A.length = 0 := by omega
    rw [h2, List.take_zero, List.append_nil]

theorem hasSubstr_iff (pat : Str) :
    ∀ (X : Str), hasSubstr pat X = true ↔ ∃ a b, X = a ++ pat ++ b := by
  intro X
  induction X with
  | nil =>
    simp only [hasSubstr]
    constructor
    · intro h
      refine ⟨[], [], ?_⟩
      have : pat = [] := by simpa [List.isEmpty_iff] using h
      rw [this]
      rfl
    · intro ⟨a, b, hab⟩
      have hlen := congrArg List.length hab
      simp at hlen
      have hp0 : pat.length = 0 := by omega
      have : pat = [] := List.eq_nil_of_length_eq_zero hp0
      rw [this]
      rfl
  | cons c rest ih =>
    simp only [hasSubstr, Bool.or_eq_true]
    constructor
    · intro h
      rcases h with h | h
      · rw [startsWithStr_iff] at h
        refine ⟨[], (c :: rest).drop pat.length, ?_⟩
        rw [List.nil_append]
        conv_lhs => rw [← List.take_append_drop pat.length (c :: rest)]
        rw [h]
      · obtain ⟨a, b, hab⟩ := ih.mp h
        exact ⟨c :: a, b, by rw [hab]; rfl⟩
    · intro ⟨a, b, hab⟩
      cases a with
      | nil =>
        left
        rw [startsWithStr_iff]
        rw [List.nil_append] at hab
        rw [hab]
        rw [List.take_append_eq_append_take, List.take_of_length_le (by omega)]
        have h2 : pat.length - pat.length = 0 := by omega
        rw [h2, List.take_zero, List.append_nil]
      | cons a0 arest =>
        right
        apply ih.mpr
        refine ⟨arest, b, ?_⟩
        have : c :: rest = a0 :: (arest ++ pat ++ b) := by
          rw [hab]
          rfl
        injection this with _ h2

theorem hasSubstr_ext_right (pat A B : Str) (h : hasSubstr pat A = true) :
    hasSubstr pat (A ++ B) = true := by
  rw [hasSubstr_iff] at h ⊢
  obtain ⟨a, b, hab⟩ := h
  exact ⟨a, b ++ B, by rw [hab]; simp⟩

theorem hasSubstr_ext_left (pat A B : Str) (h : hasSubstr pat B = true) :
    hasSubstr pat (A ++ B) = true := by
  rw [hasSubstr_iff] at h ⊢
  obtain ⟨a, b, hab⟩ := h
  exact ⟨A ++ a, b, by rw [hab]; simp⟩

theorem hasSubstr_append_cases (pat : Str) :
    ∀ (A B : Str), hasSubstr pat (A ++ B) = true →
      hasSubstr pat A = true ∨ hasSubstr pat B = true ∨
      ∃ k, 0 < k ∧ k < pat.length ∧ (∃ a2, A = a2 ++ pat.take k) ∧
        startsWithStr (pat.drop k) B = true := by
  intro A
  induction A with
  | nil =>
    intro B h
    right; left
    simpa using h
  | cons c Arest ih =>
    intro B h
    rw [show (c :: Arest) ++ B = c :: (Arest ++ B) from rfl] at h
    simp only [hasSubstr, Bool.or_eq_true] at h
    rcases h with h | h
    · have h2 : startsWithStr pat ((c :: Arest) ++ B) = true := h
      rcases startsWithStr_append_cases pat (c :: Arest) B h2 with ⟨hl, hsw⟩ | ⟨hl, heq⟩
      · left
        simp only [hasSubstr, Bool.or_eq_true]
        exact Or.inl hsw
      · right; right
        refine ⟨(c :: Arest).length, by simp, hl, ⟨[], by rw [← heq]; rfl⟩, ?_⟩
        have h3 := (startsWithStr_iff _ _).mp h2
        rw [List.take_append_eq_append_take,
          List.take_of_length_le (by omega)] at h3
        have h4 := congrArg (fun l => List.drop (c :: Arest).length l) h3
        simp only at h4
        rw [List.drop_left] at h4
        rw [startsWithStr_iff, List.length_drop]
        rw [h4]
    · rcases ih B h with h1 | h1 | ⟨k, hk0, hkl, ⟨a2, ha2⟩, hsw⟩
      · left
        simp only [hasSubstr, Bool.or_eq_true]
        exact Or.inr h1
      · right; left; exact h1
      · right; right
        exact ⟨k, hk0, hkl, ⟨c :: a2, by rw [ha2]; rfl⟩, hsw⟩

theorem hasSubstr_calate (pat : Str) (hne : pat ≠ [])
    (hhead : ∀ c ∈ pat.head?, ¬(c = ' '))
    (hSE : ∀ c ∈ pat, isSentEndChar c = false) :
    ∀ (ss : List Str),
      (∀ s ∈ ss.dropLast, prevEndsB s.getLast? = true) →
      hasSubstr pat (List.intercalate " ".data ss) = true →
      ∃ s ∈ ss, hasSubstr pat s = true := by
  intro ss
  induction ss with
  | nil =>
    intro _ h
    have : List.intercalate " ".data ([] : List Str) = [] := rfl
    rw [this] at h
    simp only [hasSubstr] at h
    rw [List.isEmpty_iff] at h
    exact absurd h hne
  | cons s ss' ih =>
    cases hss : ss' with
    | nil =>
      intro _ h
      rw [intercalate_one] at h
      exact ⟨s, by simp, h⟩
    | cons s2 ss'' =>
      subst hss
      intro hE h
      rw [intercalate_cons₂, List.append_assoc] at h
      have hsep : (" ".data : Str) = [' '] := rfl
      rw [hsep] at h
      have hsE : prevEndsB s.getLast? = true := by
        apply hE
        rw [List.dropLast_cons_of_ne_nil (by simp)]
        simp
      rcases hasSubstr_append_cases pat s
        ([' '] ++ List.intercalate " ".data (s2 :: ss'')) h with
        h1 | h1 | ⟨k, hk0, hkl, ⟨a2, ha2⟩, hsw⟩
      · exact ⟨s, by simp, h1⟩
      · rcases hasSubstr_append_cases pat [' ']
          (List.intercalate " ".data (s2 :: ss'')) h1 with
          h2 | h2 | ⟨k, hk0, hkl, ⟨a2, ha2⟩, hsw⟩
        · exfalso
          rw [hasSubstr_iff] at h2
          obtain ⟨a, b, hab⟩ := h2
          have hlen := congrArg List.length hab
          simp at hlen
          have hpl : pat.length = 1 := by
            have : 0 < pat.length := List.length_pos.mpr hne
            omega
          have ha0 : a = [] := by
            have : a.length = 0 := by omega
            exact List.eq_nil_of_length_eq_zero this
          rw [ha0, List.nil_append] at hab
          cases hp : pat with
          | nil => exact hne hp
          | cons p0 prest =>
            rw [hp] at hab
            have : ' ' = p0 := by
              have := congrArg List.head? hab
              simpa using this
            exact hhead p0 (by rw [hp]; rfl) this.symm
        · obtain ⟨t, ht, hts⟩ := ih (by
            intro x hx
            apply hE
            rw [List.dropLast_cons_of_ne_nil (by simp)]
            exact List.mem_cons_of_mem _ hx) h2
          exact ⟨t, List.mem_cons_of_mem _ ht, hts⟩
        · exfalso
          have hlen := congrArg List.length ha2
          have htklen : (pat.take k).length = k := by
            rw [List.length_take]
            omega
          simp only [List.length_append, htklen, List.length_cons,
            List.length_nil] at hlen
          have ha0 : a2 = [] := by
            have : a2.length = 0 := by omega
            exact List.eq_nil_of_length_eq_zero this
          rw [ha0, List.nil_append] at ha2
          have hk1 : k = 1 := by omega
          cases hp : pat with
          | nil => exact hne hp
          | cons p0 prest =>
            rw [hp, hk1] at ha2
            have : ' ' = p0 := by
              have := congrArg List.head? ha2
              simpa using this
            exact hhead p0 (by rw [hp]; rfl) this.symm
      · exfalso
        have htkne : pat.take k ≠ [] := by
          intro hcon
          have hln := congrArg List.length hcon
          rw [List.length_take] at hln
          simp only [List.length_nil] at hln
          omega
        obtain ⟨ce, hce⟩ := getLast?_some (pat.take k) htkne
        have hsce : s.getLast? = some ce := by
          rw [ha2, List.getLast?_append_of_ne_nil _ htkne]
          exact hce
        have hcemem : ce ∈ pat := by
          have h1 : ce ∈ pat.take k := mem_of_getLast?Ch _ ce hce
          exact List.mem_of_mem_take h1
        rw [hsce] at hsE
        have : isSentEndChar ce = true := hsE
        rw [hSE ce hcemem] at this
        exact absurd this (by simp)

theorem lowerStr_append (A B : Str) : lowerStr (A ++ B) = lowerStr A ++ lowerStr B := by
  simp [lowerStr]

theorem lowerStr_calate :
    ∀ (ss : List Str), lowerStr (List.intercalate " ".data ss) =
      List.intercalate " ".data (ss.map lowerStr) := by
  intro ss
  induction ss with
  | nil => rfl
  | cons s ss' ih =>
    cases hss : ss' with
    | nil =>
      rw [intercalate_one]
      show lowerStr s = List.intercalate " ".data [lowerStr s]
      rw [intercalate_one]
    | cons s2 ss'' =>
      subst hss
      rw [intercalate_cons₂, lowerStr_append, lowerStr_append, ih]
      show lowerStr s ++ lowerStr " ".data ++ _ =
        List.intercalate " ".data (lowerStr s :: lowerStr s2 :: List.map lowerStr ss'')
      rw [intercalate_cons₂]
      rfl

theorem lowerChar_sentEnd (c : Char) (h : isSentEndChar c = true) : lowerChar c = c := by
  have hc : c = '.' ∨ c = '!' ∨ c = '?' := by
    simpa [isSentEndChar, or_assoc, beq_iff_eq] using h
  rcases hc with h1 | h1 | h1 <;> subst h1 <;> rfl

theorem getLast?_map_lower (s : Str) (c : Char) (h : s.getLast? = some c) :
    (lowerStr s).getLast? = some (lowerChar c) := by
  induction s with
  | nil => simp at h
  | cons a rest ih =>
    cases hrest : rest with
    | nil =>
      subst hrest
      have : a = c := by simpa using h
      subst this
      rfl
    | cons b bs =>
      subst hrest
      rw [List.getLast?_cons_cons] at h
      have := ih h
      show (lowerChar a :: lowerStr (b :: bs)).getLast? = some (lowerChar c)
      rw [show lowerStr (b :: bs) = lowerChar b :: lowerStr bs from rfl]
      rw [List.getLast?_cons_cons]
      rw [show lowerChar b :: lowerStr bs = lowerStr (b :: bs) from rfl]
      exact this

theorem trimS_prefix_head_part (p : Str) (q v : List (Bool × Str))
    (hts : tokenizeBy isJsWs p = q ++ v)
    (hne : trimS (flattenToks q) ≠ []) :
    ∃ X, trimS p = trimS (flattenToks q) ++ X := by
  have hp : p = flattenToks q ++ flattenToks v := by
    rw [← flattenToks_append, ← hts]
    exact (tokenizeBy_flatten isJsWs p).symm
  have h1 : trimL (flattenToks q) ≠ [] := by
    intro hcon
    apply hne
    unfold trimS
    rw [hcon]
    rfl
  have h2 : trimL p = trimL (flattenToks q) ++ flattenToks v := by
    rw [hp]
    unfold trimL
    rw [List.dropWhile_append,
      if_neg (show ¬((flattenToks q).dropWhile isJsWs).isEmpty = true from
        fun hcon => h1 (List.isEmpty_iff.mp hcon))]
  obtain ⟨w, hw⟩ := trimR_prefix (trimL (flattenToks q))
  have h3 : trimS p = trimR (trimR (trimL (flattenToks q)) ++ (w ++ flattenToks v)) := by
    unfold trimS
    rw [h2]
    generalize hg : trimR (trimL (flattenToks q)) = A at hw ⊢
    rw [hw, List.append_assoc]
  rw [h3, trimR_append]
  by_cases hz : trimR (w ++ flattenToks v) = []
  · rw [if_pos hz]
    refine ⟨[], ?_⟩
    rw [List.append_nil]
    unfold trimS
    rw [trimR_idem]
  · rw [if_neg hz]
    exact ⟨trimR (w ++ flattenToks v), rfl⟩

theorem splitIntoSentences_head_or_start (p : Str) :
    ∀ s ∈ splitIntoSentences p,
      (∃ X, trimS p = s ++ X) ∨ headStartB s.head? = true := by
  have htok := tokenizeBy_tok_ne_nil isJsWs p
  have hhom := tokenizeBy_homog isJsWs p
  have hch := tokenizeBy_chain isJsWs p
  obtain ⟨p0, rest, heq, ⟨v, hpre⟩, hcontig, hnc0, hncr, hss, hends, hdl⟩ :=
    sentSplit_struct (tokenizeBy isJsWs p) none htok hhom hch
  have hsents : splitIntoSentences p =
      ((p0 :: rest).map (fun q => trimS (flattenToks q))).filter
        (fun s => decide (10 < s.length)) := by
    unfold splitIntoSentences sentParts
    rw [heq, List.map_map]
    rfl
  intro s hs
  rw [hsents] at hs
  have hmem := List.mem_filter.mp hs
  obtain ⟨q, hq, hsq⟩ := List.mem_map.mp hmem.1
  have hlen : 10 < s.length := by simpa using hmem.2
  rcases List.mem_cons.mp hq with h1 | h2
  · left
    subst h1
    rw [← hsq]
    apply trimS_prefix_head_part p q v hpre
    rw [hsq]
    intro hcon
    rw [hcon] at hlen
    simp at hlen
  · right
    obtain ⟨t, u', hqu, ht1, hhb⟩ := hss q h2
    obtain ⟨c0, hc0⟩ : ∃ c0, t.2.head? = some c0 := by
      cases hg : t.2.head? with
      | none => rw [hg] at hhb; simp [headStartB] at hhb
      | some c0 => exact ⟨c0, rfl⟩
    rw [hc0] at hhb
    have hflq : (flattenToks q).head? = some c0 := by
      rw [hqu, flattenToks_cons, head_or_append, hc0]
      rfl
    rw [← hsq]
    rw [trimS_head_pres (flattenToks q) c0 hflq
      (sentStart_not_ws c0 hhb)]
    exact hhb

theorem processSentences_sublist :
    ∀ (ss seen : List Str) (first : Bool),
      (processSentences first seen ss).1.Sublist ss := by
  intro ss
  induction ss with
  | nil => intro seen first; simp [processSentences]
  | cons s rest ih =>
    intro seen first
    cases first with
    | true =>
      simp only [processSentences, if_true]
      exact List.Sublist.cons₂ s (ih (seen ++ extractNgrams s 4) true)
    | false =>
      simp only [processSentences, Bool.false_eq_true, if_false]
      by_cases hdrop : 3 ≤ (List.filter (fun g => decide (g ∈ seen)) (extractNgrams s 4)).length ∧
          3 * (extractNgrams s 4).length ≤
            10 * (List.filter (fun g => decide (g ∈ seen)) (extractNgrams s 4)).length
      · rw [if_pos hdrop]
        exact List.Sublist.cons s (ih seen false)
      · rw [if_neg hdrop]
        exact List.Sublist.cons₂ s (ih (seen ++ extractNgrams s 4) false)

theorem calate_head (s1 : Str) (krest : List Str) (hs1 : s1 ≠ []) :
    (List.intercalate " ".data (s1 :: krest)).head? = s1.head? := by
  cases krest with
  | nil => rw [intercalate_one]
  | cons k2 ks =>
    rw [intercalate_cons₂, List.append_assoc, head_or_append]
    obtain ⟨c, hc⟩ := head?_some s1 hs1
    rw [hc]
    rfl

theorem calate_ne_nil (s1 : Str) (krest : List Str) (hs1 : s1 ≠ []) :
    List.intercalate " ".data (s1 :: krest) ≠ [] := by
  intro hcon
  have h1 := calate_head s1 krest hs1
  rw [hcon] at h1
  obtain ⟨c, hc⟩ := head?_some s1 hs1
  rw [hc] at h1
  simp at h1

theorem calate_last :
    ∀ (krest : List Str) (s1 sl : Str), (∀ s ∈ s1 :: krest, s ≠ []) →
      (s1 :: krest).getLast? = some sl →
      (List.intercalate " ".data (s1 :: krest)).getLast? = sl.getLast? := by
  intro krest
  induction krest with
  | nil =>
    intro s1 sl _ h
    have : s1 = sl := by simpa using h
    subst this
    rw [intercalate_one]
  | cons k2 ks ih =>
    intro s1 sl hall h
    rw [List.getLast?_cons_cons] at h
    rw [intercalate_cons₂, List.append_assoc]
    rw [List.getLast?_append_of_ne_nil _ (by simp)]
    have hk2ne : k2 ≠ [] := hall k2 (by simp)
    have hcne : List.intercalate " ".data (k2 :: ks) ≠ [] := calate_ne_nil k2 ks hk2ne
    rw [show (" ".data : Str) ++ List.intercalate " ".data (k2 :: ks) =
      ' ' :: List.intercalate " ".data (k2 :: ks) from rfl]
    cases hcal : List.intercalate " ".data (k2 :: ks) with
    | nil => exact absurd hcal hcne
    | cons d ds =>
      rw [List.getLast?_cons_cons, ← hcal]
      exact ih k2 sl (fun s hs => hall s (List.mem_cons_of_mem _ hs)) h

theorem mem_of_getLast?G {α : Type} :
    ∀ (l : List α) (a : α), l.getLast? = some a → a ∈ l := by
  intro l
  induction l with
  | nil => intro a h; simp at h
  | cons x rest ih =>
    intro a h
    cases hrest : rest with
    | nil =>
      subst hrest
      have : x = a := by simpa using h
      simp [this]
    | cons b bs =>
      subst hrest
      rw [List.getLast?_cons_cons] at h
      exact List.mem_cons_of_mem _ (ih a h)

theorem getLast?_someG {α : Type} :
    ∀ (l : List α), l ≠ [] → ∃ a, l.getLast? = some a := by
  intro l
  induction l with
  | nil => intro h; exact absurd rfl h
  | cons a rest ih =>
    intro _
    cases hrest : rest with
    | nil => exact ⟨a, by subst hrest; rfl⟩
    | cons b bs =>
      obtain ⟨x, hx⟩ := ih (by rw [hrest]; simp)
      refine ⟨x, ?_⟩
      rw [hrest] at hx
      rw [List.getLast?_cons_cons]
      exact hx

theorem trimS_calate (s1 : Str) (krest : List Str)
    (hall : ∀ s ∈ s1 :: krest, s ≠ [] ∧ trimS s = s) :
    trimS (List.intercalate " ".data (s1 :: krest)) =
      List.intercalate " ".data (s1 :: krest) := by
  have hs1 := hall s1 (by simp)
  obtain ⟨c, hc⟩ := head?_some s1 hs1.1
  have hcws : isJsWs c = false :=
    head_not_ws_of_trimL_self s1 (of_trimS_eq_self s1 hs1.2).1 c (by rw [hc]; rfl)
  obtain ⟨sl, hsl⟩ := getLast?_someG (s1 :: krest) (by simp)
  have hslf := hall sl (mem_of_getLast?G _ sl hsl)
  obtain ⟨e, he⟩ := getLast?_some sl hslf.1
  have hews : isJsWs e = false :=
    last_not_ws_of_trimR_self sl (of_trimS_eq_self sl hslf.2).2 e (by rw [he]; rfl)
  unfold trimS
  rw [trimL_eq_self]
  · apply trimR_eq_self
    intro d hd
    rw [calate_last krest s1 sl (fun s hs => (hall s hs).1) hsl, he] at hd
    have : e = d := by simpa using hd
    rw [← this]
    exact hews
  · intro d hd
    rw [calate_head s1 krest hs1.1, hc] at hd
    have : c = d := by simpa using hd
    rw [← this]
    exact hcws

theorem startsWith_rebuilt_false (pat P s1 : Str) (krest : List Str)
    (hpatSE : ∀ c ∈ pat, isSentEndChar c = false)
    (hpatHead : ∀ c ∈ pat.head?, isSentStartChar c = false)
    (hs1ne : s1 ≠ [])
    (hs1end : krest ≠ [] → prevEndsB s1.getLast? = true)
    (hdich : (∃ X, P = s1 ++ X) ∨ headStartB s1.head? = true)
    (hP : startsWithStr pat P = false) :
    startsWithStr pat (List.intercalate " ".data (s1 :: krest)) = false := by
  have hpatne : pat ≠ [] := by
    intro hcon
    rw [hcon] at hP
    simp [startsWithStr] at hP
  cases hsw : startsWithStr pat (List.intercalate " ".data (s1 :: krest)) with
  | false => rfl
  | true =>
    exfalso
    rcases hdich with ⟨X, hX⟩ | hstart
    · -- s1 is a prefix of P
      cases hkr : krest with
      | nil =>
        rw [hkr, intercalate_one] at hsw
        rw [hX] at hP
        rw [startsWithStr_ext pat s1 X hsw] at hP
        exact absurd hP (by simp)
      | cons k2 ks =>
        rw [hkr, intercalate_cons₂, List.append_assoc] at hsw
        rcases startsWithStr_append_cases pat s1 _ hsw with ⟨_, hsw2⟩ | ⟨hlt, heq⟩
        · rw [hX] at hP
          rw [startsWithStr_ext pat s1 X hsw2] at hP
          exact absurd hP (by simp)
        · -- s1 = pat.take |s1| : its sentence-end final char would be in pat
          have hse : prevEndsB s1.getLast? = true := hs1end (by rw [hkr]; simp)
          obtain ⟨e, he⟩ := getLast?_some s1 hs1ne
          rw [he] at hse
          have hee : isSentEndChar e = true := hse
          have hemem : e ∈ pat := by
            have h1 : e ∈ pat.take s1.length := by
              rw [← heq]
              exact mem_of_getLast?Ch s1 e he
            exact List.mem_of_mem_take h1
          rw [hpatSE e hemem] at hee
          exact absurd hee (by simp)
    · -- s1 starts with a sentence-start character, the pattern does not
      obtain ⟨c, hc⟩ := head?_some s1 hs1ne
      rw [hc] at hstart
      have hcss : isSentStartChar c = true := hstart
      obtain ⟨p0, prest, hp0⟩ : ∃ p0 prest, pat = p0 :: prest := by
        cases hp : pat with
        | nil => exact absurd hp hpatne
        | cons p0 prest => exact ⟨p0, prest, rfl⟩
      have hch : (List.intercalate " ".data (s1 :: krest)).head? = some c := by
        rw [calate_head s1 krest hs1ne]
        exact hc
      rw [startsWithStr_iff] at hsw
      have hhd := congrArg List.head? hsw
      rw [hp0] at hhd
      obtain ⟨d, ds, hds⟩ : ∃ d ds, List.intercalate " ".data (s1 :: krest) = d :: ds := by
        cases hcl : List.intercalate " ".data (s1 :: krest) with
        | nil => rw [hcl] at hch; simp at hch
        | cons d ds => exact ⟨d, ds, rfl⟩
      rw [hds] at hhd hch
      have hdc : d = c := by simpa using hch
      have hlen0 : 0 < (p0 :: prest).length := by simp
      rw [show (p0 :: prest).length = prest.length + 1 from rfl] at hhd
      simp only [List.take_succ_cons, List.head?_cons] at hhd
      have hp0d : d = p0 := by simpa using hhd
      have : isSentStartChar p0 = false := hpatHead p0 (by rw [hp0]; rfl)
      rw [← hp0d, hdc, hcss] at this
      exact absurd this (by simp)

theorem hasSubstr_lower_rebuilt (pt : Str) (hptne : pt ≠ [])
    (hpthead : ∀ c ∈ pt.head?, ¬(c = ' '))
    (hptSE : ∀ c ∈ pt, isSentEndChar c = false)
    (kept : List Str) (p : Str)
    (hinfx : ∀ s ∈ kept, ∃ a b, p = a ++ s ++ b)
    (hends : ∀ s ∈ kept.dropLast, prevEndsB s.getLast? = true)
    (h : hasSubstr pt (lowerStr (List.intercalate " ".data kept)) = true) :
    hasSubstr pt (lowerStr p) = true := by
  rw [lowerStr_calate] at h
  obtain ⟨ls, hls, hlss⟩ := hasSubstr_calate pt hptne hpthead hptSE
    (kept.map lowerStr)
    (by
      intro x hx
      rw [← List.map_dropLast] at hx
      obtain ⟨s, hs, hxs⟩ := List.mem_map.mp hx
      have hEs := hends s hs
      obtain ⟨ce, hce⟩ : ∃ ce, s.getLast? = some ce := by
        cases hg : s.getLast? with
        | none => rw [hg] at hEs; simp [prevEndsB] at hEs
        | some ce => exact ⟨ce, rfl⟩
      rw [hce] at hEs
      have hse : isSentEndChar ce = true := hEs
      rw [← hxs]
      rw [getLast?_map_lower s ce hce, lowerChar_sentEnd ce hse]
      exact hEs)
    h
  obtain ⟨s, hs, hxs⟩ := List.mem_map.mp hls
  obtain ⟨a, b, hab⟩ := hinfx s hs
  rw [hab, lowerStr_append, lowerStr_append]
  apply hasSubstr_ext_right
  apply hasSubstr_ext_left
  rw [hxs]
  exact hlss

theorem closing_rebuilt_false (kept : List Str) (p : Str)
    (hinfx : ∀ s ∈ kept, ∃ a b, p = a ++ s ++ b)
    (hends : ∀ s ∈ kept.dropLast, prevEndsB s.getLast? = true)
    (hP : isGenericClosing p = false) :
    isGenericClosing (List.intercalate " ".data kept) = false := by
  cases hgc : isGenericClosing (List.intercalate " ".data kept) with
  | false => rfl
  | true =>
    exfalso
    unfold isGenericClosing at hgc hP
    simp only [Bool.or_eq_true, Bool.and_eq_true] at hgc
    rcases hgc with (h1 | h1) | ⟨h1, h2⟩
    · have hQ := hasSubstr_lower_rebuilt "transparent and ethical practices".data
        (by decide) (by decide) (by decide) kept p hinfx hends h1
      dsimp only at hP
      rw [hQ] at hP
      simp at hP
    · have hQ := hasSubstr_lower_rebuilt "ethical decision-making, content integrity".data
        (by decide) (by decide) (by decide) kept p hinfx hends h1
      dsimp only at hP
      rw [hQ] at hP
      simp at hP
    · have hQ1 := hasSubstr_lower_rebuilt "broader concerns about".data
        (by decide) (by decide) (by decide) kept p hinfx hends h1
      have hQ2 := hasSubstr_lower_rebuilt "gaming industry".data
        (by decide) (by decide) (by decide) kept p hinfx hends h2
      dsimp only at hP
      rw [hQ1, hQ2] at hP
      simp at hP

theorem splitToks_mem_tok
    (cut : Option Char → (Bool × Str) → Option (Bool × Str) → Bool) :
    ∀ (ts : List (Bool × Str)) (prev : Option Char),
      ∀ q ∈ splitToks cut prev ts, ∀ t ∈ q, t ∈ ts := by
  intro ts
  induction ts with
  | nil =>
    intro prev q hq t ht
    have : q = [] := by simpa [splitToks] using hq
    rw [this] at ht
    simp at ht
  | cons x ts' ih =>
    intro prev q hq t ht
    simp only [splitToks] at hq
    by_cases hc : cut prev x ts'.head? = true
    · rw [if_pos hc] at hq
      rcases List.mem_cons.mp hq with h1 | h2
      · rw [h1] at ht; simp at ht
      · exact List.mem_cons_of_mem _ (ih x.2.getLast? q h2 t ht)
    · rw [if_neg hc] at hq
      cases hr : splitToks cut x.2.getLast? ts' with
      | nil => exact absurd hr (splitToks_ne_nil cut ts' x.2.getLast?)
      | cons p ps =>
        rw [hr] at hq
        rcases List.mem_cons.mp hq with h1 | h2
        · rw [h1] at ht
          rcases List.mem_cons.mp ht with h3 | h4
          · rw [h3]; simp
          · exact List.mem_cons_of_mem _
              (ih x.2.getLast? p (by rw [hr]; simp) t h4)
        · exact List.mem_cons_of_mem _
            (ih x.2.getLast? q (by rw [hr]; exact List.mem_cons_of_mem _ h2) t ht)

theorem splitToks_no_cut_tok
    (cut : Option Char → (Bool × Str) → Option (Bool × Str) → Bool)
    (hcf : ∀ p1 p2 n1 n2 t, cut p1 t n1 = cut p2 t n2) :
    ∀ (ts : List (Bool × Str)) (prev : Option Char),
      ∀ q ∈ splitToks cut prev ts, ∀ t ∈ q, cut none t none = false := by
  intro ts
  induction ts with
  | nil =>
    intro prev q hq t ht
    have : q = [] := by simpa [splitToks] using hq
    rw [this] at ht
    simp at ht
  | cons x ts' ih =>
    intro prev q hq t ht
    simp only [splitToks] at hq
    by_cases hc : cut prev x ts'.head? = true
    · rw [if_pos hc] at hq
      rcases List.mem_cons.mp hq with h1 | h2
      · rw [h1] at ht; simp at ht
      · exact ih x.2.getLast? q h2 t ht
    · rw [if_neg hc] at hq
      cases hr : splitToks cut x.2.getLast? ts' with
      | nil => exact absurd hr (splitToks_ne_nil cut ts' x.2.getLast?)
      | cons p ps =>
        rw [hr] at hq
        rcases List.mem_cons.mp hq with h1 | h2
        · rw [h1] at ht
          rcases List.mem_cons.mp ht with h3 | h4
          · rw [h3]
            rw [hcf none prev none ts'.head? x]
            simpa using hc
          · exact ih x.2.getLast? p (by rw [hr]; simp) t h4
        · exact ih x.2.getLast? q (by rw [hr]; exact List.mem_cons_of_mem _ h2) t ht

theorem splitToks_contig
    (cut : Option Char → (Bool × Str) → Option (Bool × Str) → Bool) :
    ∀ (ts : List (Bool × Str)) (prev : Option Char),
      ∃ p0 rest, splitToks cut prev ts = p0 :: rest ∧
        (∃ v, ts = p0 ++ v) ∧ (∀ q ∈ rest, ContigIn q ts) := by
  intro ts
  induction ts with
  | nil =>
    intro prev
    exact ⟨[], [], rfl, ⟨[], rfl⟩, fun q hq => absurd hq (by simp)⟩
  | cons x ts' ih =>
    intro prev
    obtain ⟨p0, rest, hsp, ⟨v, hv⟩, hcontig⟩ := ih x.2.getLast?
    by_cases hc : cut prev x ts'.head? = true
    · have hsplit : splitToks cut prev (x :: ts') = [] :: p0 :: rest := by
        have hstep : splitToks cut prev (x :: ts') =
            if cut prev x ts'.head? = true
            then [] :: splitToks cut x.2.getLast? ts'
            else match splitToks cut x.2.getLast? ts' with
              | [] => [[x]]
              | p :: ps => (x :: p) :: ps := rfl
        rw [hstep, if_pos hc, hsp]
      refine ⟨[], p0 :: rest, hsplit, ⟨x :: ts', rfl⟩, ?_⟩
      intro q hq
      rcases List.mem_cons.mp hq with h1 | h2
      · rw [h1]
        exact ⟨[x], v, by rw [hv]; rfl⟩
      · obtain ⟨u, v2, huv⟩ := hcontig q h2
        exact ⟨x :: u, v2, by rw [huv]; rfl⟩
    · have hsplit : splitToks cut prev (x :: ts') = (x :: p0) :: rest := by
        have hstep : splitToks cut prev (x :: ts') =
            if cut prev x ts'.head? = true
            then [] :: splitToks cut x.2.getLast? ts'
            else match splitToks cut x.2.getLast? ts' with
              | [] => [[x]]
              | p :: ps => (x :: p) :: ps := rfl
        rw [hstep, if_neg hc, hsp]
      refine ⟨x :: p0, rest, hsplit, ⟨v, by rw [hv]; rfl⟩, ?_⟩
      intro q hq
      obtain ⟨u, v2, huv⟩ := hcontig q hq
      exact ⟨x :: u, v2, by rw [huv]; rfl⟩

theorem noCutSeq_paraCut_of_no_tok :
    ∀ (q : List (Bool × Str)) (pv : Option Char) (a : Option (Bool × Str)),
      (∀ t ∈ q, paraCut none t none = false) →
      noCutSeq paraCut pv q a = true := by
  intro q
  induction q with
  | nil => intro pv a _; rfl
  | cons t q' ih =>
    intro pv a h
    simp only [noCutSeq, Bool.and_eq_true, Bool.not_eq_true']
    refine ⟨?_, ih t.2.getLast? a (fun x hx => h x (List.mem_cons_of_mem _ hx))⟩
    have := h t (List.mem_cons_self _ _)
    simpa [paraCut] using this

theorem isNl_chain_ends :
    ∀ (n : Nat) (ts : List (Bool × Str)) (prev : Option Char),
      ts.length ≤ n →
      (∀ t ∈ ts, t.2 ≠ []) →
      (∀ t ∈ ts, ∀ c ∈ t.2, (c == '\n') = t.1) →
      ts.Chain' (fun a b => a.1 ≠ b.1) →
      (∀ q ∈ (splitToks paraCut prev ts).dropLast,
        ∀ c ∈ (flattenToks q).getLast?, ¬(c = '\n')) ∧
      (∀ q ∈ (splitToks paraCut prev ts).tail,
        ∀ c ∈ (flattenToks q).head?, ¬(c = '\n')) := by
  intro n
  induction n with
  | zero =>
    intro ts prev hlen _ _ _
    have : ts = [] := by
      cases ts with
      | nil => rfl
      | cons a b => simp at hlen
    subst this
    constructor
    · intro q hq
      simp [splitToks] at hq
    · intro q hq
      simp [splitToks] at hq
  | succ n ihn =>
    intro ts prev hlen htok hhom hch
    cases hsp : splitToks paraCut prev ts with
    | nil => exact absurd hsp (splitToks_ne_nil paraCut ts prev)
    | cons p0 rest =>
      cases hrest : rest with
      | nil =>
        constructor
        · intro q hq; simp at hq
        · intro q hq; simp at hq
      | cons r0 rrest =>
        subst hrest
        obtain ⟨ct, trail, hts, hcut, hsp2, hnc⟩ :=
          splitToks_decomp paraCut ts prev p0 r0 rrest hsp
        have hct1 : ct.1 = true := by
          simp only [paraCut, Bool.and_eq_true] at hcut
          exact hcut.1
        have hctmem : ct ∈ ts := by rw [hts]; simp
        have htrailsub : ∀ t ∈ trail, t ∈ ts := by
          intro t ht
          rw [hts]
          simp [ht]
        have htraillen : trail.length ≤ n := by
          have := congrArg List.length hts
          simp at this
          omega
        have hchtrail : trail.Chain' (fun a b => a.1 ≠ b.1) := by
          have h2 := chain'_infix _ ts p0 (ct :: trail) [] hch
            (by rw [List.append_nil]; exact hts)
          exact (List.chain'_cons'.mp h2).2
        have hih := ihn trail ct.2.getLast? htraillen
          (fun t ht => htok t (htrailsub t ht))
          (fun t ht => hhom t (htrailsub t ht))
          hchtrail
        rw [hsp2] at hih
        constructor
        · intro q hq
          rw [List.dropLast_cons_of_ne_nil (by simp)] at hq
          rcases List.mem_cons.mp hq with h1 | h2
          · -- q = p0 : its last token is adjacent to the cut token
            subst h1
            intro c hc
            cases hq0 : q with
            | nil =>
              rw [hq0] at hc
              simp [flattenToks] at hc
            | cons y ys =>
              obtain ⟨u, tl, hu⟩ : ∃ u tl, q = u ++ [tl] := by
                refine ⟨q.dropLast, q.getLast (by rw [hq0]; simp), ?_⟩
                exact (List.dropLast_append_getLast _).symm
              have htlmem : tl ∈ ts := by
                rw [hts, hu]
                simp
              have htl1 : tl.1 = false := by
                have hchj : ts.Chain' (fun a b => a.1 ≠ b.1) := hch
                rw [hts, hu, List.append_assoc] at hchj
                have h3 : List.Chain' (fun a b => a.1 ≠ b.1) (tl :: ct :: trail) :=
                  (List.chain'_append.mp hchj).2.1
                have h4 := (List.chain'_cons'.mp h3).1 ct (by simp)
                cases h5 : tl.1
                · rfl
                · rw [h5, hct1] at h4
                  exact absurd rfl h4
              have htlne : tl.2 ≠ [] := htok tl htlmem
              have hclast : (flattenToks q).getLast? = tl.2.getLast? := by
                rw [hu, flattenToks_append]
                have h2 : flattenToks [tl] = tl.2 := by simp [flattenToks]
                rw [h2, List.getLast?_append_of_ne_nil _ htlne]
              rw [hclast] at hc
              have hcmem : c ∈ tl.2 := mem_of_getLast?Ch tl.2 c (by simpa using hc)
              have := hhom tl htlmem c hcmem
              rw [htl1] at this
              intro hcon
              rw [hcon] at this
              simp at this
          · exact hih.1 q h2
        · intro q hq
          have hq2 : q ∈ r0 :: rrest := by simpa using hq
          rcases List.mem_cons.mp hq2 with h1 | h2
          · -- q = r0 : its first token is the head of trail
            subst h1
            intro c hc
            obtain ⟨q0, rest2, hsp3, ⟨v3, hv3⟩, _⟩ := splitToks_contig paraCut trail ct.2.getLast?
            have hq0 : q = q0 := by
              rw [hsp3] at hsp2
              exact ((List.cons_eq_cons.mp hsp2).1).symm
            cases hq0r : q0 with
            | nil =>
              rw [hq0, hq0r] at hc
              simp [flattenToks] at hc
            | cons t0 q0rest =>
              have ht0mem : t0 ∈ ts := by
                rw [hts, hv3, hq0r]
                simp
              have ht01 : t0.1 = false := by
                have hchj := hch
                rw [hts, hv3, hq0r] at hchj
                have h3 : List.Chain' (fun a b => a.1 ≠ b.1)
                    (ct :: ((t0 :: q0rest) ++ v3)) :=
                  (List.chain'_append.mp hchj).2.1
                have h4 := (List.chain'_cons'.mp h3).1 t0 (by simp)
                cases h5 : t0.1
                · rfl
                · rw [h5, hct1] at h4
                  exact absurd rfl h4
              have ht0ne : t0.2 ≠ [] := htok t0 ht0mem
              obtain ⟨c0, hc0⟩ := head?_some t0.2 ht0ne
              have hhd : (flattenToks q).head? = some c0 := by
                rw [hq0, hq0r, flattenToks_cons, head_or_append, hc0]
                rfl
              rw [hhd] at hc
              have hcc : c0 = c := by simpa using hc
              have := hhom t0 ht0mem c0 (List.mem_of_mem_head? (by rw [hc0]; rfl))
              rw [ht01, hcc] at this
              intro hcon
              rw [hcon] at this
              simp at this
          · exact hih.2 q (by simpa using h2)

theorem cutTok_substr (s : Str) (t : Bool × Str)
    (ht : t ∈ tokenizeBy (fun c => c == '\n') s) (ht1 : t.1 = true)
    (hlen : 2 ≤ t.2.length) : hasSubstr "\n\n".data s = true := by
  obtain ⟨u, v, huv⟩ := List.append_of_mem ht
  have hs : s = flattenToks u ++ t.2 ++ flattenToks v := by
    have h1 : flattenToks (tokenizeBy (fun c => c == '\n') s) = s :=
      tokenizeBy_flatten _ s
    rw [← h1, huv, flattenToks_append, flattenToks_cons]
    simp [List.append_assoc]
  obtain ⟨c1, c2, r, hr⟩ : ∃ c1 c2 r, t.2 = c1 :: c2 :: r := by
    cases h1 : t.2 with
    | nil => rw [h1] at hlen; simp at hlen
    | cons c1 rest =>
      cases h2 : rest with
      | nil =>
        subst h2
        rw [h1] at hlen
        simp at hlen
      | cons c2 r =>
        subst h2
        exact ⟨c1, c2, r, rfl⟩
  have hc1 : c1 = '\n' := by
    have := tokenizeBy_homog (fun c => c == '\n') s t ht c1 (by rw [hr]; simp)
    rw [ht1] at this
    simpa using this
  have hc2 : c2 = '\n' := by
    have := tokenizeBy_homog (fun c => c == '\n') s t ht c2 (by rw [hr]; simp)
    rw [ht1] at this
    simpa using this
  rw [hasSubstr_iff]
  refine ⟨flattenToks u, r ++ flattenToks v, ?_⟩
  rw [hs, hr, hc1, hc2]
  simp

theorem no_nlnl_of_toks :
    ∀ (q : List (Bool × Str)),
      (∀ t ∈ q, t.2 ≠ []) →
      (∀ t ∈ q, ∀ c ∈ t.2, (c == '\n') = t.1) →
      q.Chain' (fun a b => a.1 ≠ b.1) →
      (∀ t ∈ q, ¬(t.1 = true ∧ 2 ≤ t.2.length)) →
      hasSubstr "\n\n".data (flattenToks q) = false := by
  intro q
  induction q with
  | nil => intro _ _ _ _; rfl
  | cons t q' ih =>
    intro hne hhom hch hnc
    cases hsub : hasSubstr "\n\n".data (flattenToks (t :: q')) with
    | false => rfl
    | true =>
      exfalso
      rw [flattenToks_cons] at hsub
      rcases hasSubstr_append_cases _ t.2 (flattenToks q') hsub with
        h1 | h1 | ⟨k, hk0, hkl, ⟨a2, ha2⟩, hsw⟩
      · -- inside the first token
        rw [hasSubstr_iff] at h1
        obtain ⟨a, b, hab⟩ := h1
        have hnl : ('\n' : Char) ∈ t.2 := by
          rw [hab]
          simp [show ("\n\n".data : Str) = ['\n', '\n'] from rfl]
        have ht1 : t.1 = true := by
          have := hhom t (List.mem_cons_self _ _) '\n' hnl
          simpa using this.symm
        have hlen : 2 ≤ t.2.length := by
          have := congrArg List.length hab
          simp [show ("\n\n".data : Str) = ['\n', '\n'] from rfl] at this
          omega
        exact hnc t (List.mem_cons_self _ _) ⟨ht1, hlen⟩
      · -- inside the rest
        have := ih (fun x hx => hne x (List.mem_cons_of_mem _ hx))
          (fun x hx => hhom x (List.mem_cons_of_mem _ hx))
          (List.chain'_cons'.mp hch).2
          (fun x hx => hnc x (List.mem_cons_of_mem _ hx))
        rw [h1] at this
        exact absurd this (by simp)
      · -- spanning: the token ends in a newline and the next run starts with one
        have hk1 : k = 1 := by
          have : ("\n\n".data : Str).length = 2 := rfl
          omega
        subst hk1
        have htend : t.2.getLast? = some '\n' := by
          rw [ha2]
          rw [List.getLast?_append_of_ne_nil _ (by
            rw [show List.take 1 ("\n\n".data : Str) = ['\n'] from rfl]
            simp)]
          rw [show List.take 1 ("\n\n".data : Str) = ['\n'] from rfl]
          rfl
        have ht1 : t.1 = true := by
          have := hhom t (List.mem_cons_self _ _) '\n'
            (mem_of_getLast?Ch t.2 '\n' htend)
          simpa using this.symm
        -- the rest starts with a newline
        rw [show List.drop 1 ("\n\n".data : Str) = ['\n'] from rfl] at hsw
        rw [startsWithStr_iff] at hsw
        obtain ⟨d, ds, hds⟩ : ∃ d ds, flattenToks q' = d :: ds := by
          cases hf : flattenToks q' with
          | nil =>
            rw [hf] at hsw
            simp at hsw
          | cons d ds => exact ⟨d, ds, rfl⟩
        have hd : d = '\n' := by
          rw [hds] at hsw
          simpa using hsw
        -- the next token therefore has newline class, contradicting alternation
        cases hq' : q' with
        | nil =>
          rw [hq'] at hds
          simp [flattenToks] at hds
        | cons t2 q'' =>
          have ht2ne : t2.2 ≠ [] := hne t2 (by rw [hq']; simp)
          obtain ⟨c2, hc2⟩ := head?_some t2.2 ht2ne
          have hc2d : c2 = d := by
            have hh : (flattenToks q').head? = some d := by rw [hds]; rfl
            rw [hq', flattenToks_cons, head_or_append, hc2] at hh
            have hor : (some c2).or (flattenToks q'').head? = some c2 := rfl
            rw [hor] at hh
            simpa using hh
          have ht21 : t2.1 = true := by
            have := hhom t2 (by rw [hq']; simp) c2
              (List.mem_of_mem_head? (by rw [hc2]; rfl))
            rw [hc2d, hd] at this
            simpa using this.symm
          have := (List.chain'_cons'.mp (by rw [hq'] at hch; exact hch)).1 t2 (by simp)
          rw [ht1, ht21] at this
          exact absurd rfl this

theorem noCut_para_toks (o : Str) (hno : hasSubstr "\n\n".data o = false)
    (pv : Option Char) (a : Option (Bool × Str)) :
    noCutSeq paraCut pv (tokenizeBy (fun c => c == '\n') o) a = true := by
  apply noCutSeq_paraCut_of_no_tok
  intro t ht
  cases hc : paraCut none t none with
  | false => rfl
  | true =>
    exfalso
    simp only [paraCut, Bool.and_eq_true, decide_eq_true_eq] at hc
    rw [cutTok_substr o t ht hc.1 hc.2] at hno
    exact absurd hno (by simp)

theorem splitToks_paraJoin :
    ∀ (os : List Str) (prev : Option Char),
      os ≠ [] →
      (∀ o ∈ os, o ≠ [] ∧ hasSubstr "\n\n".data o = false) →
      os.Pairwise (fun o1 o2 => (∀ c ∈ o1.getLast?, ¬(c = '\n')) ∧
        (∀ c ∈ o2.head?, ¬(c = '\n'))) →
      splitToks paraCut prev (tokenizeBy (fun c => c == '\n')
          (List.intercalate "\n\n".data os)) =
        os.map (tokenizeBy (fun c => c == '\n')) := by
  intro os
  induction os with
  | nil => intro prev h _ _; exact absurd rfl h
  | cons o os' ih =>
    intro prev _ hfacts hpair
    obtain ⟨hone, honl⟩ := hfacts o (List.mem_cons_self _ _)
    cases oss : os' with
    | nil =>
      subst oss
      rw [intercalate_one]
      have hp := splitToks_pass paraCut (tokenizeBy (fun c => c == '\n') o) prev []
        (noCut_para_toks o honl prev _)
      rw [List.append_nil] at hp
      rw [hp]
      rw [show splitToks paraCut
        (threadPrev prev (tokenizeBy (fun c => c == '\n') o)) [] = [[]] from rfl]
      simp
    | cons o2 os'' =>
      subst oss
      obtain ⟨ho2ne, _⟩ := hfacts o2 (by simp)
      obtain ⟨c2, hc2⟩ := head?_some o2 ho2ne
      have hc2nl : ¬(c2 = '\n') :=
        ((List.pairwise_cons.mp hpair).1 o2 (by simp)).2 c2 (by rw [hc2]; rfl)
      obtain ⟨e, he⟩ := getLast?_some o hone
      have henl : ¬(e = '\n') :=
        ((List.pairwise_cons.mp hpair).1 o2 (by simp)).1 e (by rw [he]; rfl)
      have hR : List.intercalate "\n\n".data (o :: o2 :: os'') =
          o ++ (['\n', '\n'] ++ List.intercalate "\n\n".data (o2 :: os'')) := by
        rw [intercalate_cons₂, List.append_assoc]
      have hRhead : (List.intercalate "\n\n".data (o2 :: os'')).head? = some c2 := by
        cases os'' with
        | nil => rw [intercalate_one]; exact hc2
        | cons o3 osss =>
          rw [intercalate_cons₂, List.append_assoc, head_or_append, hc2]
          rfl
      have htoksSp : tokenizeBy (fun c => c == '\n')
          (['\n', '\n'] ++ List.intercalate "\n\n".data (o2 :: os'')) =
          (true, ['\n', '\n']) :: tokenizeBy (fun c => c == '\n')
            (List.intercalate "\n\n".data (o2 :: os'')) := by
        rw [tokenizeBy_append _ ['\n', '\n'] _ '\n' c2 rfl hRhead
          (by simp [hc2nl])]
        rw [tokenizeBy_homog_run (fun c => c == '\n') true ['\n', '\n'] (by simp)
          (by intro c hc; rcases List.mem_cons.mp hc with h | h
              · rw [h]; rfl
              · have : c = '\n' := by simpa using h
                rw [this]; rfl)]
        rfl
      have htoksX : tokenizeBy (fun c => c == '\n')
          (o ++ (['\n', '\n'] ++ List.intercalate "\n\n".data (o2 :: os''))) =
          tokenizeBy (fun c => c == '\n') o ++
            ((true, ['\n', '\n']) :: tokenizeBy (fun c => c == '\n')
              (List.intercalate "\n\n".data (o2 :: os''))) := by
        rw [tokenizeBy_append _ o
          (['\n', '\n'] ++ List.intercalate "\n\n".data (o2 :: os'')) e '\n' he rfl
          (by simp [henl])]
        rw [htoksSp]
      rw [hR, htoksX]
      rw [splitToks_pass paraCut (tokenizeBy (fun c => c == '\n') o) prev
        ((true, ['\n', '\n']) :: tokenizeBy (fun c => c == '\n')
          (List.intercalate "\n\n".data (o2 :: os'')))
        (noCut_para_toks o honl prev _)]
      have hcut : paraCut
          (threadPrev prev (tokenizeBy (fun c => c == '\n') o))
          ((true, ['\n', '\n']) : Bool × Str)
          ((tokenizeBy (fun c => c == '\n')
            (List.intercalate "\n\n".data (o2 :: os''))).head?) = true := by
        simp [paraCut]
      have hinner : splitToks paraCut
          (threadPrev prev (tokenizeBy (fun c => c == '\n') o))
          ((true, ['\n', '\n']) :: tokenizeBy (fun c => c == '\n')
            (List.intercalate "\n\n".data (o2 :: os''))) =
          [] :: splitToks paraCut (some '\n')
            (tokenizeBy (fun c => c == '\n')
              (List.intercalate "\n\n".data (o2 :: os''))) := by
        have hstep : splitToks paraCut
            (threadPrev prev (tokenizeBy (fun c => c == '\n') o))
            ((true, ['\n', '\n']) :: tokenizeBy (fun c => c == '\n')
              (List.intercalate "\n\n".data (o2 :: os''))) =
            if paraCut (threadPrev prev (tokenizeBy (fun c => c == '\n') o))
                ((true, ['\n', '\n']) : Bool × Str)
                ((tokenizeBy (fun c => c == '\n')
                  (List.intercalate "\n\n".data (o2 :: os''))).head?) = true
            then [] :: splitToks paraCut (some '\n')
              (tokenizeBy (fun c => c == '\n')
                (List.intercalate "\n\n".data (o2 :: os'')))
            else match splitToks paraCut (some '\n')
                (tokenizeBy (fun c => c == '\n')
                  (List.intercalate "\n\n".data (o2 :: os''))) with
              | [] => [[((true, ['\n', '\n']) : Bool × Str)]]
              | p :: ps => (((true, ['\n', '\n']) : Bool × Str) :: p) :: ps := rfl
        rw [hstep, if_pos hcut]
      rw [hinner]
      rw [ih (some '\n') (by simp)
        (fun x hx => hfacts x (List.mem_cons_of_mem _ hx))
        (List.pairwise_cons.mp hpair).2]
      simp

theorem etRest_two (p q : Str) (rest : List Str) :
    etRest (p :: q :: rest) = p :: etRest (q :: rest) := rfl

theorem edgeTrimParas_two (p q : Str) (rest : List Str) :
    edgeTrimParas (p :: q :: rest) = trimL p :: etRest (q :: rest) := rfl

theorem trimL_ne_nil_nonws (o : Str) (h : trimL o ≠ []) :
    ∃ c ∈ o, isJsWs c = false := by
  obtain ⟨c, hc⟩ := head?_some (trimL o) h
  refine ⟨c, ?_, trimL_head_not_ws o c hc⟩
  obtain ⟨a, ha⟩ := trimL_suffix o
  rw [ha]
  exact List.mem_append.mpr (Or.inr (List.mem_of_mem_head? (by rw [hc]; rfl)))

theorem trimR_ne_nil_of_nonws (o : Str) (c : Char) (hc : c ∈ o)
    (hws : isJsWs c = false) : trimR o ≠ [] := by
  intro hcon
  unfold trimR at hcon
  have h1 : o.reverse.dropWhile isJsWs = [] := by
    have := congrArg List.reverse hcon
    simpa using this
  rw [List.dropWhile_eq_nil_iff] at h1
  have := h1 c (List.mem_reverse.mpr hc)
  rw [hws] at this
  exact absurd this (by simp)

theorem trimL_ne_nil_of_nonws (o : Str) (c : Char) (hc : c ∈ o)
    (hws : isJsWs c = false) : trimL o ≠ [] := by
  intro hcon
  unfold trimL at hcon
  rw [List.dropWhile_eq_nil_iff] at hcon
  have := hcon c hc
  rw [hws] at this
  exact absurd this (by simp)

theorem trimS_ne_nil (o : Str) (h : trimL o ≠ []) : trimS o ≠ [] := by
  obtain ⟨c, hc⟩ := head?_some (trimL o) h
  have hcws : isJsWs c = false := trimL_head_not_ws o c hc
  unfold trimS
  apply trimR_ne_nil_of_nonws (trimL o) c _ hcws
  exact List.mem_of_mem_head? (by rw [hc]; rfl)

theorem trimL_getLast_keep (o : Str) (h : trimL o ≠ []) :
    (trimL o).getLast? = o.getLast? := by
  obtain ⟨a, ha⟩ := trimL_suffix o
  conv_rhs => rw [ha]
  rw [List.getLast?_append_of_ne_nil _ h]

theorem trimR_head_keep (o : Str) (h : trimR o ≠ []) :
    (trimR o).head? = o.head? := by
  obtain ⟨b, hb⟩ := trimR_prefix o
  conv_rhs => rw [hb]
  rw [head_or_append]
  obtain ⟨c, hc⟩ := head?_some (trimR o) h
  rw [hc]
  rfl

theorem hasSubstr_trimL (pat o : Str) (h : hasSubstr pat (trimL o) = true) :
    hasSubstr pat o = true := by
  obtain ⟨a, ha⟩ := trimL_suffix o
  rw [ha]
  exact hasSubstr_ext_left pat a _ h

theorem hasSubstr_trimR (pat o : Str) (h : hasSubstr pat (trimR o) = true) :
    hasSubstr pat o = true := by
  obtain ⟨b, hb⟩ := trimR_prefix o
  rw [hb]
  exact hasSubstr_ext_right pat _ b h

theorem hasSubstr_trimS (pat o : Str) (h : hasSubstr pat (trimS o) = true) :
    hasSubstr pat o = true := by
  unfold trimS at h
  exact hasSubstr_trimL pat o (hasSubstr_trimR pat (trimL o) h)

theorem mem_calate2_head (o : Str) (os : List Str) (c : Char) (hc : c ∈ o) :
    c ∈ List.intercalate "\n\n".data (o :: os) := by
  cases os with
  | nil => rw [intercalate_one]; exact hc
  | cons o2 os' =>
    rw [intercalate_cons₂, List.append_assoc]
    exact List.mem_append.mpr (Or.inl hc)

theorem etRest_shape (o3 : Str) (os3 : List Str) :
    ∃ e1 erest, etRest (o3 :: os3) = e1 :: erest := by
  cases os3 with
  | nil => exact ⟨trimR o3, [], rfl⟩
  | cons o4 os4 => exact ⟨o3, etRest (o4 :: os4), etRest_two o3 o4 os4⟩

theorem etR_trimR :
    ∀ (os' : List Str) (o2 : Str),
      (∀ o ∈ o2 :: os', trimL o ≠ []) →
      trimR (List.intercalate "\n\n".data (o2 :: os')) =
        List.intercalate "\n\n".data (etRest (o2 :: os')) := by
  intro os'
  induction os' with
  | nil =>
    intro o2 _
    rw [intercalate_one]
    show trimR o2 = List.intercalate "\n\n".data [trimR o2]
    rw [intercalate_one]
  | cons o3 os3 ih =>
    intro o2 hnw
    rw [intercalate_cons₂, List.append_assoc]
    obtain ⟨c, hc, hws⟩ := trimL_ne_nil_nonws o3 (hnw o3 (by simp))
    have hcR : c ∈ List.intercalate "\n\n".data (o3 :: os3) :=
      mem_calate2_head o3 os3 c hc
    have hR3ne : trimR (List.intercalate "\n\n".data (o3 :: os3)) ≠ [] :=
      trimR_ne_nil_of_nonws _ c hcR hws
    have hBne : trimR ("\n\n".data ++ List.intercalate "\n\n".data (o3 :: os3)) ≠ [] :=
      trimR_ne_nil_of_nonws _ c (List.mem_append.mpr (Or.inr hcR)) hws
    rw [trimR_append, if_neg hBne]
    rw [trimR_append, if_neg hR3ne]
    rw [ih o3 (fun o ho => hnw o (List.mem_cons_of_mem _ ho))]
    rw [etRest_two]
    obtain ⟨e1, erest, hE⟩ := etRest_shape o3 os3
    rw [hE]
    rw [intercalate_cons₂, List.append_assoc]

theorem trimS_calate2 (os : List Str) (hne : os ≠ [])
    (hnw : ∀ o ∈ os, trimL o ≠ []) :
    trimS (List.intercalate "\n\n".data os) =
      List.intercalate "\n\n".data (edgeTrimParas os) := by
  cases os with
  | nil => exact absurd rfl hne
  | cons o os' =>
    cases os' with
    | nil =>
      rw [intercalate_one]
      show trimS o = List.intercalate "\n\n".data [trimS o]
      rw [intercalate_one]
    | cons o2 os'' =>
      rw [intercalate_cons₂, List.append_assoc]
      unfold trimS
      have hoL : trimL o ≠ [] := hnw o (by simp)
      have h1 : trimL (o ++ ("\n\n".data ++
          List.intercalate "\n\n".data (o2 :: os''))) =
          trimL o ++ ("\n\n".data ++ List.intercalate "\n\n".data (o2 :: os'')) := by
        unfold trimL
        rw [List.dropWhile_append,
          if_neg (show ¬(o.dropWhile isJsWs).isEmpty = true from
            fun hcon => hoL (List.isEmpty_iff.mp hcon))]
      rw [h1]
      obtain ⟨c, hc, hws⟩ := trimL_ne_nil_nonws o2 (hnw o2 (by simp))
      have hcR : c ∈ List.intercalate "\n\n".data (o2 :: os'') :=
        mem_calate2_head o2 os'' c hc
      have hR3ne : trimR (List.intercalate "\n\n".data (o2 :: os'')) ≠ [] :=
        trimR_ne_nil_of_nonws _ c hcR hws
      have hBne : trimR ("\n\n".data ++
          List.intercalate "\n\n".data (o2 :: os'')) ≠ [] :=
        trimR_ne_nil_of_nonws _ c (List.mem_append.mpr (Or.inr hcR)) hws
      rw [trimR_append, if_neg hBne]
      rw [trimR_append, if_neg hR3ne]
      rw [etR_trimR os'' o2 (fun x hx => hnw x (List.mem_cons_of_mem _ hx))]
      rw [edgeTrimParas_two]
      obtain ⟨e1, erest, hE⟩ := etRest_shape o2 os''
      rw [hE, intercalate_cons₂, List.append_assoc]

theorem etRest_facts :
    ∀ (os' : List Str) (o2 : Str),
      (∀ o ∈ o2 :: os', trimL o ≠ [] ∧ hasSubstr "\n\n".data o = false) →
      (o2 :: os').Pairwise (fun a b => (∀ c ∈ a.getLast?, ¬(c = '\n')) ∧
        (∀ c ∈ b.head?, ¬(c = '\n'))) →
      (∀ x ∈ etRest (o2 :: os'), x ≠ [] ∧ hasSubstr "\n\n".data x = false) ∧
      (etRest (o2 :: os')).Pairwise (fun a b => (∀ c ∈ a.getLast?, ¬(c = '\n')) ∧
        (∀ c ∈ b.head?, ¬(c = '\n'))) ∧
      (∀ y ∈ etRest (o2 :: os'), ∃ z ∈ o2 :: os', y.head? = z.head?) := by
  intro os'
  induction os' with
  | nil =>
    intro o2 hfacts _
    obtain ⟨hL, hS⟩ := hfacts o2 (by simp)
    obtain ⟨c, hc, hws⟩ := trimL_ne_nil_nonws o2 hL
    have htRne : trimR o2 ≠ [] := trimR_ne_nil_of_nonws o2 c hc hws
    refine ⟨?_, by rw [show etRest [o2] = [trimR o2] from rfl]; simp, ?_⟩
    · intro x hx
      have hxx : x = trimR o2 := by simpa [etRest] using hx
      subst hxx
      refine ⟨htRne, ?_⟩
      cases hsub : hasSubstr "\n\n".data (trimR o2) with
      | false => rfl
      | true =>
        rw [hasSubstr_trimR _ o2 hsub] at hS
        exact absurd hS (by simp)
    · intro y hy
      have hyy : y = trimR o2 := by simpa [etRest] using hy
      subst hyy
      exact ⟨o2, by simp, trimR_head_keep o2 htRne⟩
  | cons o3 os3 ih =>
    intro o2 hfacts hpair
    rw [etRest_two]
    have hrec := ih o3 (fun o ho => hfacts o (List.mem_cons_of_mem _ ho))
      (List.pairwise_cons.mp hpair).2
    refine ⟨?_, ?_, ?_⟩
    · intro x hx
      rcases List.mem_cons.mp hx with h1 | h2
      · subst h1
        obtain ⟨hL, hS⟩ := hfacts x (by simp)
        refine ⟨?_, hS⟩
        intro hcon
        rw [hcon] at hL
        exact hL rfl
      · exact hrec.1 x h2
    · rw [List.pairwise_cons]
      refine ⟨?_, hrec.2.1⟩
      intro y hy
      obtain ⟨z, hz, hyz⟩ := hrec.2.2 y hy
      have hRz := (List.pairwise_cons.mp hpair).1 z hz
      refine ⟨hRz.1, ?_⟩
      rw [hyz]
      exact hRz.2
    · intro y hy
      rcases List.mem_cons.mp hy with h1 | h2
      · subst h1
        exact ⟨y, by simp, rfl⟩
      · obtain ⟨z, hz, hyz⟩ := hrec.2.2 y h2
        exact ⟨z, List.mem_cons_of_mem _ hz, hyz⟩

theorem edgeTrim_facts (os : List Str) (hne : os ≠ [])
    (hfacts : ∀ o ∈ os, trimL o ≠ [] ∧ hasSubstr "\n\n".data o = false)
    (hpair : os.Pairwise (fun a b => (∀ c ∈ a.getLast?, ¬(c = '\n')) ∧
      (∀ c ∈ b.head?, ¬(c = '\n')))) :
    (∀ x ∈ edgeTrimParas os, x ≠ [] ∧ hasSubstr "\n\n".data x = false) ∧
    (edgeTrimParas os).Pairwise (fun a b => (∀ c ∈ a.getLast?, ¬(c = '\n')) ∧
      (∀ c ∈ b.head?, ¬(c = '\n'))) := by
  cases os with
  | nil => exact absurd rfl hne
  | cons o os' =>
    cases os' with
    | nil =>
      obtain ⟨hL, hS⟩ := hfacts o (by simp)
      refine ⟨?_, by simp [edgeTrimParas]⟩
      intro x hx
      have hxx : x = trimS o := by simpa [edgeTrimParas] using hx
      subst hxx
      refine ⟨trimS_ne_nil o hL, ?_⟩
      cases hsub : hasSubstr "\n\n".data (trimS o) with
      | false => rfl
      | true =>
        rw [hasSubstr_trimS _ o hsub] at hS
        exact absurd hS (by simp)
    | cons o2 os'' =>
      rw [edgeTrimParas_two]
      obtain ⟨hL, hS⟩ := hfacts o (by simp)
      have hrec := etRest_facts os'' o2 (fun x hx => hfacts x (List.mem_cons_of_mem _ hx))
        (List.pairwise_cons.mp hpair).2
      constructor
      · intro x hx
        rcases List.mem_cons.mp hx with h1 | h2
        · subst h1
          refine ⟨hL, ?_⟩
          cases hsub : hasSubstr "\n\n".data (trimL o) with
          | false => rfl
          | true =>
            rw [hasSubstr_trimL _ o hsub] at hS
            exact absurd hS (by simp)
        · exact hrec.1 x h2
      · rw [List.pairwise_cons]
        refine ⟨?_, hrec.2.1⟩
        intro y hy
        obtain ⟨z, hz, hyz⟩ := hrec.2.2 y hy
        have hRz := (List.pairwise_cons.mp hpair).1 z hz
        refine ⟨?_, ?_⟩
        · rw [trimL_getLast_keep o hL]
          exact hRz.1
        · rw [hyz]
          exact hRz.2

theorem edgeTrimParas_ne_nil (os : List Str) (hne : os ≠ []) :
    edgeTrimParas os ≠ [] := by
  cases os with
  | nil => exact absurd rfl hne
  | cons o os' =>
    cases os' with
    | nil => simp [edgeTrimParas]
    | cons o2 os'' =>
      rw [edgeTrimParas_two]
      simp

theorem paraResplit (os : List Str) (hne : os ≠ [])
    (hfacts : ∀ o ∈ os, trimL o ≠ [] ∧ hasSubstr "\n\n".data o = false)
    (hpair : os.Pairwise (fun a b => (∀ c ∈ a.getLast?, ¬(c = '\n')) ∧
      (∀ c ∈ b.head?, ¬(c = '\n')))) :
    paraParts (trimS (List.intercalate "\n\n".data os)) = edgeTrimParas os := by
  rw [trimS_calate2 os hne (fun o ho => (hfacts o ho).1)]
  unfold paraParts
  rw [splitToks_paraJoin (edgeTrimParas os) none (edgeTrimParas_ne_nil os hne)
    (edgeTrim_facts os hne hfacts hpair).1
    (edgeTrim_facts os hne hfacts hpair).2]
  rw [List.map_map]
  have hmap : ∀ x ∈ edgeTrimParas os,
      (flattenToks ∘ tokenizeBy (fun c => c == '\n')) x = id x :=
    fun x _ => tokenizeBy_flatten (fun c => c == '\n') x
  rw [List.map_congr_left hmap, List.map_id]

theorem paraParts_facts (content : Str) :
    (∀ p ∈ paraParts content, hasSubstr "\n\n".data p = false) ∧
    (paraParts content).Pairwise (fun a b => (∀ c ∈ a.getLast?, ¬(c = '\n')) ∧
      (∀ c ∈ b.head?, ¬(c = '\n'))) := by
  have htok := tokenizeBy_tok_ne_nil (fun c => c == '\n') content
  have hhom := tokenizeBy_homog (fun c => c == '\n') content
  have hch := tokenizeBy_chain (fun c => c == '\n') content
  obtain ⟨p0, rest, heq, ⟨v, hpre⟩, hcontig⟩ :=
    splitToks_contig paraCut (tokenizeBy (fun c => c == '\n') content) none
  have hparts : paraParts content = (p0 :: rest).map flattenToks := by
    unfold paraParts
    rw [heq]
  have hmemts : ∀ q ∈ p0 :: rest, ∀ t ∈ q,
      t ∈ tokenizeBy (fun c => c == '\n') content := by
    intro q hq t ht
    exact splitToks_mem_tok paraCut _ none q (by rw [heq]; exact hq) t ht
  have hchq : ∀ q ∈ p0 :: rest, q.Chain' (fun a b => a.1 ≠ b.1) := by
    intro q hq
    rcases List.mem_cons.mp hq with h1 | h2
    · subst h1
      exact chain'_infix _ _ [] q v hch (by rw [hpre]; rfl)
    · obtain ⟨u, v2, huv⟩ := hcontig q h2
      exact chain'_infix _ _ u q v2 hch huv
  constructor
  · intro p hp
    rw [hparts] at hp
    obtain ⟨q, hq, hpq⟩ := List.mem_map.mp hp
    rw [← hpq]
    apply no_nlnl_of_toks q
      (fun t ht => htok t (hmemts q hq t ht))
      (fun t ht => hhom t (hmemts q hq t ht))
      (hchq q hq)
    intro t ht hcon
    have hnc := splitToks_no_cut_tok paraCut
      (by intro p1 p2 n1 n2 t2; rfl)
      (tokenizeBy (fun c => c == '\n') content) none q
      (by rw [heq]; exact hq) t ht
    simp only [paraCut, Bool.and_eq_true, decide_eq_true_eq] at hnc
    rw [hcon.1] at hnc
    simp at hnc
    omega
  · rw [hparts]
    rw [List.pairwise_map]
    obtain ⟨hE, hS⟩ := isNl_chain_ends
      (tokenizeBy (fun c => c == '\n') content).length
      (tokenizeBy (fun c => c == '\n') content) none (Nat.le_refl _)
      htok hhom hch
    rw [heq] at hE hS
    exact pairwise_of_ends_starts
      (fun q => ∀ c ∈ (flattenToks q).getLast?, ¬(c = '\n'))
      (fun q => ∀ c ∈ (flattenToks q).head?, ¬(c = '\n'))
      (p0 :: rest) hE hS

theorem trimS_trimL (x : Str) : trimS (trimL x) = trimS x := by
  unfold trimS
  rw [trimL_idem]

theorem trimR_nil_of_ws (b : Str) (h : ∀ c ∈ b, isJsWs c = true) : trimR b = [] := by
  unfold trimR
  have h1 : b.reverse.dropWhile isJsWs = [] := by
    rw [List.dropWhile_eq_nil_iff]
    intro c hc
    exact h c (List.mem_reverse.mp hc)
  rw [h1]
  rfl

theorem trimR_prefix_ws (x : Str) :
    ∃ b, x = trimR x ++ b ∧ ∀ c ∈ b, isJsWs c = true := by
  refine ⟨(x.reverse.takeWhile isJsWs).reverse, ?_, ?_⟩
  · unfold trimR
    calc x = x.reverse.reverse := by rw [List.reverse_reverse]
      _ = (x.reverse.takeWhile isJsWs ++ x.reverse.dropWhile isJsWs).reverse := by
          rw [List.takeWhile_append_dropWhile]
      _ = (x.reverse.dropWhile isJsWs).reverse ++ (x.reverse.takeWhile isJsWs).reverse := by
          rw [List.reverse_append]
  · intro c hc
    have := List.mem_takeWhile_imp (List.mem_reverse.mp hc)
    simpa using this

theorem trimS_trimR (x : Str) : trimS (trimR x) = trimS x := by
  by_cases hz : trimR x = []
  · rw [hz]
    have hws : ∀ c ∈ x, isJsWs c = true := by
      intro c hc
      by_contra hcon
      have hcf : isJsWs c = false := by
        cases h : isJsWs c
        · rfl
        · exact absurd h hcon
      exact trimR_ne_nil_of_nonws x c hc hcf hz
    have htl : trimL x = [] := by
      unfold trimL
      rw [List.dropWhile_eq_nil_iff]
      exact hws
    unfold trimS
    rw [htl]
    rfl
  · obtain ⟨b, hb, hbws⟩ := trimR_prefix_ws x
    have htlne : trimL (trimR x) ≠ [] := by
      obtain ⟨e, he⟩ := getLast?_some (trimR x) hz
      exact trimL_ne_nil_of_nonws (trimR x) e (mem_of_getLast?Ch _ e he)
        (trimR_last_not_ws x e (by rw [he]; rfl))
    have h1 : trimL x = trimL (trimR x) ++ b := by
      conv_lhs => rw [hb]
      unfold trimL
      rw [List.dropWhile_append,
        if_neg (show ¬((trimR x).dropWhile isJsWs).isEmpty = true from
          fun hcon => htlne (List.isEmpty_iff.mp hcon))]
    show trimR (trimL (trimR x)) = trimR (trimL x)
    rw [h1, trimR_append, if_pos (trimR_nil_of_ws b hbws)]

theorem variant_trimS (q o : Str)
    (h : q = o ∨ q = trimL o ∨ q = trimR o ∨ q = trimS o) :
    trimS q = trimS o := by
  rcases h with h | h | h | h <;> subst h
  · rfl
  · exact trimS_trimL o
  · exact trimS_trimR o
  · exact trimS_idem o

theorem etRest_variant :
    ∀ (os' : List Str) (o2 : Str), VariantList (etRest (o2 :: os')) (o2 :: os') := by
  intro os'
  induction os' with
  | nil =>
    intro o2
    show VariantList [trimR o2] [o2]
    exact ⟨Or.inr (Or.inr (Or.inl rfl)), trivial⟩
  | cons o3 os3 ih =>
    intro o2
    rw [etRest_two]
    exact ⟨Or.inl rfl, ih o3⟩

theorem edgeTrim_variant (os : List Str) : VariantList (edgeTrimParas os) os := by
  cases os with
  | nil => trivial
  | cons o os' =>
    cases os' with
    | nil =>
      show VariantList [trimS o] [o]
      exact ⟨Or.inr (Or.inr (Or.inr rfl)), trivial⟩
    | cons o2 os'' =>
      rw [edgeTrimParas_two]
      exact ⟨Or.inr (Or.inl rfl), etRest_variant os'' o2⟩

theorem mem_etRest_of_fixed (os' : List Str) (o2 : Str) (o : Str)
    (ho : o ∈ o2 :: os') (hR : trimR o = o) (hS : trimS o = o) :
    o ∈ etRest (o2 :: os') := by
  induction os' generalizing o2 with
  | nil =>
    have : o = o2 := by simpa using ho
    subst this
    show o ∈ [trimR o]
    rw [hR]
    simp
  | cons o3 os3 ih =>
    rw [etRest_two]
    rcases List.mem_cons.mp ho with h1 | h2
    · subst h1
      simp
    · exact List.mem_cons_of_mem _ (ih o3 h2)

theorem mem_edgeTrim_of_fixed (os : List Str) (o : Str)
    (ho : o ∈ os) (hL : trimL o = o) (hR : trimR o = o) (hS : trimS o = o) :
    o ∈ edgeTrimParas os := by
  cases os with
  | nil => simp at ho
  | cons o1 os' =>
    cases os' with
    | nil =>
      have : o = o1 := by simpa using ho
      subst this
      show o ∈ [trimS o]
      rw [hS]
      simp
    | cons o2 os'' =>
      rw [edgeTrimParas_two]
      rcases List.mem_cons.mp ho with h1 | h2
      · subst h1
        rw [hL]
        simp
      · exact List.mem_cons_of_mem _ (mem_etRest_of_fixed os'' o2 o h2 hR hS)

theorem pairwise_dropLast_rel {R : Str → Str → Prop} :
    ∀ (l : List Str), l.Pairwise R → ∀ a ∈ l.dropLast, ∃ b ∈ l, R a b := by
  intro l
  induction l with
  | nil => intro _ a ha; simp at ha
  | cons x t ih =>
    intro hp a ha
    cases t with
    | nil => simp at ha
    | cons y t' =>
      rw [List.dropLast_cons₂] at ha
      rcases List.mem_cons.mp ha with h1 | h2
      · subst h1
        exact ⟨y, by simp, (List.pairwise_cons.mp hp).1 y (by simp)⟩
      · obtain ⟨b, hb, hr⟩ := ih (List.pairwise_cons.mp hp).2 a h2
        exact ⟨b, List.mem_cons_of_mem _ hb, hr⟩

theorem processSentences_seen_grow :
    ∀ (ss seen : List Str) (first : Bool),
      ∀ g ∈ seen, g ∈ (processSentences first seen ss).2.1 := by
  intro ss
  induction ss with
  | nil =>
    intro seen first g hg
    cases first <;> exact hg
  | cons s rest ih =>
    intro seen first g hg
    cases first with
    | true =>
      simp only [processSentences, if_true]
      exact ih (seen ++ extractNgrams s 4) true g (List.mem_append.mpr (Or.inl hg))
    | false =>
      simp only [processSentences, Bool.false_eq_true, if_false]
      by_cases hdrop : 3 ≤ (List.filter (fun g => decide (g ∈ seen)) (extractNgrams s 4)).length ∧
          3 * (extractNgrams s 4).length ≤
            10 * (List.filter (fun g => decide (g ∈ seen)) (extractNgrams s 4)).length
      · rw [if_pos hdrop]
        exact ih seen false g hg
      · rw [if_neg hdrop]
        exact ih (seen ++ extractNgrams s 4) false g (List.mem_append.mpr (Or.inl hg))

theorem rebuilt_facts (p : Str) (first : Bool) (seen : List Str)
    (hKne : (processSentences first seen (splitIntoSentences p)).1 ≠ [])
    (h5 : isGenericClosing p = false)
    (h6 : hasSubstr "\n\n".data p = false) :
    trimS (List.intercalate " ".data (processSentences first seen (splitIntoSentences p)).1) =
      List.intercalate " ".data (processSentences first seen (splitIntoSentences p)).1 ∧
    splitIntoSentences
        (List.intercalate " ".data (processSentences first seen (splitIntoSentences p)).1) =
      (processSentences first seen (splitIntoSentences p)).1 ∧
    (∀ pat : Str, (∀ c ∈ pat, isSentEndChar c = false) →
      (∀ c ∈ pat.head?, isSentStartChar c = false) →
      startsWithStr pat (trimS p) = false →
      startsWithStr pat
        (List.intercalate " ".data (processSentences first seen (splitIntoSentences p)).1) =
        false) ∧
    isGenericClosing
        (List.intercalate " ".data (processSentences first seen (splitIntoSentences p)).1) =
      false ∧
    List.intercalate " ".data (processSentences first seen (splitIntoSentences p)).1 ≠ [] ∧
    hasSubstr "\n\n".data
        (List.intercalate " ".data (processSentences first seen (splitIntoSentences p)).1) =
      false := by
  have hout := splitIntoSentences_out p
  have hsub := processSentences_sublist (splitIntoSentences p) seen first
  have hmem : ∀ s ∈ (processSentences first seen (splitIntoSentences p)).1,
      s ∈ splitIntoSentences p := fun s hs => hsub.subset hs
  have hKfacts := fun s hs => hout.1 s (hmem s hs)
  have hKpair := hout.2.sublist hsub
  have hends : ∀ s ∈ (processSentences first seen (splitIntoSentences p)).1.dropLast,
      prevEndsB s.getLast? = true := by
    intro s hs
    have hsK : s ∈ (processSentences first seen (splitIntoSentences p)).1 :=
      List.dropLast_sublist _ |>.subset hs
    obtain ⟨b, _, hr⟩ := pairwise_dropLast_rel _ hKpair s hs
    exact hr.1
  have hinfx : ∀ s ∈ (processSentences first seen (splitIntoSentences p)).1,
      ∃ a b, p = a ++ s ++ b := fun s hs => (hKfacts s hs).2.2.2
  cases hK : (processSentences first seen (splitIntoSentences p)).1 with
  | nil => exact absurd hK hKne
  | cons s1 krest =>
    rw [hK] at hKfacts hKpair hends hinfx
    have hs1f := hKfacts s1 (by simp)
    have hs1ne : s1 ≠ [] := by
      intro hcon
      rw [hcon] at hs1f
      simp at hs1f
    have hallne : ∀ s ∈ s1 :: krest, s ≠ [] ∧ trimS s = s := by
      intro s hs
      refine ⟨?_, (hKfacts s hs).1⟩
      intro hcon
      have := (hKfacts s hs).2.1
      rw [hcon] at this
      simp at this
    have htr : trimS (List.intercalate " ".data (s1 :: krest)) =
        List.intercalate " ".data (s1 :: krest) := trimS_calate s1 krest hallne
    have hrne : List.intercalate " ".data (s1 :: krest) ≠ [] :=
      calate_ne_nil s1 krest hs1ne
    refine ⟨htr, ?_, ?_, ?_, hrne, ?_⟩
    · exact splitIntoSentences_join (s1 :: krest) (by simp)
        (fun s hs => ⟨(hKfacts s hs).1, (hKfacts s hs).2.1, (hKfacts s hs).2.2.1⟩) hKpair
    · intro pat hSE hHead hP
      apply startsWith_rebuilt_false pat (trimS p) s1 krest hSE hHead hs1ne
      · intro hkne
        cases krest with
        | nil => exact absurd rfl hkne
        | cons k2 ks =>
          exact ((List.pairwise_cons.mp hKpair).1 k2 (by simp)).1
      · exact splitIntoSentences_head_or_start p s1 (hmem s1 (by rw [hK]; simp))
      · exact hP
    · exact closing_rebuilt_false (s1 :: krest) p hinfx hends h5
    · cases hsub2 : hasSubstr "\n\n".data (List.intercalate " ".data (s1 :: krest)) with
      | false => rfl
      | true =>
        exfalso
        obtain ⟨s, hsmem, hss⟩ := hasSubstr_calate "\n\n".data (by decide) (by decide)
          (by decide) (s1 :: krest) hends hsub2
        obtain ⟨a, b, hab⟩ := hinfx s hsmem
        rw [hab] at h6
        have h7 : hasSubstr "\n\n".data (a ++ s ++ b) = true :=
          hasSubstr_ext_right "\n\n".data (a ++ s) b
            (hasSubstr_ext_left "\n\n".data a s hss)
        rw [h7] at h6
        exact absurd h6 (by simp)

theorem hasSubstr_nil_pat : ∀ (L : Str), hasSubstr [] L = true := by
  intro L
  cases L with
  | nil => rfl
  | cons c rest => simp [hasSubstr, startsWithStr]

theorem lowerChar_ws (c : Char) (h : isJsWs c = true) : lowerChar c = c := by
  unfold isJsWs at h
  simp only [Bool.or_eq_true, beq_iff_eq] at h
  rcases h with ((((h | h) | h) | h) | h) | h <;> subst h <;> decide

theorem lowerStr_ws (w : Str) (h : ∀ c ∈ w, isJsWs c = true) :
    ∀ c ∈ lowerStr w, isJsWs c = true := by
  intro c hc
  obtain ⟨d, hd, hdc⟩ := List.mem_map.mp hc
  rw [← hdc, lowerChar_ws d (h d hd)]
  exact h d hd

theorem hasSubstr_rev (pat l : Str) (h : hasSubstr pat l = true) :
    hasSubstr pat.reverse l.reverse = true := by
  obtain ⟨a, b, hab⟩ := (hasSubstr_iff pat l).mp h
  apply (hasSubstr_iff pat.reverse l.reverse).mpr
  refine ⟨b.reverse, a.reverse, ?_⟩
  rw [hab]
  simp [List.reverse_append]

theorem occ_skip_ws_prefix (pt : Str) (hh : ∀ c ∈ pt.head?, isJsWs c = false) :
    ∀ (W L : Str), (∀ c ∈ W, isJsWs c = true) →
      hasSubstr pt (W ++ L) = true → hasSubstr pt L = true := by
  intro W
  induction W with
  | nil =>
    intro L _ h
    exact h
  | cons c W' ih =>
    intro L hws h
    cases pt with
    | nil => exact hasSubstr_nil_pat L
    | cons c0 pt' =>
      have hstep : hasSubstr (c0 :: pt') (c :: (W' ++ L)) =
          (startsWithStr (c0 :: pt') (c :: (W' ++ L)) || hasSubstr (c0 :: pt') (W' ++ L)) := rfl
      rw [List.cons_append, hstep] at h
      rcases Bool.or_eq_true_iff.mp h with h1 | h2
      · exfalso
        rw [startsWithStr_iff] at h1
        have hc : c = c0 := by
          have : (c :: (W' ++ L)).take (c0 :: pt').length = c :: (W' ++ L).take pt'.length := by
            rfl
          rw [this] at h1
          exact (List.cons_eq_cons.mp h1).1
        have hcw := hws c (by simp)
        have hc0 := hh c0 rfl
        rw [hc] at hcw
        rw [hcw] at hc0
        exact absurd hc0 (by simp)
      · exact ih L (fun d hd => hws d (List.mem_cons_of_mem _ hd)) h2

theorem occ_skip_ws_suffix (pt : Str) (hl : ∀ c ∈ pt.getLast?, isJsWs c = false) :
    ∀ (L W : Str), (∀ c ∈ W, isJsWs c = true) →
      hasSubstr pt (L ++ W) = true → hasSubstr pt L = true := by
  intro L W hws h
  have hrev := hasSubstr_rev pt (L ++ W) h
  rw [List.reverse_append] at hrev
  have hh : ∀ c ∈ pt.reverse.head?, isJsWs c = false := by
    intro c hc
    rw [List.head?_reverse] at hc
    exact hl c hc
  have hres := occ_skip_ws_prefix pt.reverse hh W.reverse L.reverse
    (fun c hc => hws c (List.mem_reverse.mp hc)) hrev
  have := hasSubstr_rev pt.reverse L.reverse hres
  simpa using this

theorem hasSubstr_lower_trimL (pt : Str) (hh : ∀ c ∈ pt.head?, isJsWs c = false)
    (x : Str) (h : hasSubstr pt (lowerStr x) = true) :
    hasSubstr pt (lowerStr (trimL x)) = true := by
  have hx : x = x.takeWhile isJsWs ++ trimL x := by
    unfold trimL
    rw [List.takeWhile_append_dropWhile]
  have hws : ∀ c ∈ x.takeWhile isJsWs, isJsWs c = true :=
    fun c hc => List.mem_takeWhile_imp hc
  rw [hx] at h
  unfold lowerStr at h
  rw [List.map_append] at h
  exact occ_skip_ws_prefix pt hh (List.map lowerChar (x.takeWhile isJsWs))
    (List.map lowerChar (trimL x)) (lowerStr_ws _ hws) h

theorem hasSubstr_lower_trimR (pt : Str) (hl : ∀ c ∈ pt.getLast?, isJsWs c = false)
    (x : Str) (h : hasSubstr pt (lowerStr x) = true) :
    hasSubstr pt (lowerStr (trimR x)) = true := by
  obtain ⟨b, hb, hbws⟩ := trimR_prefix_ws x
  rw [hb] at h
  unfold lowerStr at h
  rw [List.map_append] at h
  exact occ_skip_ws_suffix pt hl (List.map lowerChar (trimR x))
    (List.map lowerChar b) (lowerStr_ws _ hbws) h

theorem isGenericClosing_trim (p q : Str)
    (hq : q = trimL p ∨ q = trimR p ∨ q = trimS p)
    (h : isGenericClosing p = true) : isGenericClosing q = true := by
  have htrans : ∀ pt : Str, (∀ c ∈ pt.head?, isJsWs c = false) →
      (∀ c ∈ pt.getLast?, isJsWs c = false) →
      hasSubstr pt (lowerStr p) = true → hasSubstr pt (lowerStr q) = true := by
    intro pt hh hl hp
    rcases hq with h1 | h1 | h1 <;> subst h1
    · exact hasSubstr_lower_trimL pt hh p hp
    · exact hasSubstr_lower_trimR pt hl p hp
    · exact hasSubstr_lower_trimR pt hl (trimL p) (hasSubstr_lower_trimL pt hh p hp)
  unfold isGenericClosing at h ⊢
  simp only [Bool.or_eq_true, Bool.and_eq_true] at h ⊢
  rcases h with (h1 | h1) | ⟨h1, h2⟩
  · exact Or.inl (Or.inl (htrans "transparent and ethical practices".data
      (by decide) (by decide) h1))
  · exact Or.inl (Or.inr (htrans "ethical decision-making, content integrity".data
      (by decide) (by decide) h1))
  · exact Or.inr ⟨htrans "broader concerns about".data (by decide) (by decide) h1,
      htrans "gaming industry".data (by decide) (by decide) h2⟩

theorem processPara_hdr (first isLast : Bool) (seen : List Str) (p : Str)
    (h : (startsWithStr "#".data (trimS p) || startsWithStr "---".data (trimS p)) = true) :
    processPara first isLast seen p = (some p, seen, false) := by
  unfold processPara
  rw [if_pos h]

theorem processPara_fls (first isLast : Bool) (seen : List Str) (p : Str)
    (h1 : (startsWithStr "#".data (trimS p) || startsWithStr "---".data (trimS p)) = false)
    (h2 : (startsWithStr "Forward-Looking Statement".data (trimS p) ||
      startsWithStr "**Forward-Looking Statement**".data (trimS p)) = true) :
    processPara first isLast seen p = (if isLast then some p else none, seen, false) := by
  unfold processPara
  rw [if_neg (by simp [h1]), if_pos h2]

theorem processPara_clo (first isLast : Bool) (seen : List Str) (p : Str)
    (h1 : (startsWithStr "#".data (trimS p) || startsWithStr "---".data (trimS p)) = false)
    (h2 : (startsWithStr "Forward-Looking Statement".data (trimS p) ||
      startsWithStr "**Forward-Looking Statement**".data (trimS p)) = false)
    (h3 : isGenericClosing p = true) :
    processPara first isLast seen p = (if isLast then some p else none, seen, false) := by
  unfold processPara
  rw [if_neg (by simp [h1]), if_neg (by simp [h2]), if_pos h3]

theorem processPara_else (first isLast : Bool) (seen : List Str) (p : Str)
    (h1 : (startsWithStr "#".data (trimS p) || startsWithStr "---".data (trimS p)) = false)
    (h2 : (startsWithStr "Forward-Looking Statement".data (trimS p) ||
      startsWithStr "**Forward-Looking Statement**".data (trimS p)) = false)
    (h3 : isGenericClosing p = false) :
    processPara first isLast seen p =
      (if (processSentences first seen (splitIntoSentences p)).1.isEmpty then none
       else some (List.intercalate " ".data
         (processSentences first seen (splitIntoSentences p)).1),
       (processSentences first seen (splitIntoSentences p)).2.1,
       (processSentences first seen (splitIntoSentences p)).2.2) := by
  unfold processPara
  rw [if_neg (by simp [h1]), if_neg (by simp [h2]), if_neg (by simp [h3])]

theorem processSentences_kept_grams :
    ∀ (ss seen : List Str) (first : Bool),
      ∀ s' ∈ (processSentences first seen ss).1, ∀ g ∈ extractNgrams s' 4,
        g ∈ (processSentences first seen ss).2.1 := by
  intro ss
  induction ss with
  | nil =>
    intro seen first s' hs'
    cases first <;> simp [processSentences] at hs'
  | cons s rest ih =>
    intro seen first s' hs' g hg
    cases first with
    | true =>
      simp only [processSentences, if_true] at hs' ⊢
      rcases List.mem_cons.mp hs' with h1 | h2
      · subst h1
        exact processSentences_seen_grow rest (seen ++ extractNgrams s' 4) true g
          (List.mem_append.mpr (Or.inr hg))
      · exact ih (seen ++ extractNgrams s 4) true s' h2 g hg
    | false =>
      simp only [processSentences, Bool.false_eq_true, if_false] at hs' ⊢
      by_cases hdrop : 3 ≤ (List.filter (fun g => decide (g ∈ seen)) (extractNgrams s 4)).length ∧
          3 * (extractNgrams s 4).length ≤
            10 * (List.filter (fun g => decide (g ∈ seen)) (extractNgrams s 4)).length
      · rw [if_pos hdrop] at hs' ⊢
        exact ih seen false s' hs' g hg
      · rw [if_neg hdrop] at hs' ⊢
        rcases List.mem_cons.mp hs' with h1 | h2
        · subst h1
          exact processSentences_seen_grow rest (seen ++ extractNgrams s' 4) false g
            (List.mem_append.mpr (Or.inr hg))
        · exact ih (seen ++ extractNgrams s 4) false s' h2 g hg

theorem processSentences_seen_src :
    ∀ (ss seen : List Str) (first : Bool),
      ∀ g ∈ (processSentences first seen ss).2.1,
        g ∈ seen ∨ ∃ s' ∈ ss, g ∈ extractNgrams s' 4 := by
  intro ss
  induction ss with
  | nil =>
    intro seen first g hg
    cases first <;> exact Or.inl hg
  | cons s rest ih =>
    intro seen first g hg
    cases first with
    | true =>
      simp only [processSentences, if_true] at hg
      rcases ih (seen ++ extractNgrams s 4) true g hg with h1 | ⟨s', hs', hgs⟩
      · rcases List.mem_append.mp h1 with h2 | h2
        · exact Or.inl h2
        · exact Or.inr ⟨s, by simp, h2⟩
      · exact Or.inr ⟨s', List.mem_cons_of_mem _ hs', hgs⟩
    | false =>
      simp only [processSentences, Bool.false_eq_true, if_false] at hg
      by_cases hdrop : 3 ≤ (List.filter (fun g => decide (g ∈ seen)) (extractNgrams s 4)).length ∧
          3 * (extractNgrams s 4).length ≤
            10 * (List.filter (fun g => decide (g ∈ seen)) (extractNgrams s 4)).length
      · rw [if_pos hdrop] at hg
        rcases ih seen false g hg with h1 | ⟨s', hs', hgs⟩
        · exact Or.inl h1
        · exact Or.inr ⟨s', List.mem_cons_of_mem _ hs', hgs⟩
      · rw [if_neg hdrop] at hg
        rcases ih (seen ++ extractNgrams s 4) false g hg with h1 | ⟨s', hs', hgs⟩
        · rcases List.mem_append.mp h1 with h2 | h2
          · exact Or.inl h2
          · exact Or.inr ⟨s, by simp, h2⟩
        · exact Or.inr ⟨s', List.mem_cons_of_mem _ hs', hgs⟩

theorem processSentences_rekeep_any (first : Bool) (ss seen sn : List Str)
    (hsub : ∀ g ∈ sn, g ∈ seen) :
    (processSentences first sn (processSentences first seen ss).1).1 =
      (processSentences first seen ss).1 ∧
    (processSentences first sn (processSentences first seen ss).1).2.2 = false := by
  cases first with
  | true =>
    exact ⟨(processSentences_first_true _ sn).1, (processSentences_first_true _ sn).2⟩
  | false => exact processSentences_rekeep_mono ss seen sn hsub

theorem processParas_cons (first isLast : Bool) (seen : List Str) (p : Str)
    (ps : List Str) :
    processParas first isLast seen (p :: ps) =
      (match (processPara first isLast seen p).1 with
       | some x => x :: (processParas first isLast (processPara first isLast seen p).2.1 ps).1
       | none => (processParas first isLast (processPara first isLast seen p).2.1 ps).1,
       (processParas first isLast (processPara first isLast seen p).2.1 ps).2.1,
       (processPara first isLast seen p).2.2 ||
         (processParas first isLast (processPara first isLast seen p).2.1 ps).2.2) := rfl

theorem kit_run (first isLast : Bool) :
    ∀ (os s sF : List Str), KitList first isLast s os sF →
      ∀ (qs : List Str), VariantList qs os →
      ∀ (sn : List Str), (∀ g ∈ sn, g ∈ s) →
      (processParas first isLast sn qs).1 = qs ∧
      (processParas first isLast sn qs).2.2 = false ∧
      (∀ g ∈ (processParas first isLast sn qs).2.1, g ∈ sF) ∧
      (sn = s → isLast = false → processParas first isLast sn qs = (qs, sF, false)) := by
  intro os
  induction os with
  | nil =>
    intro s sF hkit qs hvar sn hsub
    cases qs with
    | cons q qs' => exact absurd hvar (by simp [VariantList])
    | nil =>
      have hsF : sF = s := hkit
      refine ⟨rfl, rfl, ?_, ?_⟩
      · intro g hg
        rw [hsF]
        exact hsub g hg
      · intro he _
        rw [hsF, ← he]
        rfl
  | cons o orest ih =>
    intro s sF hkit qs hvar sn hsub
    obtain ⟨s2, hcase, hrest⟩ := hkit
    cases qs with
    | nil => exact absurd hvar (by simp [VariantList])
    | cons q qs' =>
      obtain ⟨hq, hvar'⟩ := hvar
      rcases hcase with ⟨hraw, hs2⟩ | ⟨htrim, hmono⟩
      · -- raw paragraph: passes through with untouched state
        have hss2 : ∀ g ∈ s, g ∈ s2 := by
          rcases hs2 with h1 | ⟨_, h1⟩
          · intro g hg; rw [h1]; exact hg
          · exact h1
        have hr1 := hraw sn q hq
        have hihres := ih s2 sF hrest qs' hvar' sn (fun g hg => hss2 g (hsub g hg))
        rw [processParas_cons, hr1]
        refine ⟨?_, ?_, ?_, ?_⟩
        · show q :: (processParas first isLast sn qs').1 = q :: qs'
          rw [hihres.1]
        · show (false || (processParas first isLast sn qs').2.2) = false
          rw [hihres.2.1]
          rfl
        · exact hihres.2.2.1
        · intro he hlastf
          have hs2eq : s2 = s := by
            rcases hs2 with h1 | ⟨h1, _⟩
            · exact h1
            · rw [h1] at hlastf; exact absurd hlastf (by simp)
          have := hihres.2.2.2 (by rw [he, hs2eq]) hlastf
          rw [this]
          rfl
      · -- rebuilt paragraph: rerun keeps it
        have hqo : q = o := by
          have hfix := of_trimS_eq_self o htrim
          rcases hq with h1 | h1 | h1 | h1
          · exact h1
          · rw [h1, hfix.1]
          · rw [h1, hfix.2]
          · rw [h1, htrim]
        subst hqo
        have hm := hmono sn hsub
        have hihres := ih s2 sF hrest qs' hvar' _ (fun g hg => hm.2.2.1 g hg)
        rw [processParas_cons, hm.1]
        refine ⟨?_, ?_, ?_, ?_⟩
        · show q :: (processParas first isLast (processPara first isLast sn q).2.1 qs').1 =
            q :: qs'
          rw [hihres.1]
        · show ((processPara first isLast sn q).2.2 ||
            (processParas first isLast (processPara first isLast sn q).2.1 qs').2.2) = false
          rw [hm.2.1, hihres.2.1]
          rfl
        · exact hihres.2.2.1
        · intro he hlastf
          subst he
          have hfull := hm.2.2.2 rfl
          rw [hfull] at hihres ⊢
          have := hihres.2.2.2 rfl hlastf
          show ((q :: (processParas first isLast s2 qs').1 : List Str),
            (processParas first isLast s2 qs').2.1,
            (false || (processParas first isLast s2 qs').2.2)) = (q :: qs', sF, false)
          rw [this]
          rfl

theorem startsWith_ne_nil (pat x : Str) (h : startsWithStr pat x = true)
    (hne : pat ≠ []) : x ≠ [] := by
  intro hcon
  rw [hcon, startsWithStr_iff] at h
  simp at h
  exact hne h

theorem trimL_ne_of_trimS_ne (p : Str) (h : trimS p ≠ []) : trimL p ≠ [] := by
  intro hcon
  unfold trimS at h
  rw [hcon] at h
  exact h rfl

theorem hasSubstr_ws_false (pt x : Str) (hws : ∀ c ∈ x, isJsWs c = true)
    (hne : pt ≠ []) (hh : ∀ c ∈ pt.head?, isJsWs c = false) :
    hasSubstr pt x = false := by
  cases hsub : hasSubstr pt x with
  | false => rfl
  | true =>
    exfalso
    have h2 : hasSubstr pt (x ++ []) = true := by rw [List.append_nil]; exact hsub
    have h3 := occ_skip_ws_prefix pt hh x [] hws h2
    have h4 : pt.isEmpty = true := h3
    exact hne (List.isEmpty_iff.mp h4)

theorem closing_trimL_ne (p : Str) (h : isGenericClosing p = true) : trimL p ≠ [] := by
  intro hcon
  have hws : ∀ c ∈ p, isJsWs c = true := List.dropWhile_eq_nil_iff.mp hcon
  have hlws : ∀ c ∈ lowerStr p, isJsWs c = true := lowerStr_ws p hws
  unfold isGenericClosing at h
  simp only [Bool.or_eq_true, Bool.and_eq_true] at h
  rcases h with (h1 | h1) | ⟨h1, _⟩
  · rw [hasSubstr_ws_false "transparent and ethical practices".data (lowerStr p) hlws
      (by decide) (by decide)] at h1
    exact absurd h1 (by simp)
  · rw [hasSubstr_ws_false "ethical decision-making, content integrity".data (lowerStr p) hlws
      (by decide) (by decide)] at h1
    exact absurd h1 (by simp)
  · rw [hasSubstr_ws_false "broader concerns about".data (lowerStr p) hlws
      (by decide) (by decide)] at h1
    exact absurd h1 (by simp)

theorem processSentences_empty_seen :
    ∀ (ss seen : List Str) (first : Bool),
      (processSentences first seen ss).1 = [] →
      (processSentences first seen ss).2.1 = seen := by
  intro ss
  induction ss with
  | nil =>
    intro seen first _
    cases first <;> rfl
  | cons s rest ih =>
    intro seen first hk
    cases first with
    | true =>
      simp only [processSentences, if_true] at hk
      simp at hk
    | false =>
      simp only [processSentences, Bool.false_eq_true, if_false] at hk ⊢
      by_cases hdrop : 3 ≤ (List.filter (fun g => decide (g ∈ seen)) (extractNgrams s 4)).length ∧
          3 * (extractNgrams s 4).length ≤
            10 * (List.filter (fun g => decide (g ∈ seen)) (extractNgrams s 4)).length
      · rw [if_pos hdrop] at hk ⊢
        exact ih seen false hk
      · rw [if_neg hdrop] at hk
        simp at hk

theorem tf_last_not_nl (o : Str) (htr : trimS o = o) :
    ∀ c ∈ o.getLast?, ¬(c = '\n') := by
  intro c hc heq
  have := last_not_ws_of_trimR_self o (of_trimS_eq_self o htr).2 c hc
  rw [heq] at this
  exact absurd this (by decide)

theorem tf_head_not_nl (o : Str) (htr : trimS o = o) :
    ∀ c ∈ o.head?, ¬(c = '\n') := by
  intro c hc heq
  have := head_not_ws_of_trimL_self o (of_trimS_eq_self o htr).1 c hc
  rw [heq] at this
  exact absurd this (by decide)

theorem paras_kits_cons_drop (first isLast : Bool) (p : Str) (ips' s : List Str)
    (hr1 : (processPara first isLast s p).1 = none)
    (hseen : (processPara first isLast s p).2.1 = s)
    (hIH : KitList first isLast s (processParas first isLast s ips').1
        (processParas first isLast s ips').2.1 ∧
      (∀ o ∈ (processParas first isLast s ips').1,
        trimL o ≠ [] ∧ hasSubstr "\n\n".data o = false) ∧
      (∀ o ∈ (processParas first isLast s ips').1, (trimS o = o ∧ o ≠ []) ∨ o ∈ ips') ∧
      (processParas first isLast s ips').1.Pairwise (fun a b =>
        (∀ c ∈ a.getLast?, ¬(c = '\n')) ∧ (∀ c ∈ b.head?, ¬(c = '\n')))) :
    KitList first isLast s (processParas first isLast s (p :: ips')).1
        (processParas first isLast s (p :: ips')).2.1 ∧
      (∀ o ∈ (processParas first isLast s (p :: ips')).1,
        trimL o ≠ [] ∧ hasSubstr "\n\n".data o = false) ∧
      (∀ o ∈ (processParas first isLast s (p :: ips')).1,
        (trimS o = o ∧ o ≠ []) ∨ o ∈ p :: ips') ∧
      (processParas first isLast s (p :: ips')).1.Pairwise (fun a b =>
        (∀ c ∈ a.getLast?, ¬(c = '\n')) ∧ (∀ c ∈ b.head?, ¬(c = '\n'))) := by
  have hout1 : (processParas first isLast s (p :: ips')).1 =
      (processParas first isLast s ips').1 := by
    rw [processParas_cons, hr1, hseen]
  have hout2 : (processParas first isLast s (p :: ips')).2.1 =
      (processParas first isLast s ips').2.1 := by
    rw [processParas_cons, hseen]
  rw [hout1, hout2]
  refine ⟨hIH.1, hIH.2.1, ?_, hIH.2.2.2⟩
  intro o ho
  rcases hIH.2.2.1 o ho with h1 | h1
  · exact Or.inl h1
  · exact Or.inr (List.mem_cons_of_mem _ h1)

theorem paras_kits_cons_raw (first isLast : Bool) (p : Str) (ips' s : List Str)
    (hr1 : processPara first isLast s p = (some p, s, false))
    (hraw : ∀ (sn : List Str) (q : Str),
      q = p ∨ q = trimL p ∨ q = trimR p ∨ q = trimS p →
      processPara first isLast sn q = (some q, sn, false))
    (htlne : trimL p ≠ []) (hnn : hasSubstr "\n\n".data p = false)
    (hrel2 : ∀ z ∈ ips', (∀ c ∈ p.getLast?, ¬(c = '\n')) ∧ (∀ c ∈ z.head?, ¬(c = '\n')))
    (hIH : KitList first isLast s (processParas first isLast s ips').1
        (processParas first isLast s ips').2.1 ∧
      (∀ o ∈ (processParas first isLast s ips').1,
        trimL o ≠ [] ∧ hasSubstr "\n\n".data o = false) ∧
      (∀ o ∈ (processParas first isLast s ips').1, (trimS o = o ∧ o ≠ []) ∨ o ∈ ips') ∧
      (processParas first isLast s ips').1.Pairwise (fun a b =>
        (∀ c ∈ a.getLast?, ¬(c = '\n')) ∧ (∀ c ∈ b.head?, ¬(c = '\n')))) :
    KitList first isLast s (processParas first isLast s (p :: ips')).1
        (processParas first isLast s (p :: ips')).2.1 ∧
      (∀ o ∈ (processParas first isLast s (p :: ips')).1,
        trimL o ≠ [] ∧ hasSubstr "\n\n".data o = false) ∧
      (∀ o ∈ (processParas first isLast s (p :: ips')).1,
        (trimS o = o ∧ o ≠ []) ∨ o ∈ p :: ips') ∧
      (processParas first isLast s (p :: ips')).1.Pairwise (fun a b =>
        (∀ c ∈ a.getLast?, ¬(c = '\n')) ∧ (∀ c ∈ b.head?, ¬(c = '\n'))) := by
  have hout1 : (processParas first isLast s (p :: ips')).1 =
      p :: (processParas first isLast s ips').1 := by
    rw [processParas_cons, hr1]
  have hout2 : (processParas first isLast s (p :: ips')).2.1 =
      (processParas first isLast s ips').2.1 := by
    rw [processParas_cons, hr1]
  rw [hout1, hout2]
  refine ⟨⟨s, Or.inl ⟨hraw, Or.inl rfl⟩, hIH.1⟩, ?_, ?_, ?_⟩
  · intro o ho
    rcases List.mem_cons.mp ho with h1 | h1
    · subst h1
      exact ⟨htlne, hnn⟩
    · exact hIH.2.1 o h1
  · intro o ho
    rcases List.mem_cons.mp ho with h1 | h1
    · subst h1
      exact Or.inr (by simp)
    · rcases hIH.2.2.1 o h1 with h2 | h2
      · exact Or.inl h2
      · exact Or.inr (List.mem_cons_of_mem _ h2)
  · rw [List.pairwise_cons]
    refine ⟨?_, hIH.2.2.2⟩
    intro y hy
    have hipsne : ips' ≠ [] := by
      intro hcon
      rw [hcon] at hy
      have : (processParas first isLast s ([] : List Str)).1 = [] := rfl
      rw [this] at hy
      simp at hy
    have hEp : ∀ c ∈ p.getLast?, ¬(c = '\n') := by
      cases hips : ips' with
      | nil => exact absurd hips hipsne
      | cons z zs => exact (hrel2 z (by rw [hips]; simp)).1
    refine ⟨hEp, ?_⟩
    rcases hIH.2.2.1 y hy with ⟨htr, hyne⟩ | h2
    · exact tf_head_not_nl y htr
    · exact (hrel2 y h2).2

theorem paras_kits_cons_reb (first isLast : Bool) (p : Str) (ips' s : List Str)
    (hAf : (startsWithStr "#".data (trimS p) || startsWithStr "---".data (trimS p)) = false)
    (hBf : (startsWithStr "Forward-Looking Statement".data (trimS p) ||
      startsWithStr "**Forward-Looking Statement**".data (trimS p)) = false)
    (hCf : isGenericClosing p = false)
    (hnnp : hasSubstr "\n\n".data p = false)
    (hKne : (processSentences first s (splitIntoSentences p)).1 ≠ [])
    (hFLS : isLast = true ∨ startsWithStr "Forward-Looking Statement".data
      (List.intercalate " ".data (processSentences first s (splitIntoSentences p)).1) = false)
    (hrel2 : ∀ z ∈ ips', (∀ c ∈ p.getLast?, ¬(c = '\n')) ∧ (∀ c ∈ z.head?, ¬(c = '\n')))
    (hIH : KitList first isLast (processSentences first s (splitIntoSentences p)).2.1
        (processParas first isLast
          (processSentences first s (splitIntoSentences p)).2.1 ips').1
        (processParas first isLast
          (processSentences first s (splitIntoSentences p)).2.1 ips').2.1 ∧
      (∀ o ∈ (processParas first isLast
          (processSentences first s (splitIntoSentences p)).2.1 ips').1,
        trimL o ≠ [] ∧ hasSubstr "\n\n".data o = false) ∧
      (∀ o ∈ (processParas first isLast
          (processSentences first s (splitIntoSentences p)).2.1 ips').1,
        (trimS o = o ∧ o ≠ []) ∨ o ∈ ips') ∧
      (processParas first isLast
          (processSentences first s (splitIntoSentences p)).2.1 ips').1.Pairwise
        (fun a b => (∀ c ∈ a.getLast?, ¬(c = '\n')) ∧ (∀ c ∈ b.head?, ¬(c = '\n')))) :
    KitList first isLast s (processParas first isLast s (p :: ips')).1
        (processParas first isLast s (p :: ips')).2.1 ∧
      (∀ o ∈ (processParas first isLast s (p :: ips')).1,
        trimL o ≠ [] ∧ hasSubstr "\n\n".data o = false) ∧
      (∀ o ∈ (processParas first isLast s (p :: ips')).1,
        (trimS o = o ∧ o ≠ []) ∨ o ∈ p :: ips') ∧
      (processParas first isLast s (p :: ips')).1.Pairwise (fun a b =>
        (∀ c ∈ a.getLast?, ¬(c = '\n')) ∧ (∀ c ∈ b.head?, ¬(c = '\n'))) := by
  obtain ⟨htr, hjoin, hsw, hclo, hrne, hnn⟩ := rebuilt_facts p first s hKne hCf hnnp
  have hKe : ¬((processSentences first s (splitIntoSentences p)).1.isEmpty = true) := by
    intro hcon
    exact hKne (List.isEmpty_iff.mp hcon)
  have hr1 : processPara first isLast s p =
      (some (List.intercalate " ".data (processSentences first s (splitIntoSentences p)).1),
       (processSentences first s (splitIntoSentences p)).2.1,
       (processSentences first s (splitIntoSentences p)).2.2) := by
    rw [processPara_else first isLast s p hAf hBf hCf, if_neg hKe]
  have hout1 : (processParas first isLast s (p :: ips')).1 =
      List.intercalate " ".data (processSentences first s (splitIntoSentences p)).1 ::
        (processParas first isLast
          (processSentences first s (splitIntoSentences p)).2.1 ips').1 := by
    rw [processParas_cons, hr1]
  have hout2 : (processParas first isLast s (p :: ips')).2.1 =
      (processParas first isLast
        (processSentences first s (splitIntoSentences p)).2.1 ips').2.1 := by
    rw [processParas_cons, hr1]
  have hAr : (startsWithStr "#".data (trimS (List.intercalate " ".data
      (processSentences first s (splitIntoSentences p)).1)) ||
      startsWithStr "---".data (trimS (List.intercalate " ".data
      (processSentences first s (splitIntoSentences p)).1))) = false := by
    rw [htr, hsw "#".data (by decide) (by decide) (Bool.or_eq_false_iff.mp hAf).1,
      hsw "---".data (by decide) (by decide) (Bool.or_eq_false_iff.mp hAf).2]
    rfl
  have hstar : startsWithStr "**Forward-Looking Statement**".data
      (List.intercalate " ".data (processSentences first s (splitIntoSentences p)).1) =
      false :=
    hsw "**Forward-Looking Statement**".data (by decide) (by decide)
      (Bool.or_eq_false_iff.mp hBf).2
  have hfix := of_trimS_eq_self _ htr
  have hsgrow : ∀ g ∈ s, g ∈ (processSentences first s (splitIntoSentences p)).2.1 :=
    processSentences_seen_grow (splitIntoSentences p) s first
  rw [hout1, hout2]
  have hkitcase :
      (∀ (sn : List Str) (q : Str),
        q = List.intercalate " ".data (processSentences first s (splitIntoSentences p)).1 ∨
        q = trimL (List.intercalate " ".data
          (processSentences first s (splitIntoSentences p)).1) ∨
        q = trimR (List.intercalate " ".data
          (processSentences first s (splitIntoSentences p)).1) ∨
        q = trimS (List.intercalate " ".data
          (processSentences first s (splitIntoSentences p)).1) →
        processPara first isLast sn q = (some q, sn, false)) ∧
      ((processSentences first s (splitIntoSentences p)).2.1 = s ∨
        (isLast = true ∧ ∀ g ∈ s, g ∈ (processSentences first s (splitIntoSentences p)).2.1)) ∨
      (trimS (List.intercalate " ".data
          (processSentences first s (splitIntoSentences p)).1) =
        List.intercalate " ".data (processSentences first s (splitIntoSentences p)).1 ∧
       ∀ sn, (∀ g ∈ sn, g ∈ s) →
        (processPara first isLast sn (List.intercalate " ".data
          (processSentences first s (splitIntoSentences p)).1)).1 =
          some (List.intercalate " ".data
            (processSentences first s (splitIntoSentences p)).1) ∧
        (processPara first isLast sn (List.intercalate " ".data
          (processSentences first s (splitIntoSentences p)).1)).2.2 = false ∧
        (∀ g ∈ (processPara first isLast sn (List.intercalate " ".data
          (processSentences first s (splitIntoSentences p)).1)).2.1,
          g ∈ (processSentences first s (splitIntoSentences p)).2.1) ∧
        (sn = s → processPara first isLast sn (List.intercalate " ".data
          (processSentences first s (splitIntoSentences p)).1) =
          (some (List.intercalate " ".data
            (processSentences first s (splitIntoSentences p)).1),
           (processSentences first s (splitIntoSentences p)).2.1, false))) := by
    by_cases hF : startsWithStr "Forward-Looking Statement".data
        (List.intercalate " ".data (processSentences first s (splitIntoSentences p)).1) = true
    · -- boilerplate re-emerged: only possible in the last section, raw pass-through
      have hisLast : isLast = true := by
        rcases hFLS with h1 | h1
        · exact h1
        · rw [h1] at hF
          exact absurd hF (by simp)
      left
      refine ⟨?_, Or.inr ⟨hisLast, hsgrow⟩⟩
      intro sn q hq
      have hqeq : q = List.intercalate " ".data
          (processSentences first s (splitIntoSentences p)).1 := by
        rcases hq with h1 | h1 | h1 | h1
        · exact h1
        · rw [h1, hfix.1]
        · rw [h1, hfix.2]
        · rw [h1, htr]
      rw [hqeq]
      have hBr : (startsWithStr "Forward-Looking Statement".data (trimS (List.intercalate
          " ".data (processSentences first s (splitIntoSentences p)).1)) ||
          startsWithStr "**Forward-Looking Statement**".data (trimS (List.intercalate
          " ".data (processSentences first s (splitIntoSentences p)).1))) = true := by
        rw [htr, hF]
        rfl
      rw [processPara_fls first isLast sn _ hAr hBr, hisLast]
      rfl
    · -- no boilerplate prefix: the rerun reprocesses and keeps everything
      right
      refine ⟨htr, ?_⟩
      intro sn hsubs
      have hBr : (startsWithStr "Forward-Looking Statement".data (trimS (List.intercalate
          " ".data (processSentences first s (splitIntoSentences p)).1)) ||
          startsWithStr "**Forward-Looking Statement**".data (trimS (List.intercalate
          " ".data (processSentences first s (splitIntoSentences p)).1))) = false := by
        rw [htr, hstar, Bool.eq_false_iff.mpr hF]
        rfl
      have hstep := processPara_else first isLast sn
        (List.intercalate " ".data (processSentences first s (splitIntoSentences p)).1)
        hAr hBr hclo
      rw [hjoin] at hstep
      have hre := processSentences_rekeep_any first (splitIntoSentences p) s sn hsubs
      rw [hre.1, hre.2, if_neg hKe] at hstep
      refine ⟨by rw [hstep], by rw [hstep], ?_, ?_⟩
      · intro g hg
        rw [hstep] at hg
        have hg2 : g ∈ (processSentences first sn
            (processSentences first s (splitIntoSentences p)).1).2.1 := hg
        rcases processSentences_seen_src _ sn first g hg2 with h1 | ⟨s', hs', hgs⟩
        · exact hsgrow g (hsubs g h1)
        · exact processSentences_kept_grams (splitIntoSentences p) s first s' hs' g hgs
      · intro hsn
        subst hsn
        have hfull := processSentences_rekeep (splitIntoSentences p) sn first
        rw [hstep, hfull]
  refine ⟨⟨(processSentences first s (splitIntoSentences p)).2.1, hkitcase, hIH.1⟩,
    ?_, ?_, ?_⟩
  · intro o ho
    rcases List.mem_cons.mp ho with h1 | h1
    · subst h1
      refine ⟨?_, hnn⟩
      rw [hfix.1]
      exact hrne
    · exact hIH.2.1 o h1
  · intro o ho
    rcases List.mem_cons.mp ho with h1 | h1
    · subst h1
      exact Or.inl ⟨htr, hrne⟩
    · rcases hIH.2.2.1 o h1 with h2 | h2
      · exact Or.inl h2
      · exact Or.inr (List.mem_cons_of_mem _ h2)
  · rw [List.pairwise_cons]
    refine ⟨?_, hIH.2.2.2⟩
    intro y hy
    refine ⟨tf_last_not_nl _ htr, ?_⟩
    rcases hIH.2.2.1 y hy with ⟨htry, _⟩ | h2
    · exact tf_head_not_nl y htry
    · exact (hrel2 y h2).2

theorem paras_kits (first isLast : Bool) :
    ∀ (ips s : List Str),
      (∀ p' ∈ ips, hasSubstr "\n\n".data p' = false) →
      ips.Pairwise (fun a b => (∀ c ∈ a.getLast?, ¬(c = '\n')) ∧
        (∀ c ∈ b.head?, ¬(c = '\n'))) →
      (∀ o ∈ (processParas first isLast s ips).1, trimS o = o →
        isLast = true ∨ startsWithStr "Forward-Looking Statement".data o = false) →
      KitList first isLast s (processParas first isLast s ips).1
          (processParas first isLast s ips).2.1 ∧
        (∀ o ∈ (processParas first isLast s ips).1,
          trimL o ≠ [] ∧ hasSubstr "\n\n".data o = false) ∧
        (∀ o ∈ (processParas first isLast s ips).1, (trimS o = o ∧ o ≠ []) ∨ o ∈ ips) ∧
        (processParas first isLast s ips).1.Pairwise (fun a b =>
          (∀ c ∈ a.getLast?, ¬(c = '\n')) ∧ (∀ c ∈ b.head?, ¬(c = '\n'))) := by
  intro ips
  induction ips with
  | nil =>
    intro s _ _ _
    have hnil : (processParas first isLast s []).1 = [] := rfl
    refine ⟨rfl, ?_, ?_, ?_⟩
    · intro o ho
      rw [hnil] at ho
      simp at ho
    · intro o ho
      rw [hnil] at ho
      simp at ho
    · rw [hnil]
      exact List.Pairwise.nil
  | cons p ips' ih =>
    intro s h1 h2 h4
    have h1' : ∀ p' ∈ ips', hasSubstr "\n\n".data p' = false :=
      fun p' hp' => h1 p' (List.mem_cons_of_mem _ hp')
    have h2' := (List.pairwise_cons.mp h2).2
    have hrel2 := (List.pairwise_cons.mp h2).1
    by_cases hA : (startsWithStr "#".data (trimS p) ||
        startsWithStr "---".data (trimS p)) = true
    · have hr1 := processPara_hdr first isLast s p hA
      have hout1 : (processParas first isLast s (p :: ips')).1 =
          p :: (processParas first isLast s ips').1 := by
        rw [processParas_cons, hr1]
      have h4' : ∀ o ∈ (processParas first isLast s ips').1, trimS o = o →
          isLast = true ∨ startsWithStr "Forward-Looking Statement".data o = false :=
        fun o ho => h4 o (by rw [hout1]; exact List.mem_cons_of_mem _ ho)
      refine paras_kits_cons_raw first isLast p ips' s hr1 ?_ ?_ (h1 p (by simp)) hrel2
        (ih s h1' h2' h4')
      · intro sn q hq
        exact processPara_hdr first isLast sn q (by rw [variant_trimS q p hq]; exact hA)
      · rcases Bool.or_eq_true_iff.mp hA with h | h
        · exact trimL_ne_of_trimS_ne p (startsWith_ne_nil _ _ h (by decide))
        · exact trimL_ne_of_trimS_ne p (startsWith_ne_nil _ _ h (by decide))
    · have hAf : (startsWithStr "#".data (trimS p) ||
          startsWithStr "---".data (trimS p)) = false := Bool.eq_false_iff.mpr hA
      by_cases hB : (startsWithStr "Forward-Looking Statement".data (trimS p) ||
          startsWithStr "**Forward-Looking Statement**".data (trimS p)) = true
      · cases hLast : isLast with
        | false =>
          rw [hLast] at h4 ih
          have hr1 : processPara first false s p = (none, s, false) := by
            rw [processPara_fls first false s p hAf hB]
            rfl
          have hout1 : (processParas first false s (p :: ips')).1 =
              (processParas first false s ips').1 := by
            rw [processParas_cons, hr1]
          have h4' : ∀ o ∈ (processParas first false s ips').1, trimS o = o →
              false = true ∨ startsWithStr "Forward-Looking Statement".data o = false := by
            intro o ho
            exact h4 o (by rw [hout1]; exact ho)
          exact paras_kits_cons_drop first false p ips' s (by rw [hr1]) (by rw [hr1])
            (ih s h1' h2' h4')
        | true =>
          rw [hLast] at ih
          have hr1 : processPara first true s p = (some p, s, false) := by
            rw [processPara_fls first true s p hAf hB]
            rfl
          have hout1 : (processParas first true s (p :: ips')).1 =
              p :: (processParas first true s ips').1 := by
            rw [processParas_cons, hr1]
          have h4' : ∀ o ∈ (processParas first true s ips').1, trimS o = o →
              true = true ∨ startsWithStr "Forward-Looking Statement".data o = false := by
            intro o _ _
            exact Or.inl rfl
          refine paras_kits_cons_raw first true p ips' s hr1 ?_ ?_ (h1 p (by simp)) hrel2
            (ih s h1' h2' h4')
          · intro sn q hq
            rw [processPara_fls first true sn q
              (by rw [variant_trimS q p hq]; exact hAf)
              (by rw [variant_trimS q p hq]; exact hB)]
            rfl
          · rcases Bool.or_eq_true_iff.mp hB with h | h
            · exact trimL_ne_of_trimS_ne p (startsWith_ne_nil _ _ h (by decide))
            · exact trimL_ne_of_trimS_ne p (startsWith_ne_nil _ _ h (by decide))
      · have hBf : (startsWithStr "Forward-Looking Statement".data (trimS p) ||
            startsWithStr "**Forward-Looking Statement**".data (trimS p)) = false :=
          Bool.eq_false_iff.mpr hB
        by_cases hC : isGenericClosing p = true
        · cases hLast : isLast with
          | false =>
            rw [hLast] at h4 ih
            have hr1 : processPara first false s p = (none, s, false) := by
              rw [processPara_clo first false s p hAf hBf hC]
              rfl
            have hout1 : (processParas first false s (p :: ips')).1 =
                (processParas first false s ips').1 := by
              rw [processParas_cons, hr1]
            have h4' : ∀ o ∈ (processParas first false s ips').1, trimS o = o →
                false = true ∨ startsWithStr "Forward-Looking Statement".data o = false := by
              intro o ho
              exact h4 o (by rw [hout1]; exact ho)
            exact paras_kits_cons_drop first false p ips' s (by rw [hr1]) (by rw [hr1])
              (ih s h1' h2' h4')
          | true =>
            rw [hLast] at ih
            have hr1 : processPara first true s p = (some p, s, false) := by
              rw [processPara_clo first true s p hAf hBf hC]
              rfl
            have h4' : ∀ o ∈ (processParas first true s ips').1, trimS o = o →
                true = true ∨ startsWithStr "Forward-Looking Statement".data o = false := by
              intro o _ _
              exact Or.inl rfl
            refine paras_kits_cons_raw first true p ips' s hr1 ?_
              (closing_trimL_ne p hC) (h1 p (by simp)) hrel2 (ih s h1' h2' h4')
            intro sn q hq
            have hC' : isGenericClosing q = true := by
              rcases hq with hh | hh | hh | hh
              · rw [hh]; exact hC
              · exact isGenericClosing_trim p q (Or.inl hh) hC
              · exact isGenericClosing_trim p q (Or.inr (Or.inl hh)) hC
              · exact isGenericClosing_trim p q (Or.inr (Or.inr hh)) hC
            rw [processPara_clo first true sn q
              (by rw [variant_trimS q p hq]; exact hAf)
              (by rw [variant_trimS q p hq]; exact hBf) hC']
            rfl
        · have hCf : isGenericClosing p = false := Bool.eq_false_iff.mpr hC
          by_cases hK : (processSentences first s (splitIntoSentences p)).1 = []
          · have hstep : processPara first isLast s p =
                (none, (processSentences first s (splitIntoSentences p)).2.1,
                 (processSentences first s (splitIntoSentences p)).2.2) := by
              rw [processPara_else first isLast s p hAf hBf hCf,
                if_pos (List.isEmpty_iff.mpr hK)]
            have hseen := processSentences_empty_seen (splitIntoSentences p) s first hK
            have hr1a : (processPara first isLast s p).1 = none := by rw [hstep]
            have hr1b : (processPara first isLast s p).2.1 = s := by rw [hstep]; exact hseen
            have hout1 : (processParas first isLast s (p :: ips')).1 =
                (processParas first isLast s ips').1 := by
              rw [processParas_cons, hr1a, hr1b]
            have h4' : ∀ o ∈ (processParas first isLast s ips').1, trimS o = o →
                isLast = true ∨ startsWithStr "Forward-Looking Statement".data o = false :=
              fun o ho => h4 o (by rw [hout1]; exact ho)
            exact paras_kits_cons_drop first isLast p ips' s hr1a hr1b (ih s h1' h2' h4')
          · have hRF := rebuilt_facts p first s hK hCf (h1 p (by simp))
            have hKe : ¬((processSentences first s (splitIntoSentences p)).1.isEmpty = true) :=
              fun hcon => hK (List.isEmpty_iff.mp hcon)
            have hstep : processPara first isLast s p =
                (some (List.intercalate " ".data
                  (processSentences first s (splitIntoSentences p)).1),
                 (processSentences first s (splitIntoSentences p)).2.1,
                 (processSentences first s (splitIntoSentences p)).2.2) := by
              rw [processPara_else first isLast s p hAf hBf hCf, if_neg hKe]
            have hout1 : (processParas first isLast s (p :: ips')).1 =
                List.intercalate " ".data
                  (processSentences first s (splitIntoSentences p)).1 ::
                (processParas first isLast
                  (processSentences first s (splitIntoSentences p)).2.1 ips').1 := by
              rw [processParas_cons, hstep]
            have hFLS := h4 (List.intercalate " ".data
                (processSentences first s (splitIntoSentences p)).1)
              (by rw [hout1]; simp) hRF.1
            have h4' : ∀ o ∈ (processParas first isLast
                (processSentences first s (splitIntoSentences p)).2.1 ips').1,
                trimS o = o →
                isLast = true ∨ startsWithStr "Forward-Looking Statement".data o = false :=
              fun o ho => h4 o (by rw [hout1]; exact List.mem_cons_of_mem _ ho)
            exact paras_kits_cons_reb first isLast p ips' s hAf hBf hCf (h1 p (by simp))
              hK hFLS hrel2
              (ih (processSentences first s (splitIntoSentences p)).2.1 h1' h2' h4')

theorem paras_facts_cons_drop (first isLast : Bool) (p : Str) (ips' s : List Str)
    (hr1a : (processPara first isLast s p).1 = none)
    (hIH : (∀ o ∈ (processParas first isLast
          (processPara first isLast s p).2.1 ips').1,
        trimL o ≠ [] ∧ hasSubstr "\n\n".data o = false) ∧
      (∀ o ∈ (processParas first isLast (processPara first isLast s p).2.1 ips').1,
        (trimS o = o ∧ o ≠ []) ∨ o ∈ ips') ∧
      (processParas first isLast (processPara first isLast s p).2.1 ips').1.Pairwise
        (fun a b => (∀ c ∈ a.getLast?, ¬(c = '\n')) ∧ (∀ c ∈ b.head?, ¬(c = '\n')))) :
    (∀ o ∈ (processParas first isLast s (p :: ips')).1,
        trimL o ≠ [] ∧ hasSubstr "\n\n".data o = false) ∧
      (∀ o ∈ (processParas first isLast s (p :: ips')).1,
        (trimS o = o ∧ o ≠ []) ∨ o ∈ p :: ips') ∧
      (processParas first isLast s (p :: ips')).1.Pairwise
        (fun a b => (∀ c ∈ a.getLast?, ¬(c = '\n')) ∧ (∀ c ∈ b.head?, ¬(c = '\n'))) := by
  have hout1 : (processParas first isLast s (p :: ips')).1 =
      (processParas first isLast (processPara first isLast s p).2.1 ips').1 := by
    rw [processParas_cons, hr1a]
  rw [hout1]
  refine ⟨hIH.1, ?_, hIH.2.2⟩
  intro o ho
  rcases hIH.2.1 o ho with h1 | h1
  · exact Or.inl h1
  · exact Or.inr (List.mem_cons_of_mem _ h1)

theorem paras_facts_cons_keep (first isLast : Bool) (p o1 : Str) (ips' s : List Str)
    (hr1a : (processPara first isLast s p).1 = some o1)
    (ho1prov : (trimS o1 = o1 ∧ o1 ≠ []) ∨ o1 = p)
    (ho1f : trimL o1 ≠ [] ∧ hasSubstr "\n\n".data o1 = false)
    (hEo1 : ips' ≠ [] → ∀ c ∈ o1.getLast?, ¬(c = '\n'))
    (hrel2 : ∀ z ∈ ips', (∀ c ∈ p.getLast?, ¬(c = '\n')) ∧ (∀ c ∈ z.head?, ¬(c = '\n')))
    (hIH : (∀ o ∈ (processParas first isLast
          (processPara first isLast s p).2.1 ips').1,
        trimL o ≠ [] ∧ hasSubstr "\n\n".data o = false) ∧
      (∀ o ∈ (processParas first isLast (processPara first isLast s p).2.1 ips').1,
        (trimS o = o ∧ o ≠ []) ∨ o ∈ ips') ∧
      (processParas first isLast (processPara first isLast s p).2.1 ips').1.Pairwise
        (fun a b => (∀ c ∈ a.getLast?, ¬(c = '\n')) ∧ (∀ c ∈ b.head?, ¬(c = '\n')))) :
    (∀ o ∈ (processParas first isLast s (p :: ips')).1,
        trimL o ≠ [] ∧ hasSubstr "\n\n".data o = false) ∧
      (∀ o ∈ (processParas first isLast s (p :: ips')).1,
        (trimS o = o ∧ o ≠ []) ∨ o ∈ p :: ips') ∧
      (processParas first isLast s (p :: ips')).1.Pairwise
        (fun a b => (∀ c ∈ a.getLast?, ¬(c = '\n')) ∧ (∀ c ∈ b.head?, ¬(c = '\n'))) := by
  have hout1 : (processParas first isLast s (p :: ips')).1 =
      o1 :: (processParas first isLast (processPara first isLast s p).2.1 ips').1 := by
    rw [processParas_cons, hr1a]
  rw [hout1]
  refine ⟨?_, ?_, ?_⟩
  · intro o ho
    rcases List.mem_cons.mp ho with h1 | h1
    · subst h1
      exact ho1f
    · exact hIH.1 o h1
  · intro o ho
    rcases List.mem_cons.mp ho with h1 | h1
    · subst h1
      rcases ho1prov with h2 | h2
      · exact Or.inl h2
      · exact Or.inr (by rw [h2]; simp)
    · rcases hIH.2.1 o h1 with h2 | h2
      · exact Or.inl h2
      · exact Or.inr (List.mem_cons_of_mem _ h2)
  · rw [List.pairwise_cons]
    refine ⟨?_, hIH.2.2⟩
    intro y hy
    have hipsne : ips' ≠ [] := by
      intro hcon
      rw [hcon] at hy
      have : (processParas first isLast
          (processPara first isLast s p).2.1 ([] : List Str)).1 = [] := rfl
      rw [this] at hy
      simp at hy
    refine ⟨hEo1 hipsne, ?_⟩
    rcases hIH.2.1 y hy with ⟨htry, _⟩ | h2
    · exact tf_head_not_nl y htry
    · exact (hrel2 y h2).2

theorem paras_facts (first isLast : Bool) :
    ∀ (ips s : List Str),
      (∀ p' ∈ ips, hasSubstr "\n\n".data p' = false) →
      ips.Pairwise (fun a b => (∀ c ∈ a.getLast?, ¬(c = '\n')) ∧
        (∀ c ∈ b.head?, ¬(c = '\n'))) →
      (∀ o ∈ (processParas first isLast s ips).1,
          trimL o ≠ [] ∧ hasSubstr "\n\n".data o = false) ∧
        (∀ o ∈ (processParas first isLast s ips).1, (trimS o = o ∧ o ≠ []) ∨ o ∈ ips) ∧
        (processParas first isLast s ips).1.Pairwise (fun a b =>
          (∀ c ∈ a.getLast?, ¬(c = '\n')) ∧ (∀ c ∈ b.head?, ¬(c = '\n'))) := by
  intro ips
  induction ips with
  | nil =>
    intro s _ _
    have hnil : (processParas first isLast s []).1 = [] := rfl
    refine ⟨?_, ?_, ?_⟩
    · intro o ho
      rw [hnil] at ho
      simp at ho
    · intro o ho
      rw [hnil] at ho
      simp at ho
    · rw [hnil]
      exact List.Pairwise.nil
  | cons p ips' ih =>
    intro s h1 h2
    have h1' : ∀ p' ∈ ips', hasSubstr "\n\n".data p' = false :=
      fun p' hp' => h1 p' (List.mem_cons_of_mem _ hp')
    have h2' := (List.pairwise_cons.mp h2).2
    have hrel2 := (List.pairwise_cons.mp h2).1
    by_cases hA : (startsWithStr "#".data (trimS p) ||
        startsWithStr "---".data (trimS p)) = true
    · have hr1 := processPara_hdr first isLast s p hA
      have htlne : trimL p ≠ [] := by
        rcases Bool.or_eq_true_iff.mp hA with h | h
        · exact trimL_ne_of_trimS_ne p (startsWith_ne_nil _ _ h (by decide))
        · exact trimL_ne_of_trimS_ne p (startsWith_ne_nil _ _ h (by decide))
      refine paras_facts_cons_keep first isLast p p ips' s (by rw [hr1]) (Or.inr rfl)
        ⟨htlne, h1 p (by simp)⟩ ?_ hrel2 ?_
      · intro hipsne
        cases hips : ips' with
        | nil => exact absurd hips hipsne
        | cons z zs => exact (hrel2 z (by rw [hips]; simp)).1
      · have hseen : (processPara first isLast s p).2.1 = s := by rw [hr1]
        rw [hseen]
        exact ih s h1' h2'
    · have hAf : (startsWithStr "#".data (trimS p) ||
          startsWithStr "---".data (trimS p)) = false := Bool.eq_false_iff.mpr hA
      by_cases hB : (startsWithStr "Forward-Looking Statement".data (trimS p) ||
          startsWithStr "**Forward-Looking Statement**".data (trimS p)) = true
      · have hr1 := processPara_fls first isLast s p hAf hB
        have htlne : trimL p ≠ [] := by
          rcases Bool.or_eq_true_iff.mp hB with h | h
          · exact trimL_ne_of_trimS_ne p (startsWith_ne_nil _ _ h (by decide))
          · exact trimL_ne_of_trimS_ne p (startsWith_ne_nil _ _ h (by decide))
        have hseen : (processPara first isLast s p).2.1 = s := by rw [hr1]
        cases hLast : isLast with
        | false =>
          rw [hLast] at hr1 hseen ih
          refine paras_facts_cons_drop first false p ips' s (by rw [hr1]; rfl) ?_
          rw [hseen]
          exact ih s h1' h2'
        | true =>
          rw [hLast] at hr1 hseen ih
          refine paras_facts_cons_keep first true p p ips' s (by rw [hr1]; rfl) (Or.inr rfl)
            ⟨htlne, h1 p (by simp)⟩ ?_ hrel2 ?_
          · intro hipsne
            cases hips : ips' with
            | nil => exact absurd hips hipsne
            | cons z zs => exact (hrel2 z (by rw [hips]; simp)).1
          · rw [hseen]
            exact ih s h1' h2'
      · have hBf : (startsWithStr "Forward-Looking Statement".data (trimS p) ||
            startsWithStr "**Forward-Looking Statement**".data (trimS p)) = false :=
          Bool.eq_false_iff.mpr hB
        by_cases hC : isGenericClosing p = true
        · have hr1 := processPara_clo first isLast s p hAf hBf hC
          have hseen : (processPara first isLast s p).2.1 = s := by rw [hr1]
          cases hLast : isLast with
          | false =>
            rw [hLast] at hr1 hseen ih
            refine paras_facts_cons_drop first false p ips' s (by rw [hr1]; rfl) ?_
            rw [hseen]
            exact ih s h1' h2'
          | true =>
            rw [hLast] at hr1 hseen ih
            refine paras_facts_cons_keep first true p p ips' s (by rw [hr1]; rfl) (Or.inr rfl)
              ⟨closing_trimL_ne p hC, h1 p (by simp)⟩ ?_ hrel2 ?_
            · intro hipsne
              cases hips : ips' with
              | nil => exact absurd hips hipsne
              | cons z zs => exact (hrel2 z (by rw [hips]; simp)).1
            · rw [hseen]
              exact ih s h1' h2'
        · have hCf : isGenericClosing p = false := Bool.eq_false_iff.mpr hC
          by_cases hK : (processSentences first s (splitIntoSentences p)).1 = []
          · have hstep : processPara first isLast s p =
                (none, (processSentences first s (splitIntoSentences p)).2.1,
                 (processSentences first s (splitIntoSentences p)).2.2) := by
              rw [processPara_else first isLast s p hAf hBf hCf,
                if_pos (List.isEmpty_iff.mpr hK)]
            refine paras_facts_cons_drop first isLast p ips' s (by rw [hstep]) ?_
            have hseen : (processPara first isLast s p).2.1 =
                (processSentences first s (splitIntoSentences p)).2.1 := by rw [hstep]
            rw [hseen]
            exact ih _ h1' h2'
          · have hRF := rebuilt_facts p first s hK hCf (h1 p (by simp))
            have hKe : ¬((processSentences first s
                (splitIntoSentences p)).1.isEmpty = true) :=
              fun hcon => hK (List.isEmpty_iff.mp hcon)
            have hstep : processPara first isLast s p =
                (some (List.intercalate " ".data
                  (processSentences first s (splitIntoSentences p)).1),
                 (processSentences first s (splitIntoSentences p)).2.1,
                 (processSentences first s (splitIntoSentences p)).2.2) := by
              rw [processPara_else first isLast s p hAf hBf hCf, if_neg hKe]
            refine paras_facts_cons_keep first isLast p _ ips' s (by rw [hstep])
              (Or.inl ⟨hRF.1, hRF.2.2.2.2.1⟩) ?_ ?_ hrel2 ?_
            · refine ⟨?_, hRF.2.2.2.2.2⟩
              rw [(of_trimS_eq_self _ hRF.1).1]
              exact hRF.2.2.2.2.1
            · intro _
              exact tf_last_not_nl _ hRF.1
            · have hseen : (processPara first isLast s p).2.1 =
                  (processSentences first s (splitIntoSentences p)).2.1 := by rw [hstep]
              rw [hseen]
              exact ih _ h1' h2'

theorem processSection_eq (first isLast : Bool) (seen : List Str) (content : Str) :
    processSection first isLast seen content =
      (if 100 < (trimS (List.intercalate "\n\n".data
          (processParas first isLast seen (paraParts content)).1)).length
       then trimS (List.intercalate "\n\n".data
          (processParas first isLast seen (paraParts content)).1) else content,
       (processParas first isLast seen (paraParts content)).2.1,
       (processParas first isLast seen (paraParts content)).2.2,
       decide (100 < (trimS (List.intercalate "\n\n".data
          (processParas first isLast seen (paraParts content)).1)).length)) := rfl

theorem processSection_stable (first isLast : Bool) (content : Str) (s : List Str)
    (hrepl : 100 < (trimS (List.intercalate "\n\n".data
      (processParas first isLast s (paraParts content)).1)).length)
    (hFLSsec : isLast = false →
      ∀ o' ∈ paraParts (trimS (List.intercalate "\n\n".data
        (processParas first isLast s (paraParts content)).1)),
        startsWithStr "Forward-Looking Statement".data (trimS o') = false) :
    ∀ sn, (∀ g ∈ sn, g ∈ s) →
      (processSection first isLast sn (trimS (List.intercalate "\n\n".data
          (processParas first isLast s (paraParts content)).1))).1 =
        trimS (List.intercalate "\n\n".data
          (processParas first isLast s (paraParts content)).1) ∧
      (processSection first isLast sn (trimS (List.intercalate "\n\n".data
          (processParas first isLast s (paraParts content)).1))).2.2.1 = false ∧
      (∀ g ∈ (processSection first isLast sn (trimS (List.intercalate "\n\n".data
          (processParas first isLast s (paraParts content)).1))).2.1,
        g ∈ (processParas first isLast s (paraParts content)).2.1) ∧
      (sn = s → isLast = false →
        processSection first isLast sn (trimS (List.intercalate "\n\n".data
            (processParas first isLast s (paraParts content)).1)) =
          (trimS (List.intercalate "\n\n".data
            (processParas first isLast s (paraParts content)).1),
           (processParas first isLast s (paraParts content)).2.1, false, true)) := by
  intro sn hsub
  have hpf := paraParts_facts content
  have hfb := paras_facts first isLast (paraParts content) s hpf.1 hpf.2
  have houtne : (processParas first isLast s (paraParts content)).1 ≠ [] := by
    intro hcon
    rw [hcon] at hrepl
    have hz : trimS (List.intercalate "\n\n".data ([] : List Str)) = [] := rfl
    rw [hz] at hrepl
    simp at hrepl
  have hsplit := paraResplit _ houtne hfb.1 hfb.2.2
  have h4 : ∀ o ∈ (processParas first isLast s (paraParts content)).1, trimS o = o →
      isLast = true ∨ startsWithStr "Forward-Looking Statement".data o = false := by
    intro o ho htr
    by_cases hL : isLast = true
    · exact Or.inl hL
    · right
      have hLf : isLast = false := Bool.eq_false_iff.mpr hL
      have hfix := of_trimS_eq_self o htr
      have hmem : o ∈ paraParts (trimS (List.intercalate "\n\n".data
          (processParas first isLast s (paraParts content)).1)) := by
        rw [hsplit]
        exact mem_edgeTrim_of_fixed _ o ho hfix.1 hfix.2 htr
      have hres := hFLSsec hLf o hmem
      rw [htr] at hres
      exact hres
  have hkits := paras_kits first isLast (paraParts content) s hpf.1 hpf.2 h4
  have hce := trimS_calate2 _ houtne (fun o ho => (hfb.1 o ho).1)
  have hkr := kit_run first isLast (processParas first isLast s (paraParts content)).1 s
    (processParas first isLast s (paraParts content)).2.1 hkits.1
    (edgeTrimParas (processParas first isLast s (paraParts content)).1)
    (edgeTrim_variant _) sn hsub
  have hsec := processSection_eq first isLast sn (trimS (List.intercalate "\n\n".data
    (processParas first isLast s (paraParts content)).1))
  rw [hsplit, hkr.1] at hsec
  have hnc : trimS (List.intercalate "\n\n".data
      (edgeTrimParas (processParas first isLast s (paraParts content)).1)) =
      trimS (List.intercalate "\n\n".data
        (processParas first isLast s (paraParts content)).1) := by
    rw [← hce, trimS_idem]
  rw [hnc, if_pos hrepl, decide_eq_true hrepl] at hsec
  refine ⟨by rw [hsec], by rw [hsec]; exact hkr.2.1, ?_, ?_⟩
  · intro g hg
    rw [hsec] at hg
    exact hkr.2.2.1 g hg
  · intro he hLf
    have hfull := hkr.2.2.2 he hLf
    rw [hfull] at hsec
    exact hsec

theorem dedupGo_cons (n i : Nat) (seen : List Str) (first : Bool) (sec : Sec)
    (rest : List Sec) :
    dedupGo n i seen first (sec :: rest) =
      if isSkippedSection sec then sec :: dedupGo n (i + 1) seen first rest
      else { title := sec.title,
             content := (processSection first (i == n - 1) seen sec.content).1 } ::
        dedupGo n (i + 1) (processSection first (i == n - 1) seen sec.content).2.1
          false rest := rfl

theorem cleanGo_cons (strict : Bool) (n i : Nat) (seen : List Str) (first : Bool)
    (sec : Sec) (rest : List Sec) :
    cleanGo strict n i seen first (sec :: rest) =
      if isSkippedSection sec then cleanGo strict n (i + 1) seen first rest
      else ((!(processSection first (i == n - 1) seen sec.content).2.2.1 ||
        (!strict && ((processSection first (i == n - 1) seen sec.content).1 ==
          sec.content))) &&
        cleanGo strict n (i + 1)
          (processSection first (i == n - 1) seen sec.content).2.1 false rest) := rfl

theorem flsGo_cons (n i : Nat) (sin : Sec) (rin : List Sec) (sout : Sec)
    (rout : List Sec) :
    flsGo n i (sin :: rin) (sout :: rout) =
      ((i == n - 1 || sin.content == sout.content ||
        (paraParts sout.content).all (fun p =>
          !(startsWithStr "Forward-Looking Statement".data (trimS p)))) &&
       flsGo n (i + 1) rin rout) := rfl

theorem dedupGo_length (n : Nat) :
    ∀ (rin : List Sec) (i : Nat) (seen : List Str) (first : Bool),
      (dedupGo n i seen first rin).length = rin.length := by
  intro rin
  induction rin with
  | nil => intro i seen first; rfl
  | cons sec rest ih =>
    intro i seen first
    rw [dedupGo_cons]
    by_cases hskip : isSkippedSection sec = true
    · rw [if_pos hskip]
      simp only [List.length_cons]
      rw [ih]
    · rw [if_neg (by simp [hskip])]
      simp only [List.length_cons]
      rw [ih]

theorem repl_ne_placeholder (x : Str) (h : 100 < x.length) :
    (x == placeholderStr) = false := by
  cases hb : x == placeholderStr with
  | false => rfl
  | true =>
    exfalso
    have hx : x = placeholderStr := by
      have := hb
      rwa [beq_iff_eq] at this
    rw [hx] at h
    have : placeholderStr.length = 28 := rfl
    rw [this] at h
    omega

theorem out_not_skipped (sec : Sec) (c : Str) (hskip : isSkippedSection sec = false)
    (hc : c = sec.content ∨ 100 < c.length) :
    isSkippedSection { title := sec.title, content := c } = false := by
  unfold isSkippedSection at hskip ⊢
  rcases Bool.or_eq_false_iff.mp hskip with ⟨h1, h2⟩
  apply Bool.or_eq_false_iff.mpr
  refine ⟨?_, h2⟩
  rcases hc with h3 | h3
  · rw [h3]
    exact h1
  · exact repl_ne_placeholder c h3

theorem dedupGo_stable (n : Nat) :
    ∀ (rin : List Sec) (i : Nat) (seen : List Str) (first : Bool),
      i + rin.length = n →
      flsGo n i rin (dedupGo n i seen first rin) = true →
      dedupGo n i seen first (dedupGo n i seen first rin) =
        dedupGo n i seen first rin ∧
      cleanGo false n i seen first (dedupGo n i seen first rin) = true := by
  intro rin
  induction rin with
  | nil =>
    intro i seen first _ _
    exact ⟨rfl, rfl⟩
  | cons sec rest ih =>
    intro i seen first hlen hfls
    have hlen' : (i + 1) + rest.length = n := by
      simp only [List.length_cons] at hlen
      omega
    by_cases hskip : isSkippedSection sec = true
    · have hD : dedupGo n i seen first (sec :: rest) =
          sec :: dedupGo n (i + 1) seen first rest := by
        rw [dedupGo_cons, if_pos hskip]
      rw [hD] at hfls
      rw [flsGo_cons] at hfls
      rw [Bool.and_eq_true] at hfls
      have hftail := hfls.2
      have hIH := ih (i + 1) seen first hlen' hftail
      constructor
      · rw [hD, dedupGo_cons, if_pos hskip, hIH.1]
      · rw [hD, cleanGo_cons, if_pos hskip]
        exact hIH.2
    · have hskipf : isSkippedSection sec = false := Bool.eq_false_iff.mpr hskip
      have hD : dedupGo n i seen first (sec :: rest) =
          { title := sec.title,
            content := (processSection first (i == n - 1) seen sec.content).1 } ::
          dedupGo n (i + 1)
            (processSection first (i == n - 1) seen sec.content).2.1 false rest := by
        rw [dedupGo_cons, if_neg hskip]
      rw [hD] at hfls
      rw [flsGo_cons] at hfls
      rw [Bool.and_eq_true] at hfls
      obtain ⟨hface, hftail⟩ := hfls
      dsimp only at hface
      have hIH := ih (i + 1)
        (processSection first (i == n - 1) seen sec.content).2.1 false hlen' hftail
      by_cases hun : (processSection first (i == n - 1) seen sec.content).1 = sec.content
      · -- the pass left this section unmodified: the rerun repeats it verbatim
        have hH : ({ title := sec.title,
                     content := (processSection first (i == n - 1) seen
                       sec.content).1 } : Sec) = sec := by
          rw [hun]
        constructor
        · rw [hD, hH, dedupGo_cons, if_neg hskip, hH, hIH.1]
        · rw [hD, hH, cleanGo_cons, if_neg hskip]
          have hbeq : ((processSection first (i == n - 1) seen sec.content).1 ==
              sec.content) = true := by
            rw [hun]
            exact beq_self_eq_true _
          rw [hbeq, hIH.2]
          simp
      · -- the guard fired and replaced the content
        have hg : 100 < (trimS (List.intercalate "\n\n".data
            (processParas first (i == n - 1) seen (paraParts sec.content)).1)).length := by
          by_contra hgneg
          apply hun
          rw [processSection_eq, if_neg hgneg]
        have hr1C : (processSection first (i == n - 1) seen sec.content).1 =
            trimS (List.intercalate "\n\n".data
              (processParas first (i == n - 1) seen (paraParts sec.content)).1) := by
          rw [processSection_eq, if_pos hg]
        have hFLSarg : (i == n - 1) = false →
            ∀ o' ∈ paraParts (trimS (List.intercalate "\n\n".data
              (processParas first (i == n - 1) seen (paraParts sec.content)).1)),
              startsWithStr "Forward-Looking Statement".data (trimS o') = false := by
          intro hLf o' hmem
          have hf2 := hface
          rw [hr1C] at hf2
          rcases Bool.or_eq_true_iff.mp hf2 with h1 | h2
          · rcases Bool.or_eq_true_iff.mp h1 with h3 | h4
            · rw [hLf] at h3
              exact absurd h3 (by simp)
            · exact absurd (hr1C.trans (beq_iff_eq.mp h4).symm) hun
          · have hres := List.all_eq_true.mp h2 o' hmem
            simpa using hres
        have hstab := processSection_stable first (i == n - 1) sec.content seen hg
          hFLSarg seen (fun g hgm => hgm)
        have hH2 : isSkippedSection { title := sec.title,
                                      content := (processSection first (i == n - 1)
                                        seen sec.content).1 } = false :=
          out_not_skipped sec _ hskipf (Or.inr (by rw [hr1C]; exact hg))
        have hseq : (processSection first (i == n - 1) seen sec.content).2.1 =
            (processParas first (i == n - 1) seen (paraParts sec.content)).2.1 := rfl
        constructor
        · rw [hD, dedupGo_cons, if_neg (by simp [hH2])]
          dsimp only
          rw [hr1C, hstab.1]
          by_cases hLv : (i == n - 1) = true
          · have hi : i = n - 1 := beq_iff_eq.mp hLv
            have hrest : rest = [] := by
              have : rest.length = 0 := by omega
              exact List.length_eq_zero.mp this
            subst hrest
            rfl
          · have hLvf : (i == n - 1) = false := Bool.eq_false_iff.mpr hLv
            have hfull := hstab.2.2.2 rfl hLvf
            rw [hfull]
            dsimp only
            rw [hseq] at hIH
            rw [hseq, hIH.1]
        · rw [hD, cleanGo_cons, if_neg (by simp [hH2])]
          dsimp only
          rw [hr1C, hstab.2.1]
          simp only [Bool.not_false, Bool.true_or, Bool.true_and]
          by_cases hLv : (i == n - 1) = true
          · have hi : i = n - 1 := beq_iff_eq.mp hLv
            have hrest : rest = [] := by
              have : rest.length = 0 := by omega
              exact List.length_eq_zero.mp this
            subst hrest
            rfl
          · have hLvf : (i == n - 1) = false := Bool.eq_false_iff.mpr hLv
            have hfull := hstab.2.2.2 rfl hLvf
            rw [hfull]
            dsimp only
            rw [hseq] at hIH
            rw [hseq]
            exact hIH.2

/-- C7 (amended, part 2): the corrected idempotence and threshold
property.  Provided that in every non-final section the first run
modified, no surviving paragraph begins with the bare
Forward-Looking-Statement prefix (flsSafeB), a second run of
deduplicateReportSections deletes nothing further and leaves every
section's content unchanged; and replaying the dedup finds no surviving
above-threshold sentence except in sections the pass left unmodified (in
particular those protected by the 100-character minimum-content guard). -/
theorem C7_dedup_amended (sections : List Sec)
    (h : flsSafeB sections (deduplicateReportSections sections) = true) :
    deduplicateReportSections (deduplicateReportSections sections) =
      deduplicateReportSections sections ∧
    cleanExceptGuarded (deduplicateReportSections sections) = true := by
  unfold deduplicateReportSections cleanExceptGuarded
  have hlen := dedupGo_length sections.length sections 0 [] true
  rw [hlen]
  unfold flsSafeB at h
  exact dedupGo_stable sections.length sections 0 [] true (by simp) h

/-- C7 witness: the amended idempotence and threshold property hold on the
concrete two-section report cexB, whose hypothesis is discharged by
evaluation. -/
theorem C7_dedup_amended_witness :
    flsSafeB cexB (deduplicateReportSections cexB) = true ∧
    (deduplicateReportSections (deduplicateReportSections cexB) =
       deduplicateReportSections cexB ∧
     cleanExceptGuarded (deduplicateReportSections cexB) = true) :=
  ⟨by decide, C7_dedup_amended cexB (by decide)⟩

/-- Simulation of batch gathering under a mid-run cancellation signal:
the run with no signal succeeds with a final tick, and the run whose
signal is first observed at tick N aborts exactly when some checkpoint of
the stage (ticks from the entry tick up to the final tick, exclusive)
observes it. -/
theorem gatherBatches_sig (search : Nat → Except Unit (List SearchResult))
    (maxS sps : Nat) (fetch : Str → Str) :
    ∀ (batches : List (List Str)) (sources : List ResearchSource) (seen : List Str)
      (ctr ts t : Nat) (out : List ResearchSource × List Str × Nat × Nat × Nat),
      gatherBatches none search maxS sps fetch batches (sources, seen, ctr, ts, t) =
        .ok out →
      t ≤ out.2.2.2.2 ∧
      ∀ N, gatherBatches (some N) search maxS sps fetch batches
          (sources, seen, ctr, ts, t) =
        if t < out.2.2.2.2 ∧ N < out.2.2.2.2 then .error RunError.cancelled
        else .ok out := by
  intro batches
  induction batches with
  | nil =>
    intro sources seen ctr ts t out hok
    simp only [gatherBatches, Except.ok.injEq] at hok
    subst hok
    dsimp only
    refine ⟨Nat.le_refl t, ?_⟩
    intro N
    rw [if_neg (by omega : ¬(t < t ∧ N < t))]
    rfl
  | cons b rest ih =>
    intro sources seen ctr ts t out hok
    simp only [gatherBatches, aborted_none, Bool.false_eq_true, if_false] at hok
    by_cases h2 : maxS ≤ sources.length
    · rw [if_pos h2, Except.ok.injEq] at hok
      subst hok
      dsimp only
      refine ⟨by omega, ?_⟩
      intro N
      simp only [gatherBatches]
      by_cases hN : N ≤ t
      · rw [if_pos ((aborted_some_iff N t).mpr hN),
          if_pos (by omega : t < t + 1 ∧ N < t + 1)]
      · rw [if_neg (aborted_some_not N t hN), if_pos h2,
          if_neg (by omega : ¬(t < t + 1 ∧ N < t + 1))]
    · rw [if_neg h2] at hok
      obtain ⟨hle, hN⟩ := ih _ _ _ _ _ out hok
      refine ⟨by omega, ?_⟩
      intro N
      simp only [gatherBatches]
      by_cases hNle : N ≤ t
      · rw [if_pos ((aborted_some_iff N t).mpr hNle),
          if_pos (by omega : t < out.2.2.2.2 ∧ N < out.2.2.2.2)]
      · rw [if_neg (aborted_some_not N t hNle), if_neg h2, hN N]
        by_cases hc : N < out.2.2.2.2
        · rw [if_pos (by omega : t + 1 < out.2.2.2.2 ∧ N < out.2.2.2.2),
            if_pos (by omega : t < out.2.2.2.2 ∧ N < out.2.2.2.2)]
        · rw [if_neg (by omega : ¬(t + 1 < out.2.2.2.2 ∧ N < out.2.2.2.2)),
            if_neg (by omega : ¬(t < out.2.2.2.2 ∧ N < out.2.2.2.2))]

/-- Simulation of one gap-filling query under a mid-run cancellation
signal: the stage advances the tick by exactly one and aborts exactly
when its single checkpoint observes the signal. -/
theorem gapQueryStep_sig (search : Nat → Except Unit (List SearchResult))
    (fetch : Str → Str) (ns : List ResearchSource) (seen : List Str) (ctr t : Nat)
    (out : List ResearchSource × List Str × Nat × Nat)
    (hok : gapQueryStep none search fetch (ns, seen, ctr, t) = .ok out) :
    out.2.2.2 = t + 1 ∧
    ∀ N, gapQueryStep (some N) search fetch (ns, seen, ctr, t) =
      if N ≤ t then .error RunError.cancelled else .ok out := by
  simp only [gapQueryStep, aborted_none, Bool.false_eq_true, if_false] at hok
  cases hsr : search ctr with
  | error e =>
    rw [hsr] at hok
    rw [Except.ok.injEq] at hok
    subst hok
    refine ⟨rfl, ?_⟩
    intro N
    by_cases hN : N ≤ t
    · rw [if_pos hN]
      simp only [gapQueryStep]
      rw [if_pos ((aborted_some_iff N t).mpr hN)]
    · rw [if_neg hN]
      simp only [gapQueryStep]
      rw [if_neg (aborted_some_not N t hN), hsr]
  | ok results =>
    rw [hsr] at hok
    rw [Except.ok.injEq] at hok
    subst hok
    refine ⟨rfl, ?_⟩
    intro N
    by_cases hN : N ≤ t
    · rw [if_pos hN]
      simp only [gapQueryStep]
      rw [if_pos ((aborted_some_iff N t).mpr hN)]
    · rw [if_neg hN]
      simp only [gapQueryStep]
      rw [if_neg (aborted_some_not N t hN), hsr]

/-- Simulation of the gap-query fold under a mid-run cancellation signal. -/
theorem gapQueriesFold_sig (search : Nat → Except Unit (List SearchResult))
    (fetch : Str → Str) :
    ∀ (qs : List Str) (ns : List ResearchSource) (seen : List Str) (ctr t : Nat)
      (out : List ResearchSource × List Str × Nat × Nat),
      gapQueriesFold none search fetch qs (ns, seen, ctr, t) = .ok out →
      t ≤ out.2.2.2 ∧
      ∀ N, gapQueriesFold (some N) search fetch qs (ns, seen, ctr, t) =
        if t < out.2.2.2 ∧ N < out.2.2.2 then .error RunError.cancelled
        else .ok out := by
  intro qs
  induction qs with
  | nil =>
    intro ns seen ctr t out hok
    simp only [gapQueriesFold, Except.ok.injEq] at hok
    subst hok
    dsimp only
    refine ⟨Nat.le_refl t, ?_⟩
    intro N
    rw [if_neg (by omega : ¬(t < t ∧ N < t))]
    rfl
  | cons q rest ih =>
    intro ns seen ctr t out hok
    simp only [gapQueriesFold] at hok
    cases hstep : gapQueryStep none search fetch (ns, seen, ctr, t) with
    | error e => rw [hstep] at hok; simp at hok
    | ok st1 =>
      rw [hstep] at hok
      obtain ⟨ns1, seen1, ctr1, t1⟩ := st1
      obtain ⟨hstTick, hstepN⟩ := gapQueryStep_sig search fetch ns seen ctr t _ hstep
      dsimp only at hstTick
      subst hstTick
      obtain ⟨hle, hN⟩ := ih ns1 seen1 ctr1 (t + 1) out hok
      refine ⟨by omega, ?_⟩
      intro N
      simp only [gapQueriesFold]
      rw [hstepN N]
      by_cases hNle : N ≤ t
      · rw [if_pos hNle]
        dsimp only
        rw [if_pos (by omega : t < out.2.2.2 ∧ N < out.2.2.2)]
      · rw [if_neg hNle]
        dsimp only
        rw [hN N]
        by_cases hc : N < out.2.2.2
        · rw [if_pos (by omega : t + 1 < out.2.2.2 ∧ N < out.2.2.2),
            if_pos (by omega : t < out.2.2.2 ∧ N < out.2.2.2)]
        · rw [if_neg (by omega : ¬(t + 1 < out.2.2.2 ∧ N < out.2.2.2)),
            if_neg (by omega : ¬(t < out.2.2.2 ∧ N < out.2.2.2))]

/-- Simulation of the per-gap search stage under a mid-run cancellation
signal. -/
theorem searchForGaps_sig (search : Nat → Except Unit (List SearchResult))
    (fetch : Str → Str) (qpg : Nat) :
    ∀ (gaps : List KnowledgeGap) (ns : List ResearchSource) (seen : List Str)
      (ctr t : Nat) (out : List ResearchSource × List Str × Nat × Nat),
      searchForGaps none search fetch qpg gaps (ns, seen, ctr, t) = .ok out →
      t ≤ out.2.2.2 ∧
      ∀ N, searchForGaps (some N) search fetch qpg gaps (ns, seen, ctr, t) =
        if t < out.2.2.2 ∧ N < out.2.2.2 then .error RunError.cancelled
        else .ok out := by
  intro gaps
  induction gaps with
  | nil =>
    intro ns seen ctr t out hok
    simp only [searchForGaps, Except.ok.injEq] at hok
    subst hok
    dsimp only
    refine ⟨Nat.le_refl t, ?_⟩
    intro N
    rw [if_neg (by omega : ¬(t < t ∧ N < t))]
    rfl
  | cons g rest ih =>
    intro ns seen ctr t out hok
    simp only [searchForGaps] at hok
    cases hq : gapQueriesFold none search fetch (g.suggestedQueries.take qpg)
        (ns, seen, ctr, t) with
    | error e => rw [hq] at hok; simp at hok
    | ok st1 =>
      rw [hq] at hok
      obtain ⟨ns1, seen1, ctr1, t1⟩ := st1
      obtain ⟨hle1, hqN⟩ := gapQueriesFold_sig search fetch _ ns seen ctr t _ hq
      dsimp only at hle1 hqN
      obtain ⟨hle2, hN⟩ := ih ns1 seen1 ctr1 t1 out hok
      refine ⟨by omega, ?_⟩
      intro N
      simp only [searchForGaps]
      rw [hqN N]
      by_cases hc1 : t < t1 ∧ N < t1
      · rw [if_pos hc1]
        dsimp only
        rw [if_pos (by omega : t < out.2.2.2 ∧ N < out.2.2.2)]
      · rw [if_neg hc1]
        dsimp only
        rw [hN N]
        by_cases hc2 : t1 < out.2.2.2 ∧ N < out.2.2.2
        · rw [if_pos hc2, if_pos (by omega : t < out.2.2.2 ∧ N < out.2.2.2)]
        · rw [if_neg hc2, if_neg (by omega : ¬(t < out.2.2.2 ∧ N < out.2.2.2))]

/-- Simulation of the per-level synthesis checkpoints under a mid-run
cancellation signal: the first checkpoint sits at the entry tick, so the
stage aborts exactly when the signal is observed before its final tick. -/
theorem synthChecks_sig (levels t tS : Nat)
    (hok : synthChecks none levels t = .ok tS) :
    t < tS ∧
    ∀ N, synthChecks (some N) levels t =
      if N < tS then .error RunError.cancelled else .ok tS := by
  rw [synthChecks_none, Except.ok.injEq] at hok
  subst hok
  constructor
  · split_ifs <;> omega
  · intro N
    simp only [synthChecks, aborted, decide_eq_true_eq]
    split_ifs <;> first | rfl | omega | (exfalso; omega)

/-- Simulation of the per-section report checkpoints under a mid-run
cancellation signal. -/
theorem reportChecks_sig :
    ∀ (secs : List (Str × Str)) (t t2 : Nat),
      reportChecks none t secs = .ok t2 →
      t ≤ t2 ∧
      ∀ N, reportChecks (some N) t secs =
        if t < t2 ∧ N < t2 then .error RunError.cancelled else .ok t2 := by
  intro secs
  induction secs with
  | nil =>
    intro t t2 hok
    simp only [reportChecks, Except.ok.injEq] at hok
    subst hok
    refine ⟨Nat.le_refl t, ?_⟩
    intro N
    rw [if_neg (by omega : ¬(t < t ∧ N < t))]
    rfl
  | cons s rest ih =>
    intro t t2 hok
    simp only [reportChecks, aborted_none, Bool.false_eq_true, if_false] at hok
    obtain ⟨hle, hN⟩ := ih (t + 1) t2 hok
    refine ⟨by omega, ?_⟩
    intro N
    simp only [reportChecks]
    by_cases hNle : N ≤ t
    · rw [if_pos ((aborted_some_iff N t).mpr hNle),
        if_pos (by omega : t < t2 ∧ N < t2)]
    · rw [if_neg (aborted_some_not N t hNle), hN N]
      by_cases hc : N < t2
      · rw [if_pos (by omega : t + 1 < t2 ∧ N < t2),
          if_pos (by omega : t < t2 ∧ N < t2)]
      · rw [if_neg (by omega : ¬(t + 1 < t2 ∧ N < t2)),
          if_neg (by omega : ¬(t < t2 ∧ N < t2))]

/-- Simulation of report generation under a mid-run cancellation signal:
in both report modes the first checkpoint sits at the entry tick, so the
stage aborts exactly when the signal is observed before its final tick. -/
theorem report_sig (o : Oracle) (cfg : ResearchConfig) (t : Nat) (q rq : Str)
    (sources : List ResearchSource) (rep : ResearchReport) (t2 : Nat)
    (hok : generateComprehensiveReport o none t cfg q rq sources = .ok (rep, t2)) :
    t < t2 ∧
    ∀ N, generateComprehensiveReport o (some N) t cfg q rq sources =
      if N < t2 then .error RunError.cancelled else .ok (rep, t2) := by
  unfold generateComprehensiveReport at hok
  cases hdl : cfg.reportDetailLevel with
  | standard =>
    rw [hdl] at hok
    dsimp only at hok
    simp only [aborted_none, Bool.false_eq_true, if_false, Except.ok.injEq,
      Prod.mk.injEq] at hok
    obtain ⟨hrep, ht2⟩ := hok
    subst ht2
    subst hrep
    refine ⟨by omega, ?_⟩
    intro N
    unfold generateComprehensiveReport
    rw [hdl]
    dsimp only
    by_cases hN : N ≤ t
    · rw [if_pos ((aborted_some_iff N t).mpr hN), if_pos (by omega : N < t + 1)]
    · rw [if_neg (aborted_some_not N t hN), if_neg (by omega : ¬(N < t + 1))]
  | detailed =>
    rw [hdl] at hok
    dsimp only at hok
    simp only [aborted_none, Bool.false_eq_true, if_false] at hok
    cases hrc : reportChecks none (t + 1) o.reportSections with
    | error e => rw [hrc] at hok; simp at hok
    | ok tr =>
      rw [hrc] at hok
      dsimp only at hok
      rw [Except.ok.injEq, Prod.mk.injEq] at hok
      obtain ⟨hrep, ht2⟩ := hok
      subst ht2
      subst hrep
      obtain ⟨hle, hN⟩ := reportChecks_sig o.reportSections (t + 1) tr hrc
      refine ⟨by omega, ?_⟩
      intro N
      unfold generateComprehensiveReport
      rw [hdl]
      dsimp only
      by_cases hNle : N ≤ t
      · rw [if_pos ((aborted_some_iff N t).mpr hNle), if_pos (by omega : N < tr)]
      · rw [if_neg (aborted_some_not N t hNle), hN N]
        by_cases hc : t + 1 < tr ∧ N < tr
        · rw [if_pos hc]
          dsimp only
          rw [if_pos (by omega : N < tr)]
        · rw [if_neg hc]
          dsimp only
          rw [if_neg (by omega : ¬(N < tr))]
  | comprehensive =>
    rw [hdl] at hok
    dsimp only at hok
    simp only [aborted_none, Bool.false_eq_true, if_false] at hok
    cases hrc : reportChecks none (t + 1) o.reportSections with
    | error e => rw [hrc] at hok; simp at hok
    | ok tr =>
      rw [hrc] at hok
      dsimp only at hok
      rw [Except.ok.injEq, Prod.mk.injEq] at hok
      obtain ⟨hrep, ht2⟩ := hok
      subst ht2
      subst hrep
      obtain ⟨hle, hN⟩ := reportChecks_sig o.reportSections (t + 1) tr hrc
      refine ⟨by omega, ?_⟩
      intro N
      unfold generateComprehensiveReport
      rw [hdl]
      dsimp only
      by_cases hNle : N ≤ t
      · rw [if_pos ((aborted_some_iff N t).mpr hNle), if_pos (by omega : N < tr)]
      · rw [if_neg (aborted_some_not N t hNle), hN N]
        by_cases hc : t + 1 < tr ∧ N < tr
        · rw [if_pos hc]
          dsimp only
          rw [if_pos (by omega : N < tr)]
        · rw [if_neg hc]
          dsimp only
          rw [if_neg (by omega : ¬(N < tr))]

/-- Simulation of the adaptive synthesis loop under a mid-run
cancellation signal: the loop with no signal succeeds with a final tick,
and the loop whose signal is first observed at tick N aborts exactly when
one of its checkpoints (the per-iteration checkpoint, the per-level
synthesis checkpoints, or a gap-search checkpoint) observes it. -/
theorem adaptiveLoop_sig (o : Oracle) (cfg : ResearchConfig) (icfg : IntensityConfig) :
    ∀ (fuel : Nat) (st out : LoopState),
      adaptiveLoop o none cfg icfg fuel st = .ok out →
      st.tick ≤ out.tick ∧
      ∀ N, adaptiveLoop o (some N) cfg icfg fuel st =
        if st.tick < out.tick ∧ N < out.tick then .error RunError.cancelled
        else .ok out := by
  intro fuel
  induction fuel with
  | zero =>
    intro st out hok
    simp only [adaptiveLoop, Except.ok.injEq] at hok
    subst hok
    refine ⟨Nat.le_refl _, ?_⟩
    intro N
    rw [if_neg (by omega : ¬(st.tick < st.tick ∧ N < st.tick))]
    rfl
  | succ f ih =>
    intro st out hok
    simp only [adaptiveLoop, aborted_none, Bool.false_eq_true, if_false] at hok
    cases hsc : synthChecks none icfg.synthesisLevels (st.tick + 1) with
    | error e => rw [hsc] at hok; simp at hok
    | ok tS =>
      rw [hsc] at hok
      dsimp only at hok
      obtain ⟨htS, hscN⟩ := synthChecks_sig icfg.synthesisLevels (st.tick + 1) tS hsc
      by_cases hstop : (!cfg.enableAdaptiveResearch || f = 0)
      · rw [if_pos hstop, Except.ok.injEq] at hok
        subst hok
        refine ⟨?_, ?_⟩
        · show st.tick ≤ tS
          omega
        · intro N
          dsimp only
          simp only [adaptiveLoop]
          by_cases hN : N ≤ st.tick
          · rw [if_pos ((aborted_some_iff N st.tick).mpr hN),
              if_pos (by omega : st.tick < tS ∧ N < tS)]
          · rw [if_neg (aborted_some_not N st.tick hN), hscN N]
            by_cases hc : N < tS
            · rw [if_pos hc]
              dsimp only
              rw [if_pos (by omega : st.tick < tS ∧ N < tS)]
            · rw [if_neg hc]
              dsimp only
              rw [if_pos hstop, if_neg (by omega : ¬(st.tick < tS ∧ N < tS))]
      · rw [if_neg hstop] at hok
        by_cases hg : (identifyKnowledgeGaps (o.gapsParse st.gapCtr)).isEmpty
        · rw [if_pos hg, Except.ok.injEq] at hok
          subst hok
          refine ⟨?_, ?_⟩
          · show st.tick ≤ tS
            omega
          · intro N
            dsimp only
            simp only [adaptiveLoop]
            by_cases hN : N ≤ st.tick
            · rw [if_pos ((aborted_some_iff N st.tick).mpr hN),
                if_pos (by omega : st.tick < tS ∧ N < tS)]
            · rw [if_neg (aborted_some_not N st.tick hN), hscN N]
              by_cases hc : N < tS
              · rw [if_pos hc]
                dsimp only
                rw [if_pos (by omega : st.tick < tS ∧ N < tS)]
              · rw [if_neg hc]
                dsimp only
                rw [if_neg hstop, if_pos hg,
                  if_neg (by omega : ¬(st.tick < tS ∧ N < tS))]
        · rw [if_neg hg] at hok
          cases hsg : searchForGaps none o.search o.fetch icfg.gapQueriesPerIteration
              (identifyKnowledgeGaps (o.gapsParse st.gapCtr))
              ([], st.seen, st.searchCtr, tS) with
          | error e => rw [hsg] at hok; simp at hok
          | ok res =>
            rw [hsg] at hok
            obtain ⟨newS, seen2, ctr2, t2⟩ := res
            dsimp only at hok
            obtain ⟨hsgle, hsgN⟩ := searchForGaps_sig o.search o.fetch
              icfg.gapQueriesPerIteration _ [] st.seen st.searchCtr tS _ hsg
            dsimp only at hsgle hsgN
            by_cases hne : newS.isEmpty
            · rw [if_pos hne, Except.ok.injEq] at hok
              subst hok
              refine ⟨?_, ?_⟩
              · show st.tick ≤ t2
                omega
              · intro N
                dsimp only
                simp only [adaptiveLoop]
                by_cases hN : N ≤ st.tick
                · rw [if_pos ((aborted_some_iff N st.tick).mpr hN),
                    if_pos (by omega : st.tick < t2 ∧ N < t2)]
                · rw [if_neg (aborted_some_not N st.tick hN), hscN N]
                  by_cases hc : N < tS
                  · rw [if_pos hc]
                    dsimp only
                    rw [if_pos (by omega : st.tick < t2 ∧ N < t2)]
                  · rw [if_neg hc]
                    dsimp only
                    rw [if_neg hstop, if_neg hg, hsgN N]
                    by_cases hc2 : tS < t2 ∧ N < t2
                    · rw [if_pos hc2]
                      dsimp only
                      rw [if_pos (by omega : st.tick < t2 ∧ N < t2)]
                    · rw [if_neg hc2]
                      dsimp only
                      rw [if_pos hne, if_neg (by omega : ¬(st.tick < t2 ∧ N < t2))]
            · rw [if_neg hne] at hok
              obtain ⟨hrle, hrN⟩ := ih _ out hok
              dsimp only at hrle hrN
              refine ⟨by omega, ?_⟩
              intro N
              simp only [adaptiveLoop]
              by_cases hN : N ≤ st.tick
              · rw [if_pos ((aborted_some_iff N st.tick).mpr hN),
                  if_pos (by omega : st.tick < out.tick ∧ N < out.tick)]
              · rw [if_neg (aborted_some_not N st.tick hN), hscN N]
                by_cases hc : N < tS
                · rw [if_pos hc]
                  dsimp only
                  rw [if_pos (by omega : st.tick < out.tick ∧ N < out.tick)]
                · rw [if_neg hc]
                  dsimp only
                  rw [if_neg hstop, if_neg hg, hsgN N]
                  by_cases hc2 : tS < t2 ∧ N < t2
                  · rw [if_pos hc2]
                    dsimp only
                    rw [if_pos (by omega : st.tick < out.tick ∧ N < out.tick)]
                  · rw [if_neg hc2]
                    dsimp only
                    rw [if_neg hne, hrN N]
                    by_cases hc3 : t2 < out.tick ∧ N < out.tick
                    · rw [if_pos hc3,
                        if_pos (by omega : st.tick < out.tick ∧ N < out.tick)]
                    · rw [if_neg hc3,
                        if_neg (by omega : ¬(st.tick < out.tick ∧ N < out.tick))]

/-- C2 (confirmed): cancellation is checked at every checkpoint of the
run (after planning, per search batch, after gathering, per loop
iteration, per synthesis level, per gap query, and per report stage), and
whenever the run's AbortSignal is first observed at any of those
checkpoints — in particular mid-run, e.g. during batch gathering, before
a gap-fill search, or before a report section — the run rejects with the
distinguished cancellation condition (RunError.cancelled, which the
caller pattern-matches apart from other failures) and, the result being
an error, no partial report is returned; a signal first observed only
after the run's last checkpoint leaves the result untouched. -/
theorem C2_cancelled_run_rejects (o : Oracle) (cfg : ResearchConfig)
    (icfg : IntensityConfig) (query : Str) (ans : List (Str × Str))
    (rep : ResearchReport) (stats : RunStats)
    (h : research o none cfg icfg query ans = .ok (rep, stats)) :
    ∀ N : Nat,
      (N < stats.checkpoints →
        research o (some N) cfg icfg query ans = .error RunError.cancelled) ∧
      (stats.checkpoints ≤ N →
        research o (some N) cfg icfg query ans = .ok (rep, stats)) := by
  unfold research at h
  simp only [aborted_none, Bool.false_eq_true, if_false] at h
  cases hg : gatherBatches none o.search icfg.maxSources icfg.sourcesPerSearch o.fetch
      (chunksOf icfg.parallelSearches
        ((createSearchPlan (if ans.isEmpty then query
            else incorporateClarifyingAnswers query ans)
          icfg.maxSearchQueries o.planResponse).take
          (min (createSearchPlan (if ans.isEmpty then query
              else incorporateClarifyingAnswers query ans)
            icfg.maxSearchQueries o.planResponse).length icfg.maxSearchQueries)))
      ([], [], 0, 0, 1) with
  | error e => rw [hg] at h; simp at h
  | ok g =>
    rw [hg] at h
    obtain ⟨gathered, seen, searchCtr, totalSearches, t1⟩ := g
    dsimp only at h
    obtain ⟨hgle, hgN⟩ := gatherBatches_sig o.search icfg.maxSources
      icfg.sourcesPerSearch o.fetch _ _ _ _ _ _ _ hg
    dsimp only at hgle hgN
    cases hloop : adaptiveLoop o none cfg icfg
        (if cfg.enableAdaptiveResearch
          then min cfg.maxResearchIterations icfg.adaptiveIterations else 1)
        { sources := sortByScoreDesc (scoreSourceRelevance (o.scoreParse 0) gathered),
          seen := seen, searchCtr := searchCtr, totalSearches := totalSearches,
          synthesis := [], scoreInv := 1, gapCtr := 0, synthCtr := 0,
          synthPasses := 0, gapAnalyses := 0, gapSearchRounds := 0,
          tick := t1 + 1 } with
    | error e => rw [hloop] at h; simp at h
    | ok st =>
      rw [hloop] at h
      dsimp only at h
      obtain ⟨hlle, hlN⟩ := adaptiveLoop_sig o cfg icfg _ _ st hloop
      dsimp only at hlle hlN
      cases hrep : generateComprehensiveReport o none (st.tick + 1) cfg query
          (if ans.isEmpty then query else incorporateClarifyingAnswers query ans)
          st.sources with
      | error e => rw [hrep] at h; simp at h
      | ok p =>
        rw [hrep] at h
        obtain ⟨repL, t3⟩ := p
        dsimp only at h
        rw [Except.ok.injEq, Prod.mk.injEq] at h
        obtain ⟨hr, hs⟩ := h
        obtain ⟨hrt, hrN⟩ := report_sig o cfg (st.tick + 1) query _ st.sources repL t3 hrep
        have hT : stats.checkpoints = t3 := by rw [← hs]
        have hrun : ∀ N, research o (some N) cfg icfg query ans =
            if N < t3 then .error RunError.cancelled else .ok (rep, stats) := by
          intro N
          unfold research
          dsimp only
          by_cases hN0 : N ≤ 0
          · rw [if_pos ((aborted_some_iff N 0).mpr hN0), if_pos (by omega : N < t3)]
          · rw [if_neg (aborted_some_not N 0 hN0), hgN N]
            by_cases hc1 : 1 < t1 ∧ N < t1
            · rw [if_pos hc1]
              dsimp only
              rw [if_pos (by omega : N < t3)]
            · rw [if_neg hc1]
              dsimp only
              by_cases hN1 : N ≤ t1
              · rw [if_pos ((aborted_some_iff N t1).mpr hN1), if_pos (by omega : N < t3)]
              · rw [if_neg (aborted_some_not N t1 hN1), hlN N]
                by_cases hc2 : t1 + 1 < st.tick ∧ N < st.tick
                · rw [if_pos hc2]
                  dsimp only
                  rw [if_pos (by omega : N < t3)]
                · rw [if_neg hc2]
                  dsimp only
                  by_cases hN2 : N ≤ st.tick
                  · rw [if_pos ((aborted_some_iff N st.tick).mpr hN2),
                      if_pos (by omega : N < t3)]
                  · rw [if_neg (aborted_some_not N st.tick hN2), hrN N]
                    by_cases hc3 : N < t3
                    · rw [if_pos hc3]
                      dsimp only
                      rw [if_pos hc3]
                    · rw [if_neg hc3]
                      dsimp only
                      rw [if_neg hc3, hr, hs]
        intro N
        refine ⟨fun h1 => ?_, fun h2 => ?_⟩
        · rw [hrun N, if_pos (by omega : N < t3)]
        · rw [hrun N, if_neg (by omega : ¬(N < t3))]

/-- Witness for C2 at a concrete run: the signal first observed at tick 1
— i.e. set after the post-planning checkpoint, during batch gathering —
makes the run reject with the cancellation condition, exercising a mid-run
checkpoint. -/
theorem C2_cancelled_run_rejects_witness :
    research oracleNoSearch (some 1) cfgNonAdaptive icfgQuick "q".data [] =
      .error RunError.cancelled := by
  have h := C2_cancelled_run_rejects oracleNoSearch cfgNonAdaptive icfgQuick
    "q".data [] _ _ rfl 1
  exact h.1 (by decide)
